import Mathlib

/-!
# Verification of the booru-db-danbooru index layer

This file embeds, in Lean, the index layer of the repository: the tag index
(`src/index/tag.rs`) with its abbreviation table and its nested tag database,
the id index (`src/index/id.rs`), the key/range index macros
(`src/index/mod.rs`), the field value parsers, and the post status derivation
(`src/post.rs`).  The repository uses the external `booru_db` crate for its
index primitives (bitset postings, `KeysIndex`, `RangeIndex`, `NgramIndex`,
the query AST and the database shell); that crate's sources are not part of
the repository, so those primitives are modelled from the specification and
are marked `Modelled from the spec:` in their doc comments.

Dense record IDs are `Nat`; a bitset posting is modelled as the strictly
ascending list of the IDs whose bit is set; hash maps are modelled as
association lists with distinct keys (new keys appended in insertion order).
-/

namespace BooruDanbooru

/-- Association-list lookup: the value of the first entry with the given key.
Models `HashMap::get` on maps whose keys are kept distinct. -/
def find? {α β : Type} [DecidableEq α] (k : α) : List (α × β) → Option β
  | [] => none
  | e :: r => if e.1 = k then some e.2 else find? k r

/-- Modelled from the spec: a packed-bitset posting (§4.1) is the set of dense
IDs whose bit is set; `addId` is `set(i)`, keeping the ascending ID order the
bitset iterates in.  Inserting a present ID is a no-op, as for a bitset. -/
def addId (id : Nat) : List Nat → List Nat
  | [] => [id]
  | x :: r => if id < x then id :: x :: r else if id = x then x :: r else x :: addId id r

/-- Modelled from the spec: `clear(i)` on a bitset posting (§4.1). -/
def delId (id : Nat) (p : List Nat) : List Nat :=
  p.filter (· ≠ id)

theorem mem_addId {j : Nat} {p : List Nat} {i : Nat} :
    i ∈ addId j p ↔ i = j ∨ i ∈ p := by
  induction p with
  | nil => simp [addId]
  | cons x r ih =>
      by_cases h1 : j < x
      · simp [addId, h1]
      · by_cases h2 : j = x
        · subst h2; simp [addId, h1]
        · simp only [addId, if_neg h1, if_neg h2, List.mem_cons, ih]
          tauto

theorem sorted_addId {j : Nat} {p : List Nat} (h : p.Sorted (· < ·)) (hj : j ∉ p) :
    (addId j p).Sorted (· < ·) := by
  induction p with
  | nil => simp [addId]
  | cons x r ih =>
      have hxr : ∀ y ∈ r, x < y := by
        intro y hy
        exact (List.sorted_cons.mp h).1 y hy
      have hr : r.Sorted (· < ·) := (List.sorted_cons.mp h).2
      by_cases h1 : j < x
      · simp only [addId, if_pos h1]
        exact List.sorted_cons.mpr ⟨by
          intro y hy
          rcases List.mem_cons.mp hy with rfl | hy'
          · exact h1
          · exact h1.trans (hxr y hy'), h⟩
      · have h2 : j ≠ x := by
          intro e; exact hj (e ▸ List.mem_cons_self x r)
        simp only [addId, if_neg h1, if_neg h2]
        have hjr : j ∉ r := fun hmem => hj (List.mem_cons_of_mem x hmem)
        refine List.sorted_cons.mpr ⟨?_, ih hr hjr⟩
        intro y hy
        rcases mem_addId.mp hy with rfl | hy'
        · omega
        · exact hxr y hy'

theorem length_addId_of_not_mem {j : Nat} {p : List Nat} (h : j ∉ p) :
    (addId j p).length = p.length + 1 := by
  induction p with
  | nil => simp [addId]
  | cons x r ih =>
      have h2 : j ≠ x := by intro e; exact h (e ▸ List.mem_cons_self x r)
      by_cases h1 : j < x
      · simp [addId, h1]
      · have hr : j ∉ r := fun hmem => h (List.mem_cons_of_mem x hmem)
        simp [addId, h1, h2, ih hr]

theorem mem_delId {j i : Nat} {p : List Nat} :
    i ∈ delId j p ↔ i ∈ p ∧ i ≠ j := by
  simp [delId, List.mem_filter]

theorem sorted_delId {j : Nat} {p : List Nat} (h : p.Sorted (· < ·)) :
    (delId j p).Sorted (· < ·) :=
  h.filter _

theorem length_delId_of_mem {j : Nat} {p : List Nat} (hnd : p.Nodup)
    (h : j ∈ p) : (delId j p).length + 1 = p.length := by
  induction p with
  | nil => simp at h
  | cons x r ih =>
      have hxr : x ∉ r := (List.nodup_cons.mp hnd).1
      have hr : r.Nodup := (List.nodup_cons.mp hnd).2
      rcases List.mem_cons.mp h with rfl | hmem
      · have : delId j (j :: r) = r := by
          simp only [delId, List.filter_cons, ne_eq, not_true_eq_false, decide_False,
            Bool.false_eq_true, if_false]
          exact List.filter_eq_self.mpr (by
            intro y hy
            simp only [ne_eq, decide_eq_true_eq]
            intro e; subst e; exact hxr hy)
        simp [this]
      · have hx : x ≠ j := by
          intro e; subst e; exact hxr hmem
        simp only [delId, List.filter_cons, ne_eq, hx, not_false_eq_true, decide_True, if_true,
          List.length_cons]
        simpa [delId] using ih hr hmem

theorem find?_mem {α β : Type} [DecidableEq α] {k : α} {v : β} {l : List (α × β)}
    (h : find? k l = some v) : (k, v) ∈ l := by
  induction l with
  | nil => simp [find?] at h
  | cons e r ih =>
      by_cases he : e.1 = k
      · rw [find?, if_pos he] at h
        cases h
        subst he
        rw [Prod.mk.eta]
        exact List.mem_cons_self e r
      · simp only [find?, if_neg he] at h
        exact List.mem_cons_of_mem e (ih h)

theorem find?_eq_none_iff {α β : Type} [DecidableEq α] {k : α} {l : List (α × β)} :
    find? k l = none ↔ k ∉ l.map Prod.fst := by
  induction l with
  | nil => simp [find?]
  | cons e r ih =>
      by_cases he : e.1 = k
      · simp [find?, he]
      · simp only [find?, if_neg he, List.map_cons, List.mem_cons, ih]
        constructor
        · rintro h (h1 | h2)
          · exact he h1.symm
          · exact h h2
        · intro h h2
          exact h (Or.inr h2)

theorem find?_isSome_iff {α β : Type} [DecidableEq α] {k : α} {l : List (α × β)} :
    (find? k l).isSome = true ↔ k ∈ l.map Prod.fst := by
  rcases h : find? k l with _ | v
  · simpa [Option.isSome] using find?_eq_none_iff.mp h
  · simp only [Option.isSome, true_iff]
    by_contra hk
    rw [find?_eq_none_iff.mpr hk] at h
    cases h

theorem find?_of_mem_nodup {α β : Type} [DecidableEq α] {k : α} {v : β} {l : List (α × β)}
    (hnd : (l.map Prod.fst).Nodup) (h : (k, v) ∈ l) : find? k l = some v := by
  induction l with
  | nil => simp at h
  | cons e r ih =>
      rcases List.mem_cons.mp h with rfl | hmem
      · simp [find?]
      · have he : e.1 ≠ k := by
          intro hek
          have : e.1 ∈ r.map Prod.fst := hek ▸ List.mem_map_of_mem Prod.fst hmem
          exact (List.nodup_cons.mp (by simpa using hnd)).1 this
        simp only [find?, if_neg he]
        exact ih (List.nodup_cons.mp (by simpa using hnd)).2 hmem

/-- Modelled from the spec: `KeysIndex<Arc<str>>` (§4.5) — a map from tag name
to its bitset posting, with the per-key matched count being the posting's
popcount.  Adding a present ID to a key's bitset is a no-op; a new key's entry
is created on demand (appended, standing in for hash-map insertion). -/
def keysAddId (t : String) (j : Nat) : List (String × List Nat) → List (String × List Nat)
  | [] => [(t, [j])]
  | e :: r => if e.1 = t then (e.1, addId j e.2) :: r else e :: keysAddId t j r

/-- Modelled from the spec: removing an ID from a key's posting in a
`KeysIndex`; an empty posting is dropped (§4.3/§4.5 "drop posting if empty"). -/
def keysDelId (t : String) (j : Nat) : List (String × List Nat) → List (String × List Nat)
  | [] => []
  | e :: r =>
      if e.1 = t then
        (let p := delId j e.2; if p = [] then r else (e.1, p) :: r)
      else e :: keysDelId t j r

/-- Modelled from the spec: `KeysIndex::insert(id, keys)` adds the ID to every
key's posting (§4.5). -/
def keysInsert (ks : List (String × List Nat)) (j : Nat) (tags : List String) :
    List (String × List Nat) :=
  tags.foldl (fun a t => keysAddId t j a) ks

/-- Modelled from the spec: `KeysIndex::remove(id, keys)` clears the ID from
every key's posting (§4.5). -/
def keysRemove (ks : List (String × List Nat)) (j : Nat) (tags : List String) :
    List (String × List Nat) :=
  tags.foldl (fun a t => keysDelId t j a) ks

/-- Modelled from the spec: `KeysIndex::get` returns the posting for a key, or
`None` when absent (§4.3). -/
def keysGet (t : String) (ks : List (String × List Nat)) : Option (List Nat) :=
  find? t ks

/-- The matched count of a tag: the popcount of its posting, `0` when the tag
has no posting. -/
def keysCount (t : String) (ks : List (String × List Nat)) : Nat :=
  ((keysGet t ks).getD []).length

/-- Modelled from the spec: `KeysIndex::update(id, old, new)` computes
`added = new − old` and `removed = old − new` and applies them (§4.5). -/
def keysUpdate (ks : List (String × List Nat)) (j : Nat) (oldT newT : List String) :
    List (String × List Nat) :=
  keysRemove (keysInsert ks j (newT.filter (· ∉ oldT))) j (oldT.filter (· ∉ newT))

theorem find?_keysAddId (t : String) (j : Nat) (ks : List (String × List Nat)) (u : String) :
    find? u (keysAddId t j ks) =
      if u = t then some (addId j ((find? t ks).getD [])) else find? u ks := by
  induction ks with
  | nil =>
      by_cases h : u = t
      · subst h; simp [keysAddId, find?, addId]
      · simp [keysAddId, find?, h, Ne.symm h]
  | cons e r ih =>
      by_cases he : e.1 = t
      · subst he
        by_cases h : u = e.1
        · subst h; simp [keysAddId, find?]
        · simp [keysAddId, find?, h, Ne.symm h]
      · by_cases h : u = e.1
        · subst h
          simp [keysAddId, he, find?]
        · simp [keysAddId, he, find?, Ne.symm h, ih]

theorem map_fst_keysAddId (t : String) (j : Nat) (ks : List (String × List Nat)) :
    (keysAddId t j ks).map Prod.fst =
      if t ∈ ks.map Prod.fst then ks.map Prod.fst else ks.map Prod.fst ++ [t] := by
  induction ks with
  | nil => simp [keysAddId]
  | cons e r ih =>
      by_cases he : e.1 = t
      · simp [keysAddId, he]
      · simp only [keysAddId, if_neg he, List.map_cons, ih, List.mem_cons]
        by_cases h : t ∈ r.map Prod.fst
        · simp [h, Ne.symm he]
        · simp [h, Ne.symm he]

theorem find?_keysDelId (t : String) (j : Nat) {ks : List (String × List Nat)}
    (hnd : (ks.map Prod.fst).Nodup) (u : String) :
    find? u (keysDelId t j ks) =
      if u = t then
        (match find? t ks with
          | none => none
          | some p => if delId j p = [] then none else some (delId j p))
      else find? u ks := by
  induction ks with
  | nil =>
      by_cases h : u = t
      · subst h; simp [keysDelId, find?]
      · simp [keysDelId, find?, h]
  | cons e r ih =>
      have hfst : e.1 ∉ r.map Prod.fst := (List.nodup_cons.mp (by simpa using hnd)).1
      have hndr : (r.map Prod.fst).Nodup := (List.nodup_cons.mp (by simpa using hnd)).2
      by_cases he : e.1 = t
      · subst he
        by_cases h : u = e.1
        · subst h
          by_cases hp : delId j e.2 = []
          · simp [keysDelId, find?, hp, find?_eq_none_iff.mpr hfst]
          · simp [keysDelId, hp, find?]
        · by_cases hp : delId j e.2 = []
          · simp [keysDelId, hp, find?, Ne.symm h, h]
          · simp [keysDelId, hp, find?, Ne.symm h, h]
      · by_cases h : u = e.1
        · subst h
          simp [keysDelId, he, find?]
        · simp [keysDelId, he, find?, Ne.symm h, ih hndr]

theorem map_fst_keysDelId_sublist (t : String) (j : Nat) (ks : List (String × List Nat)) :
    List.Sublist ((keysDelId t j ks).map Prod.fst) (ks.map Prod.fst) := by
  induction ks with
  | nil => simp [keysDelId]
  | cons e r ih =>
      by_cases he : e.1 = t
      · by_cases hp : delId j e.2 = []
        · simp only [keysDelId, if_pos he, hp, if_pos rfl, List.map_cons]
          exact List.sublist_cons_self e.1 (r.map Prod.fst)
        · simp [keysDelId, he, hp]
      · simp only [keysDelId, if_neg he, List.map_cons]
        exact List.Sublist.cons₂ e.1 ih

theorem nodup_fst_keysAddId {t : String} {j : Nat} {ks : List (String × List Nat)}
    (hnd : (ks.map Prod.fst).Nodup) : ((keysAddId t j ks).map Prod.fst).Nodup := by
  rw [map_fst_keysAddId]
  by_cases h : t ∈ ks.map Prod.fst
  · simpa [h] using hnd
  · simp only [h, if_false]
    rw [List.nodup_append]
    refine ⟨hnd, List.nodup_singleton t, ?_⟩
    intro a ha hat
    rw [List.mem_singleton] at hat
    exact h (hat ▸ ha)

theorem nodup_fst_keysDelId {t : String} {j : Nat} {ks : List (String × List Nat)}
    (hnd : (ks.map Prod.fst).Nodup) : ((keysDelId t j ks).map Prod.fst).Nodup :=
  (map_fst_keysDelId_sublist t j ks).nodup hnd

theorem nodup_fst_keysInsert {ks : List (String × List Nat)} {j : Nat} {tags : List String}
    (hnd : (ks.map Prod.fst).Nodup) : ((keysInsert ks j tags).map Prod.fst).Nodup := by
  induction tags generalizing ks with
  | nil => simpa [keysInsert] using hnd
  | cons t rest ih => exact ih (nodup_fst_keysAddId hnd)

theorem nodup_fst_keysRemove {ks : List (String × List Nat)} {j : Nat} {tags : List String}
    (hnd : (ks.map Prod.fst).Nodup) : ((keysRemove ks j tags).map Prod.fst).Nodup := by
  induction tags generalizing ks with
  | nil => simpa [keysRemove] using hnd
  | cons t rest ih => exact ih (nodup_fst_keysDelId hnd)

theorem find?_keysInsert (ks : List (String × List Nat)) (j : Nat) {tags : List String}
    (htags : tags.Nodup) (u : String) :
    find? u (keysInsert ks j tags) =
      if u ∈ tags then some (addId j ((find? u ks).getD [])) else find? u ks := by
  induction tags generalizing ks with
  | nil => simp [keysInsert]
  | cons t rest ih =>
      have htr : t ∉ rest := (List.nodup_cons.mp htags).1
      have hrest : rest.Nodup := (List.nodup_cons.mp htags).2
      show find? u (keysInsert (keysAddId t j ks) j rest) = _
      rw [ih _ hrest]
      by_cases hu : u ∈ rest
      · have hut : u ≠ t := fun e => htr (e ▸ hu)
        rw [find?_keysAddId, if_neg hut]
        simp [hu, List.mem_cons]
      · rw [find?_keysAddId]
        by_cases hut : u = t
        · subst hut; simp [hu]
        · simp [hu, hut]

theorem find?_keysRemove (j : Nat) {tags : List String} (htags : tags.Nodup)
    {ks : List (String × List Nat)} (hnd : (ks.map Prod.fst).Nodup) (u : String) :
    find? u (keysRemove ks j tags) =
      if u ∈ tags then
        (match find? u ks with
          | none => none
          | some p => if delId j p = [] then none else some (delId j p))
      else find? u ks := by
  induction tags generalizing ks with
  | nil => simp [keysRemove]
  | cons t rest ih =>
      have htr : t ∉ rest := (List.nodup_cons.mp htags).1
      have hrest : rest.Nodup := (List.nodup_cons.mp htags).2
      show find? u (keysRemove (keysDelId t j ks) j rest) = _
      rw [ih hrest (nodup_fst_keysDelId hnd)]
      by_cases hu : u ∈ rest
      · have hut : u ≠ t := fun e => htr (e ▸ hu)
        rw [find?_keysDelId t j hnd, if_neg hut]
        simp [hu, List.mem_cons]
      · rw [find?_keysDelId t j hnd]
        by_cases hut : u = t
        · subst hut; simp [hu]
        · simp [hu, hut]

/-- Association-list store: replaces the value of the first entry with the key,
appending a new entry when the key is absent.  Models `HashMap::insert` /
`entry(k).or_default()` followed by a write. -/
def setA {α β : Type} [DecidableEq α] (k : α) (v : β) : List (α × β) → List (α × β)
  | [] => [(k, v)]
  | e :: r => if e.1 = k then (k, v) :: r else e :: setA k v r

/-- Association-list removal of the entry with the key.  Models
`HashMap::remove`. -/
def removeA {α β : Type} [DecidableEq α] (k : α) : List (α × β) → List (α × β)
  | [] => []
  | e :: r => if e.1 = k then r else e :: removeA k r

theorem find?_setA {α β : Type} [DecidableEq α] (k : α) (v : β) (l : List (α × β)) (u : α) :
    find? u (setA k v l) = if u = k then some v else find? u l := by
  induction l with
  | nil =>
      by_cases h : u = k
      · subst h; simp [setA, find?]
      · simp [setA, find?, h, Ne.symm h]
  | cons e r ih =>
      by_cases he : e.1 = k
      · subst he
        by_cases h : u = e.1
        · subst h; simp [setA, find?]
        · simp [setA, find?, h, Ne.symm h]
      · by_cases h : u = e.1
        · subst h; simp [setA, find?, he]
        · simp [setA, find?, he, Ne.symm h, ih]

theorem map_fst_setA {α β : Type} [DecidableEq α] (k : α) (v : β) (l : List (α × β)) :
    (setA k v l).map Prod.fst =
      if k ∈ l.map Prod.fst then l.map Prod.fst else l.map Prod.fst ++ [k] := by
  induction l with
  | nil => simp [setA]
  | cons e r ih =>
      by_cases he : e.1 = k
      · simp [setA, he]
      · simp only [setA, if_neg he, List.map_cons, ih, List.mem_cons]
        by_cases h : k ∈ r.map Prod.fst
        · simp [h, Ne.symm he]
        · simp [h, Ne.symm he]

theorem find?_removeA {α β : Type} [DecidableEq α] (k : α) {l : List (α × β)}
    (hnd : (l.map Prod.fst).Nodup) (u : α) :
    find? u (removeA k l) = if u = k then none else find? u l := by
  induction l with
  | nil => simp [removeA, find?]
  | cons e r ih =>
      have hfst : e.1 ∉ r.map Prod.fst := (List.nodup_cons.mp (by simpa using hnd)).1
      have hndr : (r.map Prod.fst).Nodup := (List.nodup_cons.mp (by simpa using hnd)).2
      by_cases he : e.1 = k
      · subst he
        by_cases h : u = e.1
        · subst h
          simp [removeA, find?_eq_none_iff.mpr hfst]
        · simp [removeA, find?, Ne.symm h, h]
      · by_cases h : u = e.1
        · subst h; simp [removeA, he, find?]
        · simp [removeA, find?, he, Ne.symm h, ih hndr, h]

theorem map_fst_removeA_sublist {α β : Type} [DecidableEq α] (k : α) (l : List (α × β)) :
    List.Sublist ((removeA k l).map Prod.fst) (l.map Prod.fst) := by
  induction l with
  | nil => simp [removeA]
  | cons e r ih =>
      by_cases he : e.1 = k
      · simp only [removeA, if_pos he, List.map_cons]
        exact List.sublist_cons_self e.1 (r.map Prod.fst)
      · simp only [removeA, if_neg he, List.map_cons]
        exact List.Sublist.cons₂ e.1 ih

/-- `Vec::insert(index, element)`: inserts at the index, shifting later
elements (appends when the index is past the end, which the embedded calls
never reach). -/
def insertAt {α : Type} : Nat → α → List α → List α
  | 0, a, l => a :: l
  | _ + 1, a, [] => [a]
  | n + 1, a, x :: r => x :: insertAt n a r

theorem insertAt_perm {α : Type} (n : Nat) (a : α) (l : List α) :
    List.Perm (insertAt n a l) (a :: l) := by
  induction l generalizing n with
  | nil => cases n <;> simp [insertAt]
  | cons x r ih =>
      cases n with
      | zero => simp [insertAt]
      | succ m =>
          show List.Perm (x :: insertAt m a r) (a :: x :: r)
          exact ((ih m).cons x).trans (List.Perm.swap a x r)

theorem mem_insertAt {α : Type} {n : Nat} {a y : α} {l : List α} :
    y ∈ insertAt n a l ↔ y = a ∨ y ∈ l := by
  rw [(insertAt_perm n a l).mem_iff]
  simp

theorem map_insertAt {α β : Type} (f : α → β) (n : Nat) (a : α) (l : List α) :
    (insertAt n a l).map f = insertAt n (f a) (l.map f) := by
  induction l generalizing n with
  | nil => cases n <;> simp [insertAt]
  | cons x r ih =>
      cases n with
      | zero => simp [insertAt]
      | succ m => simp [insertAt, ih]

/-- Byte-lexicographic strict order on strings, written on scalar lists (UTF-8
byte order and Unicode-scalar order agree).  Models Rust's `str` ordering. -/
def lexLt : List Char → List Char → Bool
  | [], [] => false
  | [], _ :: _ => true
  | _ :: _, [] => false
  | a :: as, b :: bs => if a.toNat < b.toNat then true else if b.toNat < a.toNat then false else lexLt as bs

/-- Rust's `Ord::cmp` on `(u32, String)` items of an abbreviation bucket:
equal items compare `Equal`; distinct items compare by count, then by the
byte-lexicographic string order. -/
def cmpItem (x y : Nat × String) : Ordering :=
  if x = y then .eq
  else if x.1 < y.1 || (x.1 = y.1 && lexLt x.2.data y.2.data) then .lt
  else .gt

theorem cmpItem_eq_iff {x y : Nat × String} : cmpItem x y = .eq ↔ x = y := by
  unfold cmpItem
  by_cases h : x = y
  · simp [h]
  · simp only [h, if_false]
    by_cases h2 : (x.1 < y.1 || (x.1 = y.1 && lexLt x.2.data y.2.data)) = true
    · simp [h2, h]
    · simp only [Bool.not_eq_true] at h2
      simp [h2, h]

theorem ordering_swap_eq_iff {o : Ordering} : o.swap = .eq ↔ o = .eq := by
  cases o <;> simp [Ordering.swap]

/-- The loop of Rust's `slice::binary_search_by` with the comparator
`probe.cmp(&item).reverse()` (searching a bucket kept in descending item
order).  `fuel` dominates the number of iterations; the result is
`(found, index)`: `Ok(index)` is `(true, index)`, `Err(index)` is
`(false, index)`. -/
def bsGo (xs : List (Nat × String)) (item : Nat × String) :
    Nat → Nat → Nat → Bool × Nat
  | 0, left, _ => (false, left)
  | fuel + 1, left, right =>
      if left < right then
        match (cmpItem (xs.getD ((left + right) / 2) (0, "")) item).swap with
        | .lt => bsGo xs item fuel ((left + right) / 2 + 1) right
        | .gt => bsGo xs item fuel left ((left + right) / 2)
        | .eq => (true, (left + right) / 2)
      else (false, left)

/-- Rust's `slice::binary_search_by` with the reversed comparator, as used by
`TagAbbreviations`. -/
def rustBinarySearch (xs : List (Nat × String)) (item : Nat × String) : Bool × Nat :=
  bsGo xs item (xs.length + 1) 0 xs.length

theorem bsGo_found {xs : List (Nat × String)} {item : Nat × String} {fuel l r i : Nat}
    (hr : r ≤ xs.length) (h : bsGo xs item fuel l r = (true, i)) :
    i < xs.length ∧ xs.getD i (0, "") = item := by
  induction fuel generalizing l r with
  | zero => simp [bsGo] at h
  | succ fuel ih =>
      rw [bsGo] at h
      by_cases hlr : l < r
      · rw [if_pos hlr] at h
        have hmid : (l + r) / 2 < r := by omega
        rcases ho : (cmpItem (xs.getD ((l + r) / 2) (0, "")) item).swap with _ | _ | _
        · rw [ho] at h
          exact ih hr h
        · rw [ho] at h
          cases h
          refine ⟨lt_of_lt_of_le hmid hr, ?_⟩
          exact cmpItem_eq_iff.mp (ordering_swap_eq_iff.mp ho)
        · rw [ho] at h
          exact ih (le_trans (le_of_lt hmid) hr) h
      · rw [if_neg hlr] at h
        cases h

theorem rustBinarySearch_found_mem {xs : List (Nat × String)} {item : Nat × String} {i : Nat}
    (h : rustBinarySearch xs item = (true, i)) : item ∈ xs := by
  obtain ⟨hlen, hget⟩ := bsGo_found (le_refl xs.length) h
  rw [List.getD_eq_getElem xs (0, "") hlen] at hget
  exact hget ▸ List.getElem_mem hlen

/-- The parenthesis removal step of `TagAbbreviations::abbreviate`:
`text.replace(|c| ['(', ')'].contains(&c), "")`. -/
def removeParens (s : List Char) : List Char :=
  s.filter (fun c => !(c == '(' || c == ')'))

/-- `str::split('_')` on a scalar list: the parts between underscores,
including empty parts (splitting the empty string gives one empty part). -/
def splitUnderscore : List Char → List (List Char)
  | [] => [[]]
  | c :: rest =>
      if c = '_' then [] :: splitUnderscore rest
      else
        match splitUnderscore rest with
        | [] => [[c]]
        | p :: ps => (c :: p) :: ps

/-- `TagAbbreviations::abbreviate` (src/index/tag.rs): remove `(` and `)`,
split on `_`, and concatenate the first character of each non-empty part. -/
def abbreviate (t : String) : String :=
  String.mk ((splitUnderscore (removeParens t.data)).filterMap List.head?)

/-- The found-branch of `TagAbbreviations::insert` (src/index/tag.rs): find the
first bucket item whose tag equals the text and increment its count in place
(`item.0 += 1`); `none` when no item carries the tag. -/
def bucketInc (t : String) : List (Nat × String) → Option (List (Nat × String))
  | [] => none
  | e :: r =>
      if e.2 = t then some ((e.1 + 1, e.2) :: r)
      else (bucketInc t r).map (e :: ·)

/-- The body of `TagAbbreviations::remove` (src/index/tag.rs): find the first
bucket item whose tag equals the text, decrement its count (`*count -= 1`) and
drop the item when the count reaches zero; `none` when no item carries the
tag (in which case the bucket is left unchanged). -/
def bucketDecF (t : String) : List (Nat × String) → Option (List (Nat × String))
  | [] => none
  | e :: r =>
      if e.2 = t then some (if e.1 - 1 = 0 then r else (e.1 - 1, e.2) :: r)
      else (bucketDecF t r).map (e :: ·)

/-- The abbreviation table of `TagIndex`: abbreviation → bucket of
`(count, tag)` items (`TagAbbreviations.items`). -/
def Abbrevs : Type := List (String × List (Nat × String))

/-- `TagAbbreviations::insert` (src/index/tag.rs): in the text's abbreviation
bucket, increment the item carrying the text, or insert a fresh `(1, text)`
item at the position Rust's reversed binary search reports (only when the
search misses — on a hit the vector is left untouched). -/
def abbrevInsert (t : String) (ab : Abbrevs) : Abbrevs :=
  let a := abbreviate t
  let b := (find? a ab).getD []
  let b' :=
    match bucketInc t b with
    | some nb => nb
    | none =>
        match rustBinarySearch b (1, t) with
        | (true, _) => b
        | (false, i) => insertAt i (1, t) b
  setA a b' ab

/-- `TagAbbreviations::insert_item` (src/index/tag.rs), used while loading:
insert `(count, text)` at the index the reversed binary search reports,
found or not (`unwrap_or_else(|e| e)`). -/
def abbrevInsertItem (t : String) (c : Nat) (ab : Abbrevs) : Abbrevs :=
  let a := abbreviate t
  let b := (find? a ab).getD []
  setA a (insertAt (rustBinarySearch b (c, t)).2 (c, t) b) ab

/-- `TagAbbreviations::remove` (src/index/tag.rs): decrement the item carrying
the text; remove the item at count zero, and the whole bucket entry when it
empties.  Missing bucket or missing item leaves the table unchanged. -/
def abbrevRemove (t : String) (ab : Abbrevs) : Abbrevs :=
  let a := abbreviate t
  match find? a ab with
  | none => ab
  | some b =>
      match bucketDecF t b with
      | none => ab
      | some b' => if b' = [] then removeA a ab else setA a b' ab

/-- `TagAbbreviations::get` (src/index/tag.rs): the tag of the first item of
the abbreviation's bucket. -/
def abbrevGet (a : String) (ab : Abbrevs) : Option String :=
  (find? a ab).bind (fun b => b.head?.map (·.2))

theorem bucketInc_none_of_not_mem {t : String} {b : List (Nat × String)}
    (h : ∀ e ∈ b, e.2 ≠ t) : bucketInc t b = none := by
  induction b with
  | nil => rfl
  | cons e r ih =>
      have he : e.2 ≠ t := h e (List.mem_cons_self e r)
      rw [bucketInc, if_neg he, ih (fun x hx => h x (List.mem_cons_of_mem e hx))]
      rfl

theorem bucketInc_eq {t : String} {b : List (Nat × String)}
    (hnd : (b.map Prod.snd).Nodup) {c : Nat} (hmem : (c, t) ∈ b) :
    ∃ b', bucketInc t b = some b' ∧ b'.map Prod.snd = b.map Prod.snd ∧
      ∀ x, x ∈ b' ↔ (x = (c + 1, t) ∨ (x ∈ b ∧ x.2 ≠ t)) := by
  induction b with
  | nil => simp at hmem
  | cons e r ih =>
      have hsnd : e.2 ∉ r.map Prod.snd := (List.nodup_cons.mp (by simpa using hnd)).1
      have hndr : (r.map Prod.snd).Nodup := (List.nodup_cons.mp (by simpa using hnd)).2
      by_cases he : e.2 = t
      · have hec : e = (c, t) := by
          rcases List.mem_cons.mp hmem with h1 | h2
          · exact h1.symm
          · exfalso
            have : t ∈ r.map Prod.snd := by
              simpa using List.mem_map_of_mem Prod.snd h2
            exact hsnd (he ▸ this)
        refine ⟨(c + 1, t) :: r, ?_, ?_, ?_⟩
        · rw [bucketInc, if_pos he, hec]
        · simp [hec]
        · intro x
          subst hec
          simp only [List.mem_cons]
          constructor
          · rintro (rfl | hx)
            · exact Or.inl rfl
            · refine Or.inr ⟨Or.inr hx, ?_⟩
              intro hxt
              apply hsnd
              simpa [← hxt] using List.mem_map_of_mem Prod.snd hx
          · rintro (rfl | ⟨hx | hx, hxt⟩)
            · exact Or.inl rfl
            · exact absurd (congrArg Prod.snd hx) (by simpa using hxt)
            · exact Or.inr hx
      · have hmr : (c, t) ∈ r := by
          rcases List.mem_cons.mp hmem with h1 | h2
          · exact absurd (congrArg Prod.snd h1.symm) (by simpa using he)
          · exact h2
        obtain ⟨b'', hb1, hb2, hb3⟩ := ih hndr hmr
        refine ⟨e :: b'', ?_, ?_, ?_⟩
        · rw [bucketInc, if_neg he, hb1]
          rfl
        · simp [hb2]
        · intro x
          simp only [List.mem_cons, hb3]
          constructor
          · rintro (rfl | hx | hx)
            · exact Or.inr ⟨Or.inl rfl, he⟩
            · exact Or.inl hx
            · exact Or.inr ⟨Or.inr hx.1, hx.2⟩
          · rintro (rfl | ⟨h1 | h1, h2⟩)
            · exact Or.inr (Or.inl rfl)
            · exact Or.inl h1
            · exact Or.inr (Or.inr ⟨h1, h2⟩)

theorem bucketDecF_eq_one {t : String} {b : List (Nat × String)}
    (hnd : (b.map Prod.snd).Nodup) (hmem : (1, t) ∈ b) :
    ∃ b', bucketDecF t b = some b' ∧ List.Sublist (b'.map Prod.snd) (b.map Prod.snd) ∧
      ∀ x, x ∈ b' ↔ (x ∈ b ∧ x.2 ≠ t) := by
  induction b with
  | nil => simp at hmem
  | cons e r ih =>
      have hsnd : e.2 ∉ r.map Prod.snd := (List.nodup_cons.mp (by simpa using hnd)).1
      have hndr : (r.map Prod.snd).Nodup := (List.nodup_cons.mp (by simpa using hnd)).2
      by_cases he : e.2 = t
      · have hec : e = (1, t) := by
          rcases List.mem_cons.mp hmem with h1 | h2
          · exact h1.symm
          · exfalso
            have : t ∈ r.map Prod.snd := by
              simpa using List.mem_map_of_mem Prod.snd h2
            exact hsnd (he ▸ this)
        subst hec
        refine ⟨r, ?_, ?_, ?_⟩
        · simp [bucketDecF]
        · simp only [List.map_cons]
          exact List.sublist_cons_self (1, t).2 (r.map Prod.snd)
        · intro x
          constructor
          · intro hx
            refine ⟨List.mem_cons_of_mem _ hx, ?_⟩
            intro hxt
            apply hsnd
            show t ∈ r.map Prod.snd
            rw [← hxt]
            exact List.mem_map_of_mem Prod.snd hx
          · rintro ⟨hx, hxt⟩
            rcases List.mem_cons.mp hx with rfl | hx2
            · exact absurd rfl hxt
            · exact hx2
      · have hmr : (1, t) ∈ r := by
          rcases List.mem_cons.mp hmem with h1 | h2
          · exact absurd (congrArg Prod.snd h1.symm) (by simpa using he)
          · exact h2
        obtain ⟨b'', hb1, hb2, hb3⟩ := ih hndr hmr
        refine ⟨e :: b'', ?_, ?_, ?_⟩
        · rw [bucketDecF, if_neg he, hb1]
          rfl
        · simpa using List.Sublist.cons₂ e.2 hb2
        · intro x
          simp only [List.mem_cons, hb3]
          constructor
          · rintro (rfl | ⟨h1, h2⟩)
            · exact ⟨Or.inl rfl, he⟩
            · exact ⟨Or.inr h1, h2⟩
          · rintro ⟨h1 | h1, h2⟩
            · exact Or.inl h1
            · exact Or.inr ⟨h1, h2⟩

theorem bucketDecF_eq_ge {t : String} {b : List (Nat × String)} {c : Nat}
    (hnd : (b.map Prod.snd).Nodup) (hmem : (c, t) ∈ b) (hc : c - 1 ≠ 0) :
    ∃ b', bucketDecF t b = some b' ∧ b'.map Prod.snd = b.map Prod.snd ∧
      ∀ x, x ∈ b' ↔ (x = (c - 1, t) ∨ (x ∈ b ∧ x.2 ≠ t)) := by
  induction b with
  | nil => simp at hmem
  | cons e r ih =>
      have hsnd : e.2 ∉ r.map Prod.snd := (List.nodup_cons.mp (by simpa using hnd)).1
      have hndr : (r.map Prod.snd).Nodup := (List.nodup_cons.mp (by simpa using hnd)).2
      by_cases he : e.2 = t
      · have hec : e = (c, t) := by
          rcases List.mem_cons.mp hmem with h1 | h2
          · exact h1.symm
          · exfalso
            have : t ∈ r.map Prod.snd := by
              simpa using List.mem_map_of_mem Prod.snd h2
            exact hsnd (he ▸ this)
        refine ⟨(c - 1, t) :: r, ?_, ?_, ?_⟩
        · rw [bucketDecF, if_pos he, hec]
          simp [hc]
        · simp [hec]
        · intro x
          subst hec
          simp only [List.mem_cons]
          constructor
          · rintro (rfl | hx)
            · exact Or.inl rfl
            · refine Or.inr ⟨Or.inr hx, ?_⟩
              intro hxt
              apply hsnd
              simpa [← hxt] using List.mem_map_of_mem Prod.snd hx
          · rintro (rfl | ⟨hx | hx, hxt⟩)
            · exact Or.inl rfl
            · exact absurd (congrArg Prod.snd hx) (by simpa using hxt)
            · exact Or.inr hx
      · have hmr : (c, t) ∈ r := by
          rcases List.mem_cons.mp hmem with h1 | h2
          · exact absurd (congrArg Prod.snd h1.symm) (by simpa using he)
          · exact h2
        obtain ⟨b'', hb1, hb2, hb3⟩ := ih hndr hmr
        refine ⟨e :: b'', ?_, ?_, ?_⟩
        · rw [bucketDecF, if_neg he, hb1]
          rfl
        · simp [hb2]
        · intro x
          simp only [List.mem_cons, hb3]
          constructor
          · rintro (rfl | hx | hx)
            · exact Or.inr ⟨Or.inl rfl, he⟩
            · exact Or.inl hx
            · exact Or.inr ⟨Or.inr hx.1, hx.2⟩
          · rintro (rfl | ⟨h1 | h1, h2⟩)
            · exact Or.inr (Or.inl rfl)
            · exact Or.inl h1
            · exact Or.inr (Or.inr ⟨h1, h2⟩)

/-- The consistency of the abbreviation table with an abstract per-tag count
`cnt` (in the running system, the popcount of each tag's posting): buckets are
non-empty, carry each tag at most once, every item sits in the bucket of its
tag's abbreviation with its exact positive count, and every tag with positive
count appears in its abbreviation's bucket. -/
structure AbbrevsOK (cnt : String → Nat) (ab : Abbrevs) : Prop where
  fstNodup : (ab.map Prod.fst).Nodup
  buckets : ∀ a b, find? a ab = some b → b ≠ [] ∧ (b.map Prod.snd).Nodup ∧
      ∀ x ∈ b, abbreviate x.2 = a ∧ x.1 = cnt x.2 ∧ 0 < x.1
  complete : ∀ t, 0 < cnt t → ∃ b, find? (abbreviate t) ab = some b ∧ (cnt t, t) ∈ b

theorem abbrevsOK_congr {c1 c2 : String → Nat} {ab : Abbrevs} (hc : ∀ u, c1 u = c2 u)
    (h : AbbrevsOK c1 ab) : AbbrevsOK c2 ab := by
  refine ⟨h.fstNodup, ?_, ?_⟩
  · intro a b hf
    obtain ⟨h1, h2, h3⟩ := h.buckets a b hf
    exact ⟨h1, h2, fun x hx => ⟨(h3 x hx).1, (hc x.2) ▸ (h3 x hx).2.1, (h3 x hx).2.2⟩⟩
  · intro t ht
    obtain ⟨b, hf, hm⟩ := h.complete t (by rw [hc t]; exact ht)
    exact ⟨b, hf, by rw [← hc t]; exact hm⟩

theorem abbrevsOK_other_bucket_ne {cnt : String → Nat} {ab : Abbrevs} {t a' : String}
    {bb : List (Nat × String)} (h : AbbrevsOK cnt ab) (hf : find? a' ab = some bb)
    (ha' : a' ≠ abbreviate t) : ∀ x ∈ bb, x.2 ≠ t := by
  intro x hx hxt
  obtain ⟨habb, _, _⟩ := (h.buckets a' bb hf).2.2 x hx
  exact ha' (by rw [← habb, hxt])

theorem abbrevsOK_insert {cnt : String → Nat} {ab : Abbrevs} (t : String)
    (h : AbbrevsOK cnt ab) :
    AbbrevsOK (fun u => if u = t then cnt u + 1 else cnt u) (abbrevInsert t ab) := by
  by_cases hct : cnt t = 0
  · -- the tag is new to its bucket: a fresh (1, t) item is inserted
    rcases hfa : find? (abbreviate t) ab with _ | b
    · -- no bucket yet: a fresh bucket [(1, t)] is created
      have hbs : rustBinarySearch [] (1, t) = (false, 0) := rfl
      have hrw : abbrevInsert t ab = setA (abbreviate t) [(1, t)] ab := by
        simp [abbrevInsert, hfa, bucketInc, hbs, insertAt]
      rw [hrw]
      have hafresh : abbreviate t ∉ ab.map Prod.fst := find?_eq_none_iff.mp hfa
      refine ⟨?_, ?_, ?_⟩
      · rw [map_fst_setA, if_neg hafresh, List.nodup_append]
        refine ⟨h.fstNodup, List.nodup_singleton _, ?_⟩
        intro a ha hat
        rw [List.mem_singleton] at hat
        exact hafresh (hat ▸ ha)
      · intro a' bb hf
        rw [find?_setA] at hf
        by_cases ha' : a' = abbreviate t
        · rw [if_pos ha'] at hf
          cases hf
          refine ⟨by simp, by simp, ?_⟩
          intro x hx
          rw [List.mem_singleton] at hx
          subst hx
          exact ⟨ha'.symm, by simp [hct], by simp⟩
        · rw [if_neg ha'] at hf
          obtain ⟨h1, h2, h3⟩ := h.buckets a' bb hf
          refine ⟨h1, h2, ?_⟩
          intro x hx
          have hxt : x.2 ≠ t := abbrevsOK_other_bucket_ne h hf ha' x hx
          exact ⟨(h3 x hx).1, by simpa [hxt] using (h3 x hx).2.1, (h3 x hx).2.2⟩
      · intro u hu
        by_cases hut : u = t
        · subst hut
          refine ⟨[(1, u)], by rw [find?_setA, if_pos rfl], ?_⟩
          simp [hct]
        · have hcu : 0 < cnt u := by simpa [hut] using hu
          obtain ⟨bu, hfu, hmu⟩ := h.complete u hcu
          have hau : abbreviate u ≠ abbreviate t := by
            intro e
            rw [e, hfa] at hfu
            cases hfu
          refine ⟨bu, by rw [find?_setA, if_neg hau]; exact hfu, by simpa [hut] using hmu⟩
    · -- bucket exists but carries no item for the tag
      have hb := h.buckets _ b hfa
      have hnotin : ∀ e ∈ b, e.2 ≠ t := by
        intro e he het
        have h3 := hb.2.2 e he
        rw [het, hct] at h3
        exact absurd h3.2.1 (by omega)
      have hinc : bucketInc t b = none := bucketInc_none_of_not_mem hnotin
      rcases hbs : rustBinarySearch b (1, t) with ⟨found, i⟩
      cases found with
      | true =>
          exact absurd rfl (hnotin (1, t) (rustBinarySearch_found_mem hbs))
      | false =>
          have hrw : abbrevInsert t ab = setA (abbreviate t) (insertAt i (1, t) b) ab := by
            simp [abbrevInsert, hfa, hinc, hbs]
          rw [hrw]
          have hapresent : abbreviate t ∈ ab.map Prod.fst := by
            rw [← find?_isSome_iff, hfa]
            rfl
          have htnotsnd : t ∉ b.map Prod.snd := by
            intro hmem
            obtain ⟨e, he, he2⟩ := List.mem_map.mp hmem
            exact hnotin e he he2
          refine ⟨?_, ?_, ?_⟩
          · rw [map_fst_setA, if_pos hapresent]
            exact h.fstNodup
          · intro a' bb hf
            rw [find?_setA] at hf
            by_cases ha' : a' = abbreviate t
            · rw [if_pos ha'] at hf
              cases hf
              refine ⟨?_, ?_, ?_⟩
              · exact List.ne_nil_of_mem (mem_insertAt.mpr (Or.inl rfl))
              · rw [map_insertAt]
                exact ((insertAt_perm i (1, t).2 (b.map Prod.snd)).nodup_iff).mpr
                  (List.nodup_cons.mpr ⟨htnotsnd, hb.2.1⟩)
              · intro x hx
                rcases mem_insertAt.mp hx with rfl | hxb
                · exact ⟨ha'.symm, by simp [hct], by simp⟩
                · have hxt : x.2 ≠ t := hnotin x hxb
                  have h3 := hb.2.2 x hxb
                  exact ⟨ha' ▸ h3.1, by simpa [hxt] using h3.2.1, h3.2.2⟩
            · rw [if_neg ha'] at hf
              obtain ⟨h1, h2, h3⟩ := h.buckets a' bb hf
              refine ⟨h1, h2, ?_⟩
              intro x hx
              have hxt : x.2 ≠ t := abbrevsOK_other_bucket_ne h hf ha' x hx
              exact ⟨(h3 x hx).1, by simpa [hxt] using (h3 x hx).2.1, (h3 x hx).2.2⟩
          · intro u hu
            by_cases hut : u = t
            · subst hut
              refine ⟨insertAt i (1, u) b, by rw [find?_setA, if_pos rfl], ?_⟩
              have : (if u = u then cnt u + 1 else cnt u) = 1 := by simp [hct]
              rw [this]
              exact mem_insertAt.mpr (Or.inl rfl)
            · have hcu : 0 < cnt u := by simpa [hut] using hu
              obtain ⟨bu, hfu, hmu⟩ := h.complete u hcu
              by_cases hau : abbreviate u = abbreviate t
              · have hbu : bu = b := by
                  rw [hau, hfa] at hfu
                  cases hfu
                  rfl
                subst hbu
                refine ⟨insertAt i (1, t) bu, by rw [find?_setA, if_pos hau], ?_⟩
                have : (if u = t then cnt u + 1 else cnt u) = cnt u := by simp [hut]
                rw [this]
                exact mem_insertAt.mpr (Or.inr hmu)
              · refine ⟨bu, by rw [find?_setA, if_neg hau]; exact hfu, by simpa [hut] using hmu⟩
  · -- the tag already sits in its bucket: its count is incremented in place
    have hpos : 0 < cnt t := Nat.pos_of_ne_zero hct
    obtain ⟨b, hfb, hmemb⟩ := h.complete t hpos
    have hb := h.buckets _ b hfb
    obtain ⟨b', hinc, hsnds, hmem'⟩ := bucketInc_eq hb.2.1 hmemb
    have hrw : abbrevInsert t ab = setA (abbreviate t) b' ab := by
      simp [abbrevInsert, hfb, hinc]
    rw [hrw]
    have hapresent : abbreviate t ∈ ab.map Prod.fst := by
      rw [← find?_isSome_iff, hfb]
      rfl
    refine ⟨?_, ?_, ?_⟩
    · rw [map_fst_setA, if_pos hapresent]
      exact h.fstNodup
    · intro a' bb hf
      rw [find?_setA] at hf
      by_cases ha' : a' = abbreviate t
      · rw [if_pos ha'] at hf
        cases hf
        refine ⟨?_, ?_, ?_⟩
        · exact List.ne_nil_of_mem ((hmem' _).mpr (Or.inl rfl) : (cnt t + 1, t) ∈ b')
        · rw [hsnds]
          exact hb.2.1
        · intro x hx
          rcases (hmem' x).mp hx with rfl | ⟨hxb, hxt⟩
          · exact ⟨ha'.symm, by simp, by simp⟩
          · have h3 := hb.2.2 x hxb
            exact ⟨ha' ▸ h3.1, by simpa [hxt] using h3.2.1, h3.2.2⟩
      · rw [if_neg ha'] at hf
        obtain ⟨h1, h2, h3⟩ := h.buckets a' bb hf
        refine ⟨h1, h2, ?_⟩
        intro x hx
        have hxt : x.2 ≠ t := abbrevsOK_other_bucket_ne h hf ha' x hx
        exact ⟨(h3 x hx).1, by simpa [hxt] using (h3 x hx).2.1, (h3 x hx).2.2⟩
    · intro u hu
      by_cases hut : u = t
      · subst hut
        refine ⟨b', by rw [find?_setA, if_pos rfl], ?_⟩
        have : (if u = u then cnt u + 1 else cnt u) = cnt u + 1 := by simp
        rw [this]
        exact (hmem' _).mpr (Or.inl rfl)
      · have hcu : 0 < cnt u := by simpa [hut] using hu
        obtain ⟨bu, hfu, hmu⟩ := h.complete u hcu
        by_cases hau : abbreviate u = abbreviate t
        · have hbu : bu = b := by
            rw [hau, hfb] at hfu
            cases hfu
            rfl
          subst hbu
          refine ⟨b', by rw [find?_setA, if_pos hau], ?_⟩
          have : (if u = t then cnt u + 1 else cnt u) = cnt u := by simp [hut]
          rw [this]
          exact (hmem' _).mpr (Or.inr ⟨hmu, by simpa using hut⟩)
        · refine ⟨bu, by rw [find?_setA, if_neg hau]; exact hfu, by simpa [hut] using hmu⟩

theorem abbrevsOK_remove {cnt : String → Nat} {ab : Abbrevs} (t : String)
    (h : AbbrevsOK cnt ab) (hpos : 0 < cnt t) :
    AbbrevsOK (fun u => if u = t then cnt u - 1 else cnt u) (abbrevRemove t ab) := by
  obtain ⟨b, hfb, hmemb⟩ := h.complete t hpos
  have hb := h.buckets _ b hfb
  by_cases hc1 : cnt t = 1
  · -- the item's count reaches zero: the item is removed
    rw [hc1] at hmemb
    obtain ⟨b', hdec, hsub, hmem'⟩ := bucketDecF_eq_one hb.2.1 hmemb
    by_cases hbe : b' = []
    · -- the bucket empties: its entry is removed from the table
      have hrw : abbrevRemove t ab = removeA (abbreviate t) ab := by
        simp [abbrevRemove, hfb, hdec, hbe]
      rw [hrw]
      refine ⟨?_, ?_, ?_⟩
      · exact (map_fst_removeA_sublist _ ab).nodup h.fstNodup
      · intro a' bb hf
        rw [find?_removeA _ h.fstNodup] at hf
        by_cases ha' : a' = abbreviate t
        · rw [if_pos ha'] at hf
          cases hf
        · rw [if_neg ha'] at hf
          obtain ⟨h1, h2, h3⟩ := h.buckets a' bb hf
          refine ⟨h1, h2, ?_⟩
          intro x hx
          have hxt : x.2 ≠ t := abbrevsOK_other_bucket_ne h hf ha' x hx
          exact ⟨(h3 x hx).1, by simpa [hxt] using (h3 x hx).2.1, (h3 x hx).2.2⟩
      · intro u hu
        have hut : u ≠ t := by
          intro e
          rw [e] at hu
          simp [hc1] at hu
        have hcu : 0 < cnt u := by simpa [hut] using hu
        obtain ⟨bu, hfu, hmu⟩ := h.complete u hcu
        have hau : abbreviate u ≠ abbreviate t := by
          intro e
          rw [e, hfb] at hfu
          cases hfu
          have : (cnt u, u) ∈ b' := (hmem' _).mpr ⟨hmu, by simpa using hut⟩
          rw [hbe] at this
          cases this
        refine ⟨bu, ?_, by simpa [hut] using hmu⟩
        rw [find?_removeA _ h.fstNodup, if_neg hau]
        exact hfu
    · -- the bucket still has other items
      have hrw : abbrevRemove t ab = setA (abbreviate t) b' ab := by
        simp [abbrevRemove, hfb, hdec, hbe]
      rw [hrw]
      have hapresent : abbreviate t ∈ ab.map Prod.fst := by
        rw [← find?_isSome_iff, hfb]
        rfl
      refine ⟨?_, ?_, ?_⟩
      · rw [map_fst_setA, if_pos hapresent]
        exact h.fstNodup
      · intro a' bb hf
        rw [find?_setA] at hf
        by_cases ha' : a' = abbreviate t
        · rw [if_pos ha'] at hf
          cases hf
          refine ⟨hbe, hsub.nodup hb.2.1, ?_⟩
          intro x hx
          obtain ⟨hxb, hxt⟩ := (hmem' x).mp hx
          have h3 := hb.2.2 x hxb
          exact ⟨ha' ▸ h3.1, by simpa [hxt] using h3.2.1, h3.2.2⟩
        · rw [if_neg ha'] at hf
          obtain ⟨h1, h2, h3⟩ := h.buckets a' bb hf
          refine ⟨h1, h2, ?_⟩
          intro x hx
          have hxt : x.2 ≠ t := abbrevsOK_other_bucket_ne h hf ha' x hx
          exact ⟨(h3 x hx).1, by simpa [hxt] using (h3 x hx).2.1, (h3 x hx).2.2⟩
      · intro u hu
        have hut : u ≠ t := by
          intro e
          rw [e] at hu
          simp [hc1] at hu
        have hcu : 0 < cnt u := by simpa [hut] using hu
        obtain ⟨bu, hfu, hmu⟩ := h.complete u hcu
        by_cases hau : abbreviate u = abbreviate t
        · have hbu : bu = b := by
            rw [hau, hfb] at hfu
            cases hfu
            rfl
          subst hbu
          refine ⟨b', by rw [find?_setA, if_pos hau], ?_⟩
          have : (if u = t then cnt u - 1 else cnt u) = cnt u := by simp [hut]
          rw [this]
          exact (hmem' _).mpr ⟨hmu, by simpa using hut⟩
        · refine ⟨bu, by rw [find?_setA, if_neg hau]; exact hfu, by simpa [hut] using hmu⟩
  · -- the count stays positive: the item is decremented in place
    have hcge : cnt t - 1 ≠ 0 := by omega
    obtain ⟨b', hdec, hsnds, hmem'⟩ := bucketDecF_eq_ge hb.2.1 hmemb hcge
    have hbe : b' ≠ [] := List.ne_nil_of_mem ((hmem' _).mpr (Or.inl rfl))
    have hrw : abbrevRemove t ab = setA (abbreviate t) b' ab := by
      simp [abbrevRemove, hfb, hdec, hbe]
    rw [hrw]
    have hapresent : abbreviate t ∈ ab.map Prod.fst := by
      rw [← find?_isSome_iff, hfb]
      rfl
    refine ⟨?_, ?_, ?_⟩
    · rw [map_fst_setA, if_pos hapresent]
      exact h.fstNodup
    · intro a' bb hf
      rw [find?_setA] at hf
      by_cases ha' : a' = abbreviate t
      · rw [if_pos ha'] at hf
        cases hf
        refine ⟨hbe, hsnds ▸ hb.2.1, ?_⟩
        intro x hx
        rcases (hmem' x).mp hx with rfl | ⟨hxb, hxt⟩
        · refine ⟨ha'.symm, by simp, by omega⟩
        · have h3 := hb.2.2 x hxb
          exact ⟨ha' ▸ h3.1, by simpa [hxt] using h3.2.1, h3.2.2⟩
      · rw [if_neg ha'] at hf
        obtain ⟨h1, h2, h3⟩ := h.buckets a' bb hf
        refine ⟨h1, h2, ?_⟩
        intro x hx
        have hxt : x.2 ≠ t := abbrevsOK_other_bucket_ne h hf ha' x hx
        exact ⟨(h3 x hx).1, by simpa [hxt] using (h3 x hx).2.1, (h3 x hx).2.2⟩
    · intro u hu
      by_cases hut : u = t
      · subst hut
        refine ⟨b', by rw [find?_setA, if_pos rfl], ?_⟩
        have : (if u = u then cnt u - 1 else cnt u) = cnt u - 1 := by simp
        rw [this]
        exact (hmem' _).mpr (Or.inl rfl)
      · have hcu : 0 < cnt u := by simpa [hut] using hu
        obtain ⟨bu, hfu, hmu⟩ := h.complete u hcu
        by_cases hau : abbreviate u = abbreviate t
        · have hbu : bu = b := by
            rw [hau, hfb] at hfu
            cases hfu
            rfl
          subst hbu
          refine ⟨b', by rw [find?_setA, if_pos hau], ?_⟩
          have : (if u = t then cnt u - 1 else cnt u) = cnt u := by simp [hut]
          rw [this]
          exact (hmem' _).mpr (Or.inr ⟨hmu, by simpa using hut⟩)
        · refine ⟨bu, by rw [find?_setA, if_neg hau]; exact hfu, by simpa [hut] using hmu⟩

theorem abbrevsOK_insertItem {cnt : String → Nat} {ab : Abbrevs} (t : String) (c : Nat)
    (h : AbbrevsOK cnt ab) (hct : cnt t = 0) (hc : 0 < c) :
    AbbrevsOK (fun u => if u = t then c else cnt u) (abbrevInsertItem t c ab) := by
  rcases hfa : find? (abbreviate t) ab with _ | b
  · have hrw : abbrevInsertItem t c ab = setA (abbreviate t) [(c, t)] ab := by
      simp [abbrevInsertItem, hfa, insertAt]
    rw [hrw]
    have hafresh : abbreviate t ∉ ab.map Prod.fst := find?_eq_none_iff.mp hfa
    refine ⟨?_, ?_, ?_⟩
    · rw [map_fst_setA, if_neg hafresh, List.nodup_append]
      refine ⟨h.fstNodup, List.nodup_singleton _, ?_⟩
      intro a ha hat
      rw [List.mem_singleton] at hat
      exact hafresh (hat ▸ ha)
    · intro a' bb hf
      rw [find?_setA] at hf
      by_cases ha' : a' = abbreviate t
      · rw [if_pos ha'] at hf
        cases hf
        refine ⟨by simp, by simp, ?_⟩
        intro x hx
        rw [List.mem_singleton] at hx
        subst hx
        exact ⟨ha'.symm, by simp, hc⟩
      · rw [if_neg ha'] at hf
        obtain ⟨h1, h2, h3⟩ := h.buckets a' bb hf
        refine ⟨h1, h2, ?_⟩
        intro x hx
        have hxt : x.2 ≠ t := abbrevsOK_other_bucket_ne h hf ha' x hx
        exact ⟨(h3 x hx).1, by simpa [hxt] using (h3 x hx).2.1, (h3 x hx).2.2⟩
    · intro u hu
      by_cases hut : u = t
      · subst hut
        refine ⟨[(c, u)], by rw [find?_setA, if_pos rfl], by simp⟩
      · have hcu : 0 < cnt u := by simpa [hut] using hu
        obtain ⟨bu, hfu, hmu⟩ := h.complete u hcu
        have hau : abbreviate u ≠ abbreviate t := by
          intro e
          rw [e, hfa] at hfu
          cases hfu
        refine ⟨bu, by rw [find?_setA, if_neg hau]; exact hfu, by simpa [hut] using hmu⟩
  · have hb := h.buckets _ b hfa
    have hnotin : ∀ e ∈ b, e.2 ≠ t := by
      intro e he het
      have h3 := hb.2.2 e he
      rw [het, hct] at h3
      exact absurd h3.2.1 (by omega)
    have htnotsnd : t ∉ b.map Prod.snd := by
      intro hmem
      obtain ⟨e, he, he2⟩ := List.mem_map.mp hmem
      exact hnotin e he he2
    have hrw : abbrevInsertItem t c ab =
        setA (abbreviate t) (insertAt (rustBinarySearch b (c, t)).2 (c, t) b) ab := by
      simp [abbrevInsertItem, hfa]
    rw [hrw]
    have hapresent : abbreviate t ∈ ab.map Prod.fst := by
      rw [← find?_isSome_iff, hfa]
      rfl
    refine ⟨?_, ?_, ?_⟩
    · rw [map_fst_setA, if_pos hapresent]
      exact h.fstNodup
    · intro a' bb hf
      rw [find?_setA] at hf
      by_cases ha' : a' = abbreviate t
      · rw [if_pos ha'] at hf
        cases hf
        refine ⟨?_, ?_, ?_⟩
        · exact List.ne_nil_of_mem (mem_insertAt.mpr (Or.inl rfl))
        · rw [map_insertAt]
          exact ((insertAt_perm _ (c, t).2 (b.map Prod.snd)).nodup_iff).mpr
            (List.nodup_cons.mpr ⟨htnotsnd, hb.2.1⟩)
        · intro x hx
          rcases mem_insertAt.mp hx with rfl | hxb
          · exact ⟨ha'.symm, by simp, hc⟩
          · have hxt : x.2 ≠ t := hnotin x hxb
            have h3 := hb.2.2 x hxb
            exact ⟨ha' ▸ h3.1, by simpa [hxt] using h3.2.1, h3.2.2⟩
      · rw [if_neg ha'] at hf
        obtain ⟨h1, h2, h3⟩ := h.buckets a' bb hf
        refine ⟨h1, h2, ?_⟩
        intro x hx
        have hxt : x.2 ≠ t := abbrevsOK_other_bucket_ne h hf ha' x hx
        exact ⟨(h3 x hx).1, by simpa [hxt] using (h3 x hx).2.1, (h3 x hx).2.2⟩
    · intro u hu
      by_cases hut : u = t
      · subst hut
        refine ⟨insertAt (rustBinarySearch b (c, u)).2 (c, u) b,
          by rw [find?_setA, if_pos rfl], ?_⟩
        have : (if u = u then c else cnt u) = c := by simp
        rw [this]
        exact mem_insertAt.mpr (Or.inl rfl)
      · have hcu : 0 < cnt u := by simpa [hut] using hu
        obtain ⟨bu, hfu, hmu⟩ := h.complete u hcu
        by_cases hau : abbreviate u = abbreviate t
        · have hbu : bu = b := by
            rw [hau, hfa] at hfu
            cases hfu
            rfl
          subst hbu
          refine ⟨insertAt (rustBinarySearch bu (c, t)).2 (c, t) bu,
            by rw [find?_setA, if_pos hau], ?_⟩
          have : (if u = t then c else cnt u) = cnt u := by simp [hut]
          rw [this]
          exact mem_insertAt.mpr (Or.inr hmu)
        · refine ⟨bu, by rw [find?_setA, if_neg hau]; exact hfu, by simpa [hut] using hmu⟩

theorem find?_append {α β : Type} [DecidableEq α] (k : α) (l1 l2 : List (α × β)) :
    find? k (l1 ++ l2) =
      (match find? k l1 with
        | some v => some v
        | none => find? k l2) := by
  induction l1 with
  | nil => simp [find?]
  | cons e r ih =>
      by_cases he : e.1 = k
      · simp [find?, he]
      · simp [find?, he, ih]

/-- All length-`n` windows of a scalar list: the `n`-grams of a string, in
order of occurrence (none when the string is shorter than `n`). -/
def windows (n : Nat) (l : List Char) : List (List Char) :=
  (List.range (l.length + 1 - n)).map (fun i => (l.drop i).take n)

/-- The `n`-grams of a string, as strings. -/
def windowsStr (n : Nat) (s : String) : List String :=
  (windows n s.data).map String.mk

/-- Modelled from the spec: appending a `(source string, id)` pair to one
gram's posting list of an `NgramIndex` (§4.6 "for each gram, append (s, id)");
a new gram's entry is created at the end of the table. -/
def ngramAppend (g : String) (pr : String × Nat) :
    List (String × List (String × Nat)) → List (String × List (String × Nat))
  | [] => [(g, [pr])]
  | e :: r => if e.1 = g then (e.1, e.2 ++ [pr]) :: r else e :: ngramAppend g pr r

/-- Modelled from the spec: `NgramIndex::insert` enumerates every `n`-gram of
the string, in occurrence order, and appends `(string, id)` to each gram's
posting (§4.6). -/
def ngramInsert (n : Nat) (nm : String) (i : Nat)
    (m : List (String × List (String × Nat))) : List (String × List (String × Nat)) :=
  (windowsStr n nm).foldl (fun mm g => ngramAppend g (nm, i) mm) m

/-- Modelled from the spec: `NgramIndex::remove` drops the string's
`(string, id)` pairs from the gram postings, keeping the remaining order. -/
def ngramRemove (nm : String) (i : Nat)
    (m : List (String × List (String × Nat))) : List (String × List (String × Nat)) :=
  m.map (fun e => (e.1, e.2.filter (· ≠ (nm, i))))

/-- The nested tag database (`db!(Tag)` in src/index/tag.rs): the dense-ID
allocator's occupied set and the three registered indexes — `TagDbIdIndex`
(`name_to_id` / `id_to_name`), `TagDbCountIndex` (the count range index, kept
as its id→value map) and `TagDbNameIndex` (1-gram and 2-gram tables over the
tag names). -/
structure TagDbM where
  occupied : List Nat
  nameToId : List (String × Nat)
  idToName : List (Nat × String)
  counts : List (Nat × Nat)
  ngram1 : List (String × List (String × Nat))
  ngram2 : List (String × List (String × Nat))

/-- Modelled from the spec: `RangeIndex::insert` records the id's value
(§4.4); we keep the id→value mapping the range index maintains. -/
def rangeInsert (i v : Nat) (m : List (Nat × Nat)) : List (Nat × Nat) :=
  m ++ [(i, v)]

/-- Modelled from the spec: `RangeIndex::remove(id, value)` locates the id's
entry through the id→index map of §4.4 and removes it; the value argument is
redundant in this model (were removal keyed on `(value, id)` instead, a
mismatched value would leave a stale entry behind). -/
def rangeRemove (i : Nat) (_v : Nat) (m : List (Nat × Nat)) : List (Nat × Nat) :=
  removeA i m

/-- `TagDbCountIndex::update` (src/index/tag.rs): no-op on an unchanged
count, else remove then insert. -/
def tagDbCountUpdate (i : Nat) (oldC newC : Nat) (m : List (Nat × Nat)) : List (Nat × Nat) :=
  if oldC = newC then m else rangeInsert i newC (rangeRemove i oldC m)

/-- `TagDbIdIndex::update` (src/index/tag.rs): no-op on an unchanged name,
else remove then insert into both direction maps. -/
def tagDbIdIndexUpdate (i : Nat) (oldN newN : String)
    (ni : List (String × Nat)) (inm : List (Nat × String)) :
    (List (String × Nat)) × (List (Nat × String)) :=
  if oldN = newN then (ni, inm)
  else (setA newN i (removeA oldN ni), setA i newN (removeA i inm))

/-- `TagDbNameIndex::update` (src/index/tag.rs): no-op on an unchanged name,
else remove then insert into the gram table. -/
def tagDbNameUpdate (n : Nat) (i : Nat) (oldN newN : String)
    (m : List (String × List (String × Nat))) : List (String × List (String × Nat)) :=
  if oldN = newN then m else ngramInsert n newN i (ngramRemove oldN i m)

/-- Modelled from the spec: `Db::insert` sets the occupied bit and forwards to
every index's insert (§4.10) — here the id index, the count index and the two
gram tables of the name index. -/
def tagDbInsert (i : Nat) (nm : String) (c : Nat) (d : TagDbM) : TagDbM :=
  { occupied := i :: d.occupied
    nameToId := setA nm i d.nameToId
    idToName := setA i nm d.idToName
    counts := rangeInsert i c d.counts
    ngram1 := ngramInsert 1 nm i d.ngram1
    ngram2 := ngramInsert 2 nm i d.ngram2 }

/-- Modelled from the spec: `Db::remove` clears the occupied bit and forwards
to every index's remove (§4.10). -/
def tagDbRemove (i : Nat) (nm : String) (c : Nat) (d : TagDbM) : TagDbM :=
  { occupied := d.occupied.filter (· ≠ i)
    nameToId := removeA nm d.nameToId
    idToName := removeA i d.idToName
    counts := rangeRemove i c d.counts
    ngram1 := ngramRemove nm i d.ngram1
    ngram2 := ngramRemove nm i d.ngram2 }

/-- Modelled from the spec: `Db::update` forwards to every index's update
(§4.10); each index no-ops when its projection is unchanged. -/
def tagDbUpdate (i : Nat) (oldN : String) (oldC : Nat) (newN : String) (newC : Nat)
    (d : TagDbM) : TagDbM :=
  { occupied := d.occupied
    nameToId := (tagDbIdIndexUpdate i oldN newN d.nameToId d.idToName).1
    idToName := (tagDbIdIndexUpdate i oldN newN d.nameToId d.idToName).2
    counts := tagDbCountUpdate i oldC newC d.counts
    ngram1 := tagDbNameUpdate 1 i oldN newN d.ngram1
    ngram2 := tagDbNameUpdate 2 i oldN newN d.ngram2 }

/-- Modelled from the spec: `Db::next_id` returns the lowest dense ID whose
occupied bit is clear (§4.10). -/
def nextFree (occ : List Nat) : Nat :=
  ((List.range (occ.length + 1)).find? (fun n => !(occ.contains n))).getD occ.length

theorem nextFree_not_mem (occ : List Nat) : nextFree occ ∉ occ := by
  rcases hf : (List.range (occ.length + 1)).find? (fun n => !(occ.contains n)) with _ | n
  · exfalso
    have hall : ∀ x ∈ List.range (occ.length + 1), x ∈ occ := by
      intro x hx
      have := List.find?_eq_none.mp hf x hx
      simpa using this
    have hsub : (List.range (occ.length + 1)).toFinset ⊆ occ.toFinset := by
      intro x hx
      rw [List.mem_toFinset] at hx ⊢
      exact hall x hx
    have hcard := Finset.card_le_card hsub
    have h1 : (List.range (occ.length + 1)).toFinset.card = occ.length + 1 := by
      rw [List.toFinset_card_of_nodup (List.nodup_range _)]
      exact List.length_range _
    have h2 : occ.toFinset.card ≤ occ.length := occ.toFinset_card_le
    omega
  · have hne : nextFree occ = n := by rw [nextFree, hf]; rfl
    rw [hne]
    have hp := List.find?_some hf
    simpa using hp

/-- `TagIndex::add_tag` (src/index/tag.rs): read the tag's fresh popcount from
the keys index; a known tag is updated from count−1 to count, a new tag is
inserted under the next free dense ID. -/
def addTag (keys : List (String × List Nat)) (nm : String) (d : TagDbM) : TagDbM :=
  match find? nm d.nameToId with
  | some i => tagDbUpdate i nm (keysCount nm keys - 1) nm (keysCount nm keys) d
  | none => tagDbInsert (nextFree d.occupied) nm (keysCount nm keys) d

/-- `TagIndex::remove_tag` (src/index/tag.rs): read the tag's fresh popcount
(zero when its posting is gone); a tag at count zero is removed from the
tag-db, otherwise it is updated from count+1 to count.  An unknown tag is
ignored. -/
def removeTag (keys : List (String × List Nat)) (nm : String) (d : TagDbM) : TagDbM :=
  match find? nm d.nameToId with
  | some i =>
      if keysCount nm keys = 0 then tagDbRemove i nm (keysCount nm keys) d
      else tagDbUpdate i nm (keysCount nm keys + 1) nm (keysCount nm keys) d
  | none => d

/-- The consistency of the tag-db with an abstract per-tag count `cnt`: the two
direction maps of the id index are inverse bijections, a tag has a record
exactly when its count is positive, the count index stores each record's exact
count, and the count index, the id index and the occupied set share one
domain of dense IDs. -/
structure TagDbOK (cnt : String → Nat) (d : TagDbM) : Prop where
  niNodup : (d.nameToId.map Prod.fst).Nodup
  inNodup : (d.idToName.map Prod.fst).Nodup
  pair : ∀ t i, find? t d.nameToId = some i ↔ find? i d.idToName = some t
  live : ∀ t, (∃ i, find? t d.nameToId = some i) ↔ 0 < cnt t
  countVal : ∀ t i, find? t d.nameToId = some i → find? i d.counts = some (cnt t)
  cntNodup : (d.counts.map Prod.fst).Nodup
  cntDom : ∀ i, (∃ c, find? i d.counts = some c) ↔ ∃ t, find? i d.idToName = some t
  occDom : ∀ i, i ∈ d.occupied ↔ ∃ t, find? i d.idToName = some t
  occNodup : d.occupied.Nodup

theorem tagDbOK_congr {c1 c2 : String → Nat} {d : TagDbM} (hc : ∀ u, c1 u = c2 u)
    (h : TagDbOK c1 d) : TagDbOK c2 d := by
  refine ⟨h.niNodup, h.inNodup, h.pair, ?_, ?_, h.cntNodup, h.cntDom, h.occDom, h.occNodup⟩
  · intro t
    rw [← hc t]
    exact h.live t
  · intro t i hf
    rw [← hc t]
    exact h.countVal t i hf

theorem tagDbOK_ni_inj {cnt : String → Nat} {d : TagDbM} (h : TagDbOK cnt d)
    {t u : String} {i : Nat} (ht : find? t d.nameToId = some i)
    (hu : find? u d.nameToId = some i) : t = u := by
  have h1 := (h.pair t i).mp ht
  have h2 := (h.pair u i).mp hu
  rw [h1] at h2
  cases h2
  rfl

theorem find?_countsUpd {counts : List (Nat × Nat)} (hnd : (counts.map Prod.fst).Nodup)
    (i c j : Nat) :
    find? j (rangeInsert i c (removeA i counts)) =
      if j = i then some c else find? j counts := by
  rw [rangeInsert, find?_append]
  by_cases hj : j = i
  · subst hj
    rw [find?_removeA _ hnd, if_pos rfl]
    simp [find?]
  · rw [find?_removeA _ hnd, if_neg hj]
    rcases hf : find? j counts with _ | v
    · simp [find?, Ne.symm hj, hj]
    · simp [hj]

theorem nodup_fst_countsUpd {counts : List (Nat × Nat)} (hnd : (counts.map Prod.fst).Nodup)
    (i c : Nat) :
    ((rangeInsert i c (removeA i counts)).map Prod.fst).Nodup := by
  rw [rangeInsert, List.map_append, List.nodup_append]
  refine ⟨(map_fst_removeA_sublist i counts).nodup hnd, by simp, ?_⟩
  intro a ha hb
  simp only [List.map_cons, List.map_nil, List.mem_singleton] at hb
  subst hb
  have : find? a (removeA a counts) = none := by
    rw [find?_removeA _ hnd, if_pos rfl]
  rw [find?_eq_none_iff] at this
  exact this ha

theorem tagDbOK_addTag {cnt : String → Nat} {keys : List (String × List Nat)} {nm : String}
    {d : TagDbM} (h : TagDbOK cnt d) (hkc : keysCount nm keys = cnt nm + 1) :
    TagDbOK (fun u => if u = nm then cnt u + 1 else cnt u) (addTag keys nm d) := by
  rcases hni : find? nm d.nameToId with _ | i
  · -- a new tag record is inserted under the next free dense ID
    have hcnt0 : cnt nm = 0 := by
      by_contra hpos
      obtain ⟨j, hj⟩ := (h.live nm).mpr (Nat.pos_of_ne_zero hpos)
      rw [hni] at hj
      cases hj
    have hocc : nextFree d.occupied ∉ d.occupied := nextFree_not_mem d.occupied
    have hinone : find? (nextFree d.occupied) d.idToName = none := by
      rcases hfi : find? (nextFree d.occupied) d.idToName with _ | t
      · rfl
      · exact absurd ((h.occDom _).mpr ⟨t, hfi⟩) hocc
    have hcnone : find? (nextFree d.occupied) d.counts = none := by
      rcases hfc : find? (nextFree d.occupied) d.counts with _ | c
      · rfl
      · obtain ⟨t, ht⟩ := (h.cntDom _).mp ⟨c, hfc⟩
        rw [hinone] at ht
        cases ht
    have hnoval : ∀ t, find? t d.nameToId ≠ some (nextFree d.occupied) := by
      intro t ht
      have := (h.pair t _).mp ht
      rw [hinone] at this
      cases this
    have hnmfresh : nm ∉ d.nameToId.map Prod.fst := find?_eq_none_iff.mp hni
    have hifresh : nextFree d.occupied ∉ d.idToName.map Prod.fst := find?_eq_none_iff.mp hinone
    have hcfresh : nextFree d.occupied ∉ d.counts.map Prod.fst := find?_eq_none_iff.mp hcnone
    have hrw : addTag keys nm d = tagDbInsert (nextFree d.occupied) nm (keysCount nm keys) d := by
      rw [addTag, hni]
    rw [hrw]
    refine ⟨?_, ?_, ?_, ?_, ?_, ?_, ?_, ?_, ?_⟩
    · show ((setA nm (nextFree d.occupied) d.nameToId).map Prod.fst).Nodup
      rw [map_fst_setA, if_neg hnmfresh, List.nodup_append]
      refine ⟨h.niNodup, List.nodup_singleton _, ?_⟩
      intro a ha hat
      rw [List.mem_singleton] at hat
      exact hnmfresh (hat ▸ ha)
    · show ((setA (nextFree d.occupied) nm d.idToName).map Prod.fst).Nodup
      rw [map_fst_setA, if_neg hifresh, List.nodup_append]
      refine ⟨h.inNodup, List.nodup_singleton _, ?_⟩
      intro a ha hat
      rw [List.mem_singleton] at hat
      exact hifresh (hat ▸ ha)
    · intro t j
      show find? t (setA nm (nextFree d.occupied) d.nameToId) = some j ↔
        find? j (setA (nextFree d.occupied) nm d.idToName) = some t
      rw [find?_setA, find?_setA]
      by_cases ht : t = nm
      · subst ht
        rw [if_pos rfl]
        by_cases hj : j = nextFree d.occupied
        · subst hj
          simp
        · rw [if_neg hj]
          constructor
          · intro he
            cases he
            exact absurd rfl hj
          · intro he
            have := (h.pair t j).mpr he
            rw [hni] at this
            cases this
      · rw [if_neg ht]
        by_cases hj : j = nextFree d.occupied
        · subst hj
          rw [if_pos rfl]
          constructor
          · intro he
            exact absurd he (hnoval t)
          · intro he
            cases he
            exact absurd rfl ht
        · rw [if_neg hj]
          exact h.pair t j
    · intro t
      show (∃ i, find? t (setA nm (nextFree d.occupied) d.nameToId) = some i) ↔ _
      by_cases ht : t = nm
      · subst ht
        simp [find?_setA]
      · simp only [find?_setA, if_neg ht]
        exact h.live t
    · intro t j
      show find? t (setA nm (nextFree d.occupied) d.nameToId) = some j →
        find? j (rangeInsert (nextFree d.occupied) (keysCount nm keys) d.counts) = some _
      rw [find?_setA, rangeInsert, find?_append]
      by_cases ht : t = nm
      · subst ht
        rw [if_pos rfl]
        intro he
        cases he
        rw [hcnone]
        simp [find?, hkc, hcnt0]
      · rw [if_neg ht]
        intro he
        have hji : j ≠ nextFree d.occupied := fun e => hnoval t (e ▸ he)
        rw [h.countVal t j he]
        simp [ht]
    · show ((rangeInsert (nextFree d.occupied) (keysCount nm keys) d.counts).map Prod.fst).Nodup
      rw [rangeInsert, List.map_append, List.nodup_append]
      refine ⟨h.cntNodup, by simp, ?_⟩
      intro a ha hb
      simp only [List.map_cons, List.map_nil, List.mem_singleton] at hb
      subst hb
      exact hcfresh ha
    · intro j
      show (∃ c, find? j (rangeInsert (nextFree d.occupied) (keysCount nm keys) d.counts) = some c) ↔
        ∃ t, find? j (setA (nextFree d.occupied) nm d.idToName) = some t
      rw [rangeInsert, find?_append, find?_setA]
      by_cases hj : j = nextFree d.occupied
      · subst hj
        rw [if_pos rfl, hcnone]
        simp [find?]
      · rw [if_neg hj]
        rcases hf : find? j d.counts with _ | c
        · simp only [find?, List.mem_singleton]
          rw [if_neg (fun e => hj e.symm)]
          constructor
          · rintro ⟨c, hc⟩
            cases hc
          · intro he
            exact absurd ((h.cntDom j).mpr he) (by rw [hf]; rintro ⟨c, hc⟩; cases hc)
        · constructor
          · intro _
            exact (h.cntDom j).mp ⟨c, hf⟩
          · intro _
            exact ⟨c, rfl⟩
    · intro j
      show j ∈ nextFree d.occupied :: d.occupied ↔
        ∃ t, find? j (setA (nextFree d.occupied) nm d.idToName) = some t
      rw [List.mem_cons, find?_setA]
      by_cases hj : j = nextFree d.occupied
      · subst hj
        simp
      · rw [if_neg hj]
        simp only [hj, false_or]
        exact h.occDom j
    · exact List.nodup_cons.mpr ⟨hocc, h.occNodup⟩
  · -- a known tag record is updated from count−1 to count
    have hpos : 0 < cnt nm := (h.live nm).mp ⟨i, hni⟩
    have hrw : addTag keys nm d =
        tagDbUpdate i nm (keysCount nm keys - 1) nm (keysCount nm keys) d := by
      rw [addTag, hni]
    rw [hrw]
    have hcc : ¬ (keysCount nm keys - 1 = keysCount nm keys) := by omega
    have hfld1 : (tagDbUpdate i nm (keysCount nm keys - 1) nm (keysCount nm keys) d).nameToId
        = d.nameToId := by
      simp [tagDbUpdate, tagDbIdIndexUpdate]
    have hfld2 : (tagDbUpdate i nm (keysCount nm keys - 1) nm (keysCount nm keys) d).idToName
        = d.idToName := by
      simp [tagDbUpdate, tagDbIdIndexUpdate]
    have hfld3 : (tagDbUpdate i nm (keysCount nm keys - 1) nm (keysCount nm keys) d).counts
        = rangeInsert i (keysCount nm keys) (removeA i d.counts) := by
      simp [tagDbUpdate, tagDbCountUpdate, hcc, rangeRemove]
    have hfld4 : (tagDbUpdate i nm (keysCount nm keys - 1) nm (keysCount nm keys) d).occupied
        = d.occupied := rfl
    refine ⟨?_, ?_, ?_, ?_, ?_, ?_, ?_, ?_, ?_⟩
    · rw [hfld1]; exact h.niNodup
    · rw [hfld2]; exact h.inNodup
    · intro t j
      rw [hfld1, hfld2]
      exact h.pair t j
    · intro t
      rw [hfld1]
      by_cases ht : t = nm
      · subst ht
        rw [if_pos rfl]
        exact ⟨fun _ => by omega, fun _ => ⟨i, hni⟩⟩
      · rw [if_neg ht]
        exact h.live t
    · intro t j
      rw [hfld1, hfld3]
      intro he
      rw [find?_countsUpd h.cntNodup]
      by_cases ht : t = nm
      · subst ht
        rw [hni] at he
        cases he
        rw [if_pos rfl, if_pos rfl, hkc]
      · have hji : j ≠ i := fun e => ht (tagDbOK_ni_inj h (e ▸ he) hni)
        rw [if_neg hji, if_neg ht]
        exact h.countVal t j he
    · rw [hfld3]
      exact nodup_fst_countsUpd h.cntNodup i _
    · intro j
      rw [hfld2, hfld3, find?_countsUpd h.cntNodup]
      by_cases hj : j = i
      · subst hj
        rw [if_pos rfl]
        constructor
        · intro _
          exact ⟨nm, (h.pair nm j).mp hni⟩
        · intro _
          exact ⟨keysCount nm keys, rfl⟩
      · rw [if_neg hj]
        exact h.cntDom j
    · intro j
      rw [hfld2, hfld4]
      exact h.occDom j
    · rw [hfld4]
      exact h.occNodup

theorem tagDbOK_removeTag {cnt : String → Nat} {keys : List (String × List Nat)} {nm : String}
    {d : TagDbM} (h : TagDbOK cnt d) (hpos : 0 < cnt nm)
    (hkc : keysCount nm keys = cnt nm - 1) :
    TagDbOK (fun u => if u = nm then cnt u - 1 else cnt u) (removeTag keys nm d) := by
  obtain ⟨i, hni⟩ := (h.live nm).mpr hpos
  by_cases hc0 : keysCount nm keys = 0
  · -- the last post carrying the tag is gone: the record is removed
    have hcnt1 : cnt nm = 1 := by omega
    have hrw : removeTag keys nm d = tagDbRemove i nm (keysCount nm keys) d := by
      simp [removeTag, hni, hc0]
    rw [hrw]
    have hpairin : find? i d.idToName = some nm := (h.pair nm i).mp hni
    refine ⟨?_, ?_, ?_, ?_, ?_, ?_, ?_, ?_, ?_⟩
    · exact (map_fst_removeA_sublist nm d.nameToId).nodup h.niNodup
    · exact (map_fst_removeA_sublist i d.idToName).nodup h.inNodup
    · intro t j
      show find? t (removeA nm d.nameToId) = some j ↔ find? j (removeA i d.idToName) = some t
      rw [find?_removeA _ h.niNodup, find?_removeA _ h.inNodup]
      by_cases ht : t = nm
      · subst ht
        rw [if_pos rfl]
        by_cases hj : j = i
        · subst hj
          rw [if_pos rfl]
          simp
        · rw [if_neg hj]
          constructor
          · intro he
            cases he
          · intro he
            have := (h.pair t j).mpr he
            rw [hni] at this
            cases this
            exact absurd rfl hj
      · rw [if_neg ht]
        by_cases hj : j = i
        · subst hj
          rw [if_pos rfl]
          constructor
          · intro he
            have := (h.pair t j).mp he
            rw [hpairin] at this
            cases this
            exact absurd rfl ht
          · intro he
            cases he
        · rw [if_neg hj]
          exact h.pair t j
    · intro t
      show (∃ j, find? t (removeA nm d.nameToId) = some j) ↔ _
      by_cases ht : t = nm
      · subst ht
        simp only [find?_removeA _ h.niNodup, if_pos rfl, hcnt1]
        constructor
        · rintro ⟨j, hj⟩
          cases hj
        · intro hlt
          simp at hlt
      · simp only [find?_removeA _ h.niNodup, if_neg ht]
        exact h.live t
    · intro t j
      show find? t (removeA nm d.nameToId) = some j →
        find? j (rangeRemove i (keysCount nm keys) d.counts) = some _
      rw [find?_removeA _ h.niNodup, rangeRemove, find?_removeA _ h.cntNodup]
      by_cases ht : t = nm
      · subst ht
        rw [if_pos rfl]
        intro he
        cases he
      · rw [if_neg ht]
        intro he
        have hji : j ≠ i := fun e => ht (tagDbOK_ni_inj h (e ▸ he) hni)
        rw [if_neg hji, if_neg ht]
        exact h.countVal t j he
    · exact (map_fst_removeA_sublist i d.counts).nodup h.cntNodup
    · intro j
      show (∃ c, find? j (rangeRemove i (keysCount nm keys) d.counts) = some c) ↔
        ∃ t, find? j (removeA i d.idToName) = some t
      rw [rangeRemove, find?_removeA _ h.cntNodup, find?_removeA _ h.inNodup]
      by_cases hj : j = i
      · subst hj
        rw [if_pos rfl, if_pos rfl]
        constructor
        · rintro ⟨c, hc⟩; cases hc
        · rintro ⟨t, ht⟩; cases ht
      · rw [if_neg hj, if_neg hj]
        exact h.cntDom j
    · intro j
      show j ∈ d.occupied.filter (· ≠ i) ↔ ∃ t, find? j (removeA i d.idToName) = some t
      rw [find?_removeA _ h.inNodup, List.mem_filter]
      by_cases hj : j = i
      · subst hj
        rw [if_pos rfl]
        constructor
        · rintro ⟨_, hne⟩
          simp at hne
        · rintro ⟨t, ht⟩; cases ht
      · rw [if_neg hj]
        simp only [ne_eq, hj, not_false_eq_true, decide_True, and_true]
        exact h.occDom j
    · exact h.occNodup.filter _
  · -- other posts still carry the tag: the record's count is updated
    have hrw : removeTag keys nm d =
        tagDbUpdate i nm (keysCount nm keys + 1) nm (keysCount nm keys) d := by
      simp [removeTag, hni, hc0]
    rw [hrw]
    have hcc : ¬ (keysCount nm keys + 1 = keysCount nm keys) := by omega
    have hfld1 : (tagDbUpdate i nm (keysCount nm keys + 1) nm (keysCount nm keys) d).nameToId
        = d.nameToId := by
      simp [tagDbUpdate, tagDbIdIndexUpdate]
    have hfld2 : (tagDbUpdate i nm (keysCount nm keys + 1) nm (keysCount nm keys) d).idToName
        = d.idToName := by
      simp [tagDbUpdate, tagDbIdIndexUpdate]
    have hfld3 : (tagDbUpdate i nm (keysCount nm keys + 1) nm (keysCount nm keys) d).counts
        = rangeInsert i (keysCount nm keys) (removeA i d.counts) := by
      simp [tagDbUpdate, tagDbCountUpdate, hcc, rangeRemove]
    have hfld4 : (tagDbUpdate i nm (keysCount nm keys + 1) nm (keysCount nm keys) d).occupied
        = d.occupied := rfl
    refine ⟨?_, ?_, ?_, ?_, ?_, ?_, ?_, ?_, ?_⟩
    · rw [hfld1]; exact h.niNodup
    · rw [hfld2]; exact h.inNodup
    · intro t j
      rw [hfld1, hfld2]
      exact h.pair t j
    · intro t
      rw [hfld1]
      by_cases ht : t = nm
      · subst ht
        rw [if_pos rfl]
        exact ⟨fun _ => by omega, fun _ => ⟨i, hni⟩⟩
      · rw [if_neg ht]
        exact h.live t
    · intro t j
      rw [hfld1, hfld3]
      intro he
      rw [find?_countsUpd h.cntNodup]
      by_cases ht : t = nm
      · subst ht
        rw [hni] at he
        cases he
        rw [if_pos rfl, if_pos rfl, hkc]
      · have hji : j ≠ i := fun e => ht (tagDbOK_ni_inj h (e ▸ he) hni)
        rw [if_neg hji, if_neg ht]
        exact h.countVal t j he
    · rw [hfld3]
      exact nodup_fst_countsUpd h.cntNodup i _
    · intro j
      rw [hfld2, hfld3, find?_countsUpd h.cntNodup]
      by_cases hj : j = i
      · subst hj
        rw [if_pos rfl]
        constructor
        · intro _
          exact ⟨nm, (h.pair nm j).mp hni⟩
        · intro _
          exact ⟨keysCount nm keys, rfl⟩
      · rw [if_neg hj]
        exact h.cntDom j
    · intro j
      rw [hfld2, hfld4]
      exact h.occDom j
    · rw [hfld4]
      exact h.occNodup

theorem foldl_pair {α β : Type} (f : String → α → α) (g : String → β → β)
    (ts : List String) (a : α) (b : β) :
    ts.foldl (fun p t => (f t p.1, g t p.2)) (a, b) =
      (ts.foldl (fun x t => f t x) a, ts.foldl (fun x t => g t x) b) := by
  induction ts generalizing a b with
  | nil => rfl
  | cons t rest ih => exact ih (f t a) (g t b)

theorem abbrevsOK_foldInsert {cnt : String → Nat} {ts : List String} (hts : ts.Nodup)
    {ab : Abbrevs} (h : AbbrevsOK cnt ab) :
    AbbrevsOK (fun u => if u ∈ ts then cnt u + 1 else cnt u)
      (ts.foldl (fun a t => abbrevInsert t a) ab) := by
  induction ts generalizing cnt ab with
  | nil => exact abbrevsOK_congr (fun u => by simp) h
  | cons t rest ih =>
      have htr : t ∉ rest := (List.nodup_cons.mp hts).1
      have hrest : rest.Nodup := (List.nodup_cons.mp hts).2
      have hstep := abbrevsOK_insert t h
      have hmid := ih hrest hstep
      refine abbrevsOK_congr (fun u => ?_) hmid
      by_cases hur : u ∈ rest
      · have hut : u ≠ t := fun e => htr (e ▸ hur)
        simp [hur, hut, List.mem_cons]
      · by_cases hut : u = t
        · subst hut
          simp [hur, htr]
        · simp [hur, hut, List.mem_cons]

theorem abbrevsOK_foldRemove {cnt : String → Nat} {ts : List String} (hts : ts.Nodup)
    (hpos : ∀ u ∈ ts, 0 < cnt u) {ab : Abbrevs} (h : AbbrevsOK cnt ab) :
    AbbrevsOK (fun u => if u ∈ ts then cnt u - 1 else cnt u)
      (ts.foldl (fun a t => abbrevRemove t a) ab) := by
  induction ts generalizing cnt ab with
  | nil => exact abbrevsOK_congr (fun u => by simp) h
  | cons t rest ih =>
      have htr : t ∉ rest := (List.nodup_cons.mp hts).1
      have hrest : rest.Nodup := (List.nodup_cons.mp hts).2
      have hstep := abbrevsOK_remove t h (hpos t (List.mem_cons_self t rest))
      have hmid := ih hrest (fun u hu => by
        have hut : u ≠ t := fun e => htr (e ▸ hu)
        simpa [hut] using hpos u (List.mem_cons_of_mem t hu)) hstep
      refine abbrevsOK_congr (fun u => ?_) hmid
      by_cases hur : u ∈ rest
      · have hut : u ≠ t := fun e => htr (e ▸ hur)
        simp [hur, hut, List.mem_cons]
      · by_cases hut : u = t
        · subst hut
          simp [hur, htr]
        · simp [hur, hut, List.mem_cons]

theorem tagDbOK_foldAdd {cnt : String → Nat} {keys : List (String × List Nat)}
    {ts : List String} (hts : ts.Nodup)
    (hkc : ∀ t ∈ ts, keysCount t keys = cnt t + 1) {d : TagDbM} (h : TagDbOK cnt d) :
    TagDbOK (fun u => if u ∈ ts then cnt u + 1 else cnt u)
      (ts.foldl (fun x t => addTag keys t x) d) := by
  induction ts generalizing cnt d with
  | nil => exact tagDbOK_congr (fun u => by simp) h
  | cons t rest ih =>
      have htr : t ∉ rest := (List.nodup_cons.mp hts).1
      have hrest : rest.Nodup := (List.nodup_cons.mp hts).2
      have hstep := tagDbOK_addTag h (hkc t (List.mem_cons_self t rest))
      have hmid := ih hrest (fun u hu => by
        have hut : u ≠ t := fun e => htr (e ▸ hu)
        simpa [hut] using hkc u (List.mem_cons_of_mem t hu)) hstep
      refine tagDbOK_congr (fun u => ?_) hmid
      by_cases hur : u ∈ rest
      · have hut : u ≠ t := fun e => htr (e ▸ hur)
        simp [hur, hut, List.mem_cons]
      · by_cases hut : u = t
        · subst hut
          simp [hur, htr]
        · simp [hur, hut, List.mem_cons]

theorem tagDbOK_foldRemove {cnt : String → Nat} {keys : List (String × List Nat)}
    {ts : List String} (hts : ts.Nodup) (hpos : ∀ u ∈ ts, 0 < cnt u)
    (hkc : ∀ t ∈ ts, keysCount t keys = cnt t - 1) {d : TagDbM} (h : TagDbOK cnt d) :
    TagDbOK (fun u => if u ∈ ts then cnt u - 1 else cnt u)
      (ts.foldl (fun x t => removeTag keys t x) d) := by
  induction ts generalizing cnt d with
  | nil => exact tagDbOK_congr (fun u => by simp) h
  | cons t rest ih =>
      have htr : t ∉ rest := (List.nodup_cons.mp hts).1
      have hrest : rest.Nodup := (List.nodup_cons.mp hts).2
      have hstep := tagDbOK_removeTag h (hpos t (List.mem_cons_self t rest))
        (hkc t (List.mem_cons_self t rest))
      have hmid := ih hrest
        (fun u hu => by
          have hut : u ≠ t := fun e => htr (e ▸ hu)
          simpa [hut] using hpos u (List.mem_cons_of_mem t hu))
        (fun u hu => by
          have hut : u ≠ t := fun e => htr (e ▸ hu)
          simpa [hut] using hkc u (List.mem_cons_of_mem t hu)) hstep
      refine tagDbOK_congr (fun u => ?_) hmid
      by_cases hur : u ∈ rest
      · have hut : u ≠ t := fun e => htr (e ▸ hur)
        simp [hur, hut, List.mem_cons]
      · by_cases hut : u = t
        · subst hut
          simp [hur, htr]
        · simp [hur, hut, List.mem_cons]

/-- Whether the live post with dense ID `i` carries tag `t` (false when no
post has that ID). -/
def postsHas (posts : List (Nat × List String)) (i : Nat) (t : String) : Prop :=
  t ∈ (find? i posts).getD []

/-- Modelled from the spec: replacing the stored record of a live ID on
`Db::update` (§4.10). -/
def setPost (posts : List (Nat × List String)) (j : Nat) (tags : List String) :
    List (Nat × List String) :=
  posts.map (fun e => if e.1 = j then (e.1, tags) else e)

theorem find?_cons {α β : Type} [DecidableEq α] (e : α × β) (l : List (α × β)) (k : α) :
    find? k (e :: l) = if e.1 = k then some e.2 else find? k l := rfl

theorem find?_setPost (posts : List (Nat × List String)) (j : Nat) (tags : List String)
    (i : Nat) :
    find? i (setPost posts j tags) =
      if i = j then (find? j posts).map (fun _ => tags) else find? i posts := by
  induction posts with
  | nil => by_cases hi : i = j <;> simp [setPost, find?, hi]
  | cons e r ih =>
      show find? i ((if e.1 = j then (e.1, tags) else e) :: setPost r j tags) = _
      by_cases hej : e.1 = j
      · by_cases hi : i = j
        · subst hi
          simp [find?_cons, hej, ih]
        · have hne : e.1 ≠ i := fun e' => hi (e'.symm.trans hej)
          simp [find?_cons, hej, hne, hi, Ne.symm hi, ih]
      · by_cases hi : i = j
        · subst hi
          simp [find?_cons, hej, ih]
        · by_cases hei : e.1 = i
          · simp [find?_cons, hej, hei, hi]
          · simp [find?_cons, hej, hei, hi, ih]

theorem map_fst_setPost (posts : List (Nat × List String)) (j : Nat) (tags : List String) :
    (setPost posts j tags).map Prod.fst = posts.map Prod.fst := by
  induction posts with
  | nil => rfl
  | cons e r ih =>
      show ((if e.1 = j then (e.1, tags) else e) :: setPost r j tags).map Prod.fst = _
      by_cases hej : e.1 = j
      · simp only [if_pos hej, List.map_cons, ih]
      · simp only [if_neg hej, List.map_cons, ih]

theorem find?_filterKeyNe {α β : Type} [DecidableEq α] (k : α) (l : List (α × β)) (i : α) :
    find? i (l.filter (fun e => e.1 ≠ k)) = if i = k then none else find? i l := by
  induction l with
  | nil => by_cases hi : i = k <;> simp [find?, hi]
  | cons e r ih =>
      rw [List.filter_cons]
      by_cases hek : e.1 = k
      · rw [if_neg (by simp [hek] : ¬ (decide (e.1 ≠ k) = true))]
        rw [ih]
        by_cases hi : i = k
        · simp [hi]
        · rw [if_neg hi, if_neg hi, find?_cons,
            if_neg (fun e' : e.1 = i => hi (e'.symm.trans hek))]
      · rw [if_pos (by simp [hek] : decide (e.1 ≠ k) = true)]
        rw [find?_cons]
        by_cases hei : e.1 = i
        · rw [if_pos hei, if_neg (fun e' : i = k => hek (hei.trans e')), find?_cons, if_pos hei]
        · rw [if_neg hei, ih, find?_cons, if_neg hei]

/-- The well-formedness of the ghost post corpus: one record per dense ID,
each with a duplicate-free tag list. -/
structure PostsOK (posts : List (Nat × List String)) : Prop where
  fstNodup : (posts.map Prod.fst).Nodup
  tagsNodup : ∀ e ∈ posts, e.2.Nodup

/-- The consistency of the keys index with the post corpus: distinct tag keys,
non-empty strictly sorted postings, and a posting contains an ID exactly when
the live post with that ID carries the tag. -/
structure KeysOK (posts : List (Nat × List String)) (ks : List (String × List Nat)) : Prop where
  fstNodup : (ks.map Prod.fst).Nodup
  postings : ∀ t p, find? t ks = some p → p ≠ [] ∧ p.Sorted (· < ·)
  memIff : ∀ t i, (i ∈ (find? t ks).getD []) ↔ postsHas posts i t

/-- The full tag-index state (`TagIndex` in src/index/tag.rs) together with the
owning database's ghost corpus of live posts (dense ID → tag list), which the
index operations receive their arguments from. -/
structure TagIndexState where
  posts : List (Nat × List String)
  keys : List (String × List Nat)
  abbrevs : Abbrevs
  tagDb : TagDbM

/-- `TagIndex::insert` (src/index/tag.rs) under `Db::insert`: the keys index
takes the new post first, then every tag of the post is counted into the
abbreviation table and pushed into the tag-db. -/
def tagIndexInsertOp (s : TagIndexState) (j : Nat) (tags : List String) : TagIndexState :=
  let keys' := keysInsert s.keys j tags
  let st := tags.foldl (fun (p : Abbrevs × TagDbM) t => (abbrevInsert t p.1, addTag keys' t p.2))
    (s.abbrevs, s.tagDb)
  { posts := s.posts ++ [(j, tags)], keys := keys', abbrevs := st.1, tagDb := st.2 }

/-- `TagIndex::remove` (src/index/tag.rs) under `Db::remove`: the keys index
drops the post first, then every tag of the post is discounted from the
abbreviation table and the tag-db. -/
def tagIndexRemoveOp (s : TagIndexState) (j : Nat) (tags : List String) : TagIndexState :=
  let keys' := keysRemove s.keys j tags
  let st := tags.foldl (fun (p : Abbrevs × TagDbM) t => (abbrevRemove t p.1, removeTag keys' t p.2))
    (s.abbrevs, s.tagDb)
  { posts := s.posts.filter (fun e => e.1 ≠ j), keys := keys', abbrevs := st.1, tagDb := st.2 }

/-- `TagIndex::update` (src/index/tag.rs), the index method alone: a no-op
when the tag lists are equal, otherwise the keys index is updated and the
added (new − old) and removed (old − new) tags are processed. -/
def tagIndexUpdateM (s : TagIndexState) (j : Nat) (oldT newT : List String) : TagIndexState :=
  if oldT = newT then s
  else
    let keys' := keysUpdate s.keys j oldT newT
    let added := newT.filter (· ∉ oldT)
    let removed := oldT.filter (· ∉ newT)
    let st1 := added.foldl (fun (p : Abbrevs × TagDbM) t => (abbrevInsert t p.1, addTag keys' t p.2))
      (s.abbrevs, s.tagDb)
    let st2 := removed.foldl (fun (p : Abbrevs × TagDbM) t => (abbrevRemove t p.1, removeTag keys' t p.2))
      st1
    { posts := s.posts, keys := keys', abbrevs := st2.1, tagDb := st2.2 }

/-- Modelled from the spec: `Db::update` replaces the stored record and
forwards to the index's update (§4.10). -/
def dbUpdateOp (s : TagIndexState) (j : Nat) (oldT newT : List String) : TagIndexState :=
  { tagIndexUpdateM s j oldT newT with posts := setPost s.posts j newT }

/-- One well-formed database operation: an insert of a fresh dense ID, a
removal of a live post (with its stored tag list), or an update of a live post
(from its stored tag list).  Tag lists carry no duplicates, as tag lists split
from a danbooru `tag_string` do. -/
inductive Step : TagIndexState → TagIndexState → Prop where
  | insert (s : TagIndexState) (j : Nat) (tags : List String) :
      find? j s.posts = none → tags.Nodup → Step s (tagIndexInsertOp s j tags)
  | remove (s : TagIndexState) (j : Nat) (tags : List String) :
      find? j s.posts = some tags → Step s (tagIndexRemoveOp s j tags)
  | update (s : TagIndexState) (j : Nat) (oldT newT : List String) :
      find? j s.posts = some oldT → newT.Nodup → Step s (dbUpdateOp s j oldT newT)

/-- `TagIndexLoader::load` (src/index/tag.rs) applied to a finite corpus:
posts get dense IDs `0..n−1`; the keys index is bulk-built; the abbreviation
table is seeded with `insert_item` per tag at its loaded count; the tag-db is
loaded with one `Tag{name, count}` record per tag of the keys index, dense tag
IDs assigned in enumeration order. -/
def loadTagIndex (postTags : List (List String)) : TagIndexState :=
  let posts := postTags.enum
  let ks := posts.foldl (fun a e => keysInsert a e.1 e.2) []
  let ab := ks.foldl (fun a e => abbrevInsertItem e.1 e.2.length a) []
  let d := ks.enum.foldl (fun x e => tagDbInsert e.1 e.2.1 e.2.2.length x)
    ⟨[], [], [], [], [], []⟩
  { posts := posts, keys := ks, abbrevs := ab, tagDb := d }

/-- The states of the tag index reachable from a loaded corpus by any sequence
of insert/remove/update operations. -/
inductive Reachable : TagIndexState → Prop where
  | loaded (postTags : List (List String)) :
      (∀ tl ∈ postTags, tl.Nodup) → Reachable (loadTagIndex postTags)
  | step {s s' : TagIndexState} : Reachable s → Step s s' → Reachable s'

/-- The whole invariant tying the four components of a tag-index state
together; the abbreviation table and the tag-db are measured against the live
popcounts of the keys index. -/
structure Inv (s : TagIndexState) : Prop where
  postsOK : PostsOK s.posts
  keysOK : KeysOK s.posts s.keys
  abbrevsOK : AbbrevsOK (fun t => keysCount t s.keys) s.abbrevs
  tagDbOK : TagDbOK (fun t => keysCount t s.keys) s.tagDb

theorem postsHas_append_fresh {posts : List (Nat × List String)} {j : Nat} {tags : List String}
    (hj : find? j posts = none) (i : Nat) (t : String) :
    postsHas (posts ++ [(j, tags)]) i t ↔ (i = j ∧ t ∈ tags) ∨ postsHas posts i t := by
  unfold postsHas
  rw [find?_append]
  rcases hfp : find? i posts with _ | tl
  · by_cases hij : j = i
    · subst hij
      simp [find?_cons, find?, hfp, hj]
    · simp [find?_cons, find?, hij]
      intro e
      exact absurd e.symm hij
  · have hij : i ≠ j := by
      intro e
      rw [e, hj] at hfp
      cases hfp
    simp [hfp, hij]

theorem postsHas_filter {posts : List (Nat × List String)} {j : Nat} (i : Nat) (t : String) :
    postsHas (posts.filter (fun e => e.1 ≠ j)) i t ↔ postsHas posts i t ∧ i ≠ j := by
  unfold postsHas
  rw [find?_filterKeyNe]
  by_cases hij : i = j
  · simp [hij]
  · simp [hij]

theorem postsHas_setPost {posts : List (Nat × List String)} {j : Nat} {oldT newT : List String}
    (hj : find? j posts = some oldT) (i : Nat) (t : String) :
    postsHas (setPost posts j newT) i t ↔
      (if i = j then t ∈ newT else postsHas posts i t) := by
  unfold postsHas
  rw [find?_setPost]
  by_cases hij : i = j
  · subst hij
    rw [if_pos rfl, if_pos rfl, hj]
    simp
  · rw [if_neg hij, if_neg hij]

theorem keysOK_fresh {posts : List (Nat × List String)} {ks : List (String × List Nat)}
    (h : KeysOK posts ks) {j : Nat} (hj : find? j posts = none) (t : String) :
    j ∉ (find? t ks).getD [] := by
  intro hmem
  have := (h.memIff t j).mp hmem
  unfold postsHas at this
  rw [hj] at this
  simp at this

theorem keysOK_mem_of_posts {posts : List (Nat × List String)} {ks : List (String × List Nat)}
    (h : KeysOK posts ks) {j : Nat} {tags : List String} (hj : find? j posts = some tags)
    {t : String} (ht : t ∈ tags) : j ∈ (find? t ks).getD [] := by
  refine (h.memIff t j).mpr ?_
  unfold postsHas
  rw [hj]
  exact ht

theorem keysCount_pos_of_mem {posts : List (Nat × List String)} {ks : List (String × List Nat)}
    (h : KeysOK posts ks) {j : Nat} {tags : List String} (hj : find? j posts = some tags)
    {t : String} (ht : t ∈ tags) : 0 < keysCount t ks := by
  have hmem := keysOK_mem_of_posts h hj ht
  rw [keysCount, keysGet]
  exact List.length_pos.mpr (List.ne_nil_of_mem hmem)

theorem keysCount_insert_mem {posts : List (Nat × List String)} {ks : List (String × List Nat)}
    (h : KeysOK posts ks) {j : Nat} (hj : find? j posts = none) {tags : List String}
    (htags : tags.Nodup) {t : String} (ht : t ∈ tags) :
    keysCount t (keysInsert ks j tags) = keysCount t ks + 1 := by
  have hfresh : j ∉ (find? t ks).getD [] := keysOK_fresh h hj t
  rw [keysCount, keysGet, find?_keysInsert ks j htags, if_pos ht]
  show (addId j ((find? t ks).getD [])).length = keysCount t ks + 1
  rw [length_addId_of_not_mem hfresh]
  rfl

theorem keysCount_insert_not_mem {ks : List (String × List Nat)} {j : Nat}
    {tags : List String} (htags : tags.Nodup) {t : String} (ht : t ∉ tags) :
    keysCount t (keysInsert ks j tags) = keysCount t ks := by
  rw [keysCount, keysGet, find?_keysInsert ks j htags, if_neg ht]
  rfl

theorem keysCount_remove_mem {posts : List (Nat × List String)} {ks : List (String × List Nat)}
    (h : KeysOK posts ks) {j : Nat} {tags : List String} (hj : find? j posts = some tags)
    (htags : tags.Nodup) {t : String} (ht : t ∈ tags) :
    keysCount t (keysRemove ks j tags) = keysCount t ks - 1 := by
  have hmem := keysOK_mem_of_posts h hj ht
  rcases hf : find? t ks with _ | p
  · rw [hf] at hmem
    simp at hmem
  · rw [hf] at hmem
    simp only [Option.getD] at hmem
    have hnd : p.Nodup := (h.postings t p hf).2.nodup
    have hlen := length_delId_of_mem hnd hmem
    rw [keysCount, keysGet, find?_keysRemove j htags h.fstNodup, if_pos ht, hf]
    show ((if delId j p = [] then (none : Option (List Nat)) else some (delId j p)).getD
      []).length = keysCount t ks - 1
    rw [keysCount, keysGet, hf]
    show _ = p.length - 1
    by_cases hpe : delId j p = []
    · rw [if_pos hpe]
      rw [hpe] at hlen
      simp only [List.length_nil] at hlen
      show ([] : List Nat).length = p.length - 1
      simp only [List.length_nil]
      omega
    · rw [if_neg hpe]
      show (delId j p).length = p.length - 1
      omega

theorem keysCount_remove_not_mem {ks : List (String × List Nat)} {j : Nat}
    {tags : List String} (htags : tags.Nodup) (hnd : (ks.map Prod.fst).Nodup) {t : String}
    (ht : t ∉ tags) : keysCount t (keysRemove ks j tags) = keysCount t ks := by
  rw [keysCount, keysGet, find?_keysRemove j htags hnd, if_neg ht]
  rfl

theorem keysOK_insert {posts : List (Nat × List String)} {ks : List (String × List Nat)}
    (h : KeysOK posts ks) {j : Nat} {tags : List String} (hj : find? j posts = none)
    (htags : tags.Nodup) : KeysOK (posts ++ [(j, tags)]) (keysInsert ks j tags) := by
  refine ⟨nodup_fst_keysInsert h.fstNodup, ?_, ?_⟩
  · intro t p hf
    rw [find?_keysInsert ks j htags] at hf
    by_cases ht : t ∈ tags
    · rw [if_pos ht] at hf
      cases hf
      have hfresh : j ∉ (find? t ks).getD [] := keysOK_fresh h hj t
      constructor
      · intro he
        have : j ∈ addId j ((find? t ks).getD []) := mem_addId.mpr (Or.inl rfl)
        rw [he] at this
        cases this
      · refine sorted_addId ?_ hfresh
        rcases hf2 : find? t ks with _ | p0
        · simp
        · exact (h.postings t p0 hf2).2
    · rw [if_neg ht] at hf
      exact h.postings t p hf
  · intro t i
    rw [postsHas_append_fresh hj]
    by_cases ht : t ∈ tags
    · have hget : (find? t (keysInsert ks j tags)).getD [] =
          addId j ((find? t ks).getD []) := by
        rw [find?_keysInsert ks j htags, if_pos ht]
        rfl
      rw [hget, mem_addId, ← h.memIff t i]
      constructor
      · rintro (rfl | hmem)
        · exact Or.inl ⟨rfl, ht⟩
        · exact Or.inr hmem
      · rintro (⟨rfl, _⟩ | hmem)
        · exact Or.inl rfl
        · exact Or.inr hmem
    · have hget : find? t (keysInsert ks j tags) = find? t ks := by
        rw [find?_keysInsert ks j htags, if_neg ht]
      rw [hget, ← h.memIff t i]
      constructor
      · intro hmem
        exact Or.inr hmem
      · rintro (⟨rfl, htt⟩ | hmem)
        · exact absurd htt ht
        · exact hmem

theorem keysOK_remove {posts : List (Nat × List String)} {ks : List (String × List Nat)}
    (h : KeysOK posts ks) {j : Nat} {tags : List String} (hj : find? j posts = some tags)
    (htags : tags.Nodup) :
    KeysOK (posts.filter (fun e => e.1 ≠ j)) (keysRemove ks j tags) := by
  refine ⟨nodup_fst_keysRemove h.fstNodup, ?_, ?_⟩
  · intro t p hf
    rw [find?_keysRemove j htags h.fstNodup] at hf
    by_cases ht : t ∈ tags
    · rw [if_pos ht] at hf
      rcases hf2 : find? t ks with _ | p0
      · rw [hf2] at hf
        cases hf
      · rw [hf2] at hf
        by_cases hpe : delId j p0 = []
        · rw [show (match some p0 with
              | none => (none : Option (List Nat))
              | some p => if delId j p = [] then none else some (delId j p)) = none by
                show (if delId j p0 = [] then (none : Option (List Nat)) else _) = none
                rw [if_pos hpe]] at hf
          cases hf
        · rw [show (match some p0 with
              | none => (none : Option (List Nat))
              | some p => if delId j p = [] then none else some (delId j p)) =
                some (delId j p0) by
                show (if delId j p0 = [] then (none : Option (List Nat)) else _) = _
                rw [if_neg hpe]] at hf
          cases hf
          exact ⟨hpe, sorted_delId (h.postings t p0 hf2).2⟩
    · rw [if_neg ht] at hf
      exact h.postings t p hf
  · intro t i
    rw [postsHas_filter, ← h.memIff t i]
    rw [find?_keysRemove j htags h.fstNodup]
    by_cases ht : t ∈ tags
    · rw [if_pos ht]
      rcases hf2 : find? t ks with _ | p0
      · simp
      · show i ∈ (if delId j p0 = [] then (none : Option (List Nat))
            else some (delId j p0)).getD [] ↔ i ∈ (some p0).getD [] ∧ i ≠ j
        by_cases hpe : delId j p0 = []
        · rw [if_pos hpe]
          show i ∈ ([] : List Nat) ↔ i ∈ p0 ∧ i ≠ j
          rw [← hpe, mem_delId]
        · rw [if_neg hpe]
          show i ∈ delId j p0 ↔ i ∈ p0 ∧ i ≠ j
          exact mem_delId
    · rw [if_neg ht]
      constructor
      · intro hmem
        refine ⟨hmem, ?_⟩
        intro hij
        subst hij
        have := (h.memIff t i).mp hmem
        unfold postsHas at this
        rw [hj] at this
        exact ht this
      · exact fun hx => hx.1

theorem keysCount_keysRemove_generic {ks : List (String × List Nat)}
    (hnd : (ks.map Prod.fst).Nodup) {j : Nat} {tags : List String} (htags : tags.Nodup)
    {t : String} (ht : t ∈ tags) {p : List Nat} (hf : find? t ks = some p) (hpnd : p.Nodup)
    (hmem : j ∈ p) : keysCount t (keysRemove ks j tags) = p.length - 1 := by
  have hlen := length_delId_of_mem hpnd hmem
  rw [keysCount, keysGet, find?_keysRemove j htags hnd, if_pos ht, hf]
  show ((if delId j p = [] then (none : Option (List Nat)) else some (delId j p)).getD
    []).length = p.length - 1
  by_cases hpe : delId j p = []
  · rw [if_pos hpe]
    rw [hpe] at hlen
    simp only [List.length_nil] at hlen
    show ([] : List Nat).length = p.length - 1
    simp only [List.length_nil]
    omega
  · rw [if_neg hpe]
    show (delId j p).length = p.length - 1
    omega

theorem mem_filter_not_mem {t : String} {l1 l2 : List String} :
    t ∈ l1.filter (· ∉ l2) ↔ t ∈ l1 ∧ t ∉ l2 := by
  simp [List.mem_filter]

theorem keysCount_update_added {posts : List (Nat × List String)}
    {ks : List (String × List Nat)} (h : KeysOK posts ks) {j : Nat} {oldT newT : List String}
    (hj : find? j posts = some oldT) (hold : oldT.Nodup) (hnew : newT.Nodup)
    {t : String} (ht : t ∈ newT) (hto : t ∉ oldT) :
    keysCount t (keysUpdate ks j oldT newT) = keysCount t ks + 1 := by
  have hadd : (newT.filter (· ∉ oldT)).Nodup := hnew.filter _
  have hrem : (oldT.filter (· ∉ newT)).Nodup := hold.filter _
  have hta : t ∈ newT.filter (· ∉ oldT) := mem_filter_not_mem.mpr ⟨ht, hto⟩
  have htr : t ∉ oldT.filter (· ∉ newT) := by
    intro hx
    exact hto (mem_filter_not_mem.mp hx).1
  have hfresh : j ∉ (find? t ks).getD [] := by
    intro hx
    have := (h.memIff t j).mp hx
    unfold postsHas at this
    rw [hj] at this
    exact hto this
  rw [keysUpdate, keysCount, keysGet,
    find?_keysRemove j hrem (nodup_fst_keysInsert h.fstNodup), if_neg htr,
    find?_keysInsert ks j hadd, if_pos hta]
  show (addId j ((find? t ks).getD [])).length = keysCount t ks + 1
  rw [length_addId_of_not_mem hfresh]
  rfl

theorem keysCount_update_removed {posts : List (Nat × List String)}
    {ks : List (String × List Nat)} (h : KeysOK posts ks) {j : Nat} {oldT newT : List String}
    (hj : find? j posts = some oldT) (hold : oldT.Nodup) (hnew : newT.Nodup)
    {t : String} (ht : t ∈ oldT) (htn : t ∉ newT) :
    keysCount t (keysUpdate ks j oldT newT) = keysCount t ks - 1 := by
  have hadd : (newT.filter (· ∉ oldT)).Nodup := hnew.filter _
  have hrem : (oldT.filter (· ∉ newT)).Nodup := hold.filter _
  have htr : t ∈ oldT.filter (· ∉ newT) := mem_filter_not_mem.mpr ⟨ht, htn⟩
  have hta : t ∉ newT.filter (· ∉ oldT) := by
    intro hx
    exact htn (mem_filter_not_mem.mp hx).1
  have hmem : j ∈ (find? t ks).getD [] := keysOK_mem_of_posts h hj ht
  rcases hf : find? t ks with _ | p
  · rw [hf] at hmem
    simp at hmem
  · rw [hf] at hmem
    simp only [Option.getD] at hmem
    have hf2 : find? t (keysInsert ks j (newT.filter (· ∉ oldT))) = some p := by
      rw [find?_keysInsert ks j hadd, if_neg hta, hf]
    have hres := keysCount_keysRemove_generic (nodup_fst_keysInsert h.fstNodup) hrem htr hf2
      (h.postings t p hf).2.nodup hmem
    rw [keysUpdate, hres, keysCount, keysGet, hf]
    rfl

theorem keysCount_update_other {posts : List (Nat × List String)}
    {ks : List (String × List Nat)} (h : KeysOK posts ks) {j : Nat} {oldT newT : List String}
    (hold : oldT.Nodup) (hnew : newT.Nodup)
    {t : String} (hta : t ∉ newT.filter (· ∉ oldT)) (htr : t ∉ oldT.filter (· ∉ newT)) :
    keysCount t (keysUpdate ks j oldT newT) = keysCount t ks := by
  have hadd : (newT.filter (· ∉ oldT)).Nodup := hnew.filter _
  have hrem : (oldT.filter (· ∉ newT)).Nodup := hold.filter _
  rw [keysUpdate, keysCount, keysGet,
    find?_keysRemove j hrem (nodup_fst_keysInsert h.fstNodup), if_neg htr,
    find?_keysInsert ks j hadd, if_neg hta]
  rfl

theorem keysOK_update {posts : List (Nat × List String)} {ks : List (String × List Nat)}
    (h : KeysOK posts ks) {j : Nat} {oldT newT : List String}
    (hj : find? j posts = some oldT) (hold : oldT.Nodup) (hnew : newT.Nodup) :
    KeysOK (setPost posts j newT) (keysUpdate ks j oldT newT) := by
  have hadd : (newT.filter (· ∉ oldT)).Nodup := hnew.filter _
  have hrem : (oldT.filter (· ∉ newT)).Nodup := hold.filter _
  have hnd2 : ((keysInsert ks j (newT.filter (· ∉ oldT))).map Prod.fst).Nodup :=
    nodup_fst_keysInsert h.fstNodup
  refine ⟨nodup_fst_keysRemove hnd2, ?_, ?_⟩
  · intro t p hf
    rw [keysUpdate, find?_keysRemove j hrem hnd2] at hf
    by_cases htr : t ∈ oldT.filter (· ∉ newT)
    · rw [if_pos htr] at hf
      have hta : t ∉ newT.filter (· ∉ oldT) := by
        intro hx
        exact (mem_filter_not_mem.mp htr).2 (mem_filter_not_mem.mp hx).1
      rw [find?_keysInsert ks j hadd, if_neg hta] at hf
      rcases hf2 : find? t ks with _ | p0
      · rw [hf2] at hf
        cases hf
      · rw [hf2] at hf
        by_cases hpe : delId j p0 = []
        · rw [show (match some p0 with
              | none => (none : Option (List Nat))
              | some p => if delId j p = [] then none else some (delId j p)) = none by
                show (if delId j p0 = [] then (none : Option (List Nat)) else _) = none
                rw [if_pos hpe]] at hf
          cases hf
        · rw [show (match some p0 with
              | none => (none : Option (List Nat))
              | some p => if delId j p = [] then none else some (delId j p)) =
                some (delId j p0) by
                show (if delId j p0 = [] then (none : Option (List Nat)) else _) = _
                rw [if_neg hpe]] at hf
          cases hf
          exact ⟨hpe, sorted_delId (h.postings t p0 hf2).2⟩
    · rw [if_neg htr, find?_keysInsert ks j hadd] at hf
      by_cases hta : t ∈ newT.filter (· ∉ oldT)
      · rw [if_pos hta] at hf
        cases hf
        have hfresh : j ∉ (find? t ks).getD [] := by
          intro hx
          have := (h.memIff t j).mp hx
          unfold postsHas at this
          rw [hj] at this
          exact (mem_filter_not_mem.mp hta).2 this
        constructor
        · intro he
          have : j ∈ addId j ((find? t ks).getD []) := mem_addId.mpr (Or.inl rfl)
          rw [he] at this
          cases this
        · refine sorted_addId ?_ hfresh
          rcases hf2 : find? t ks with _ | p0
          · simp
          · exact (h.postings t p0 hf2).2
      · rw [if_neg hta] at hf
        exact h.postings t p hf
  · intro t i
    rw [postsHas_setPost hj, keysUpdate, find?_keysRemove j hrem hnd2]
    by_cases htr : t ∈ oldT.filter (· ∉ newT)
    · have hto : t ∈ oldT := (mem_filter_not_mem.mp htr).1
      have htn : t ∉ newT := (mem_filter_not_mem.mp htr).2
      have hta : t ∉ newT.filter (· ∉ oldT) := by
        intro hx
        exact htn (mem_filter_not_mem.mp hx).1
      rw [if_pos htr, find?_keysInsert ks j hadd, if_neg hta]
      rcases hf2 : find? t ks with _ | p0
      · have hnm : ¬ postsHas posts i t := by
          intro hx
          have := (h.memIff t i).mpr hx
          rw [hf2] at this
          simp at this
        by_cases hij : i = j
        · simp [hij, htn]
        · simp [hij, hnm]
      · show i ∈ (if delId j p0 = [] then (none : Option (List Nat))
            else some (delId j p0)).getD [] ↔ _
        have hmem0 : ∀ x, x ∈ delId j p0 ↔ (postsHas posts x t ∧ x ≠ j) := by
          intro x
          rw [mem_delId]
          constructor
          · rintro ⟨hx1, hx2⟩
            refine ⟨(h.memIff t x).mp (by rw [hf2]; exact hx1), hx2⟩
          · rintro ⟨hx1, hx2⟩
            have := (h.memIff t x).mpr hx1
            rw [hf2] at this
            exact ⟨this, hx2⟩
        by_cases hpe : delId j p0 = []
        · rw [if_pos hpe]
          show i ∈ ([] : List Nat) ↔ _
          by_cases hij : i = j
          · simp [hij, htn]
          · have : i ∉ delId j p0 := by rw [hpe]; simp
            rw [hmem0 i] at this
            simp only [List.not_mem_nil, false_iff, hij, if_neg hij]
            intro hx
            exact this ⟨hx, hij⟩
        · rw [if_neg hpe]
          show i ∈ delId j p0 ↔ _
          rw [hmem0 i]
          by_cases hij : i = j
          · simp [hij, htn]
          · simp [hij]
    · rw [if_neg htr, find?_keysInsert ks j hadd]
      by_cases hta : t ∈ newT.filter (· ∉ oldT)
      · have htn : t ∈ newT := (mem_filter_not_mem.mp hta).1
        have hto : t ∉ oldT := (mem_filter_not_mem.mp hta).2
        rw [if_pos hta]
        show i ∈ addId j ((find? t ks).getD []) ↔ _
        rw [mem_addId, ← h.memIff t i]
        by_cases hij : i = j
        · simp [hij, htn]
        · simp [hij]
      · rw [if_neg hta]
        have hiff : t ∈ newT ↔ t ∈ oldT := by
          constructor
          · intro hx
            by_contra hc
            exact hta (mem_filter_not_mem.mpr ⟨hx, hc⟩)
          · intro hx
            by_contra hc
            exact htr (mem_filter_not_mem.mpr ⟨hx, hc⟩)
        by_cases hij : i = j
        · subst hij
          rw [if_pos rfl, h.memIff t i]
          have hpo : postsHas posts i t ↔ t ∈ oldT := by
            unfold postsHas
            rw [hj]
            exact Iff.rfl
          rw [hpo, hiff]
        · rw [if_neg hij]
          exact h.memIff t i

theorem inv_insert {s : TagIndexState} (h : Inv s) {j : Nat} {tags : List String}
    (hj : find? j s.posts = none) (htags : tags.Nodup) : Inv (tagIndexInsertOp s j tags) := by
  have hpair := foldl_pair (fun t a => abbrevInsert t a)
    (fun t x => addTag (keysInsert s.keys j tags) t x) tags s.abbrevs s.tagDb
  have hkeys : (tagIndexInsertOp s j tags).keys = keysInsert s.keys j tags := rfl
  have habb : (tagIndexInsertOp s j tags).abbrevs =
      tags.foldl (fun a t => abbrevInsert t a) s.abbrevs := by
    show (tags.foldl (fun (p : Abbrevs × TagDbM) t =>
      (abbrevInsert t p.1, addTag (keysInsert s.keys j tags) t p.2)) (s.abbrevs, s.tagDb)).1 = _
    rw [hpair]
  have htdb : (tagIndexInsertOp s j tags).tagDb =
      tags.foldl (fun x t => addTag (keysInsert s.keys j tags) t x) s.tagDb := by
    show (tags.foldl (fun (p : Abbrevs × TagDbM) t =>
      (abbrevInsert t p.1, addTag (keysInsert s.keys j tags) t p.2)) (s.abbrevs, s.tagDb)).2 = _
    rw [hpair]
  have hcong : ∀ u, (if u ∈ tags then keysCount u s.keys + 1 else keysCount u s.keys) =
      keysCount u (keysInsert s.keys j tags) := by
    intro u
    by_cases hu : u ∈ tags
    · rw [if_pos hu, keysCount_insert_mem h.keysOK hj htags hu]
    · rw [if_neg hu, keysCount_insert_not_mem htags hu]
  refine ⟨⟨?_, ?_⟩, keysOK_insert h.keysOK hj htags, ?_, ?_⟩
  · show ((s.posts ++ [(j, tags)]).map Prod.fst).Nodup
    rw [List.map_append, List.nodup_append]
    refine ⟨h.postsOK.fstNodup, by simp, ?_⟩
    intro a ha hb
    simp only [List.map_cons, List.map_nil, List.mem_singleton] at hb
    subst hb
    exact (find?_eq_none_iff.mp hj) ha
  · show ∀ e ∈ s.posts ++ [(j, tags)], e.2.Nodup
    intro e he
    rcases List.mem_append.mp he with h1 | h2
    · exact h.postsOK.tagsNodup e h1
    · rw [List.mem_singleton] at h2
      subst h2
      exact htags
  · rw [habb, hkeys]
    exact abbrevsOK_congr hcong (abbrevsOK_foldInsert htags h.abbrevsOK)
  · rw [htdb, hkeys]
    refine tagDbOK_congr hcong (tagDbOK_foldAdd htags ?_ h.tagDbOK)
    intro t ht
    exact keysCount_insert_mem h.keysOK hj htags ht

theorem inv_remove {s : TagIndexState} (h : Inv s) {j : Nat} {tags : List String}
    (hj : find? j s.posts = some tags) : Inv (tagIndexRemoveOp s j tags) := by
  have htags : tags.Nodup := h.postsOK.tagsNodup (j, tags) (find?_mem hj)
  have hpair := foldl_pair (fun t a => abbrevRemove t a)
    (fun t x => removeTag (keysRemove s.keys j tags) t x) tags s.abbrevs s.tagDb
  have hkeys : (tagIndexRemoveOp s j tags).keys = keysRemove s.keys j tags := rfl
  have habb : (tagIndexRemoveOp s j tags).abbrevs =
      tags.foldl (fun a t => abbrevRemove t a) s.abbrevs := by
    show (tags.foldl (fun (p : Abbrevs × TagDbM) t =>
      (abbrevRemove t p.1, removeTag (keysRemove s.keys j tags) t p.2)) (s.abbrevs, s.tagDb)).1 = _
    rw [hpair]
  have htdb : (tagIndexRemoveOp s j tags).tagDb =
      tags.foldl (fun x t => removeTag (keysRemove s.keys j tags) t x) s.tagDb := by
    show (tags.foldl (fun (p : Abbrevs × TagDbM) t =>
      (abbrevRemove t p.1, removeTag (keysRemove s.keys j tags) t p.2)) (s.abbrevs, s.tagDb)).2 = _
    rw [hpair]
  have hpos : ∀ t ∈ tags, 0 < keysCount t s.keys := by
    intro t ht
    exact keysCount_pos_of_mem h.keysOK hj ht
  have hcong : ∀ u, (if u ∈ tags then keysCount u s.keys - 1 else keysCount u s.keys) =
      keysCount u (keysRemove s.keys j tags) := by
    intro u
    by_cases hu : u ∈ tags
    · rw [if_pos hu, keysCount_remove_mem h.keysOK hj htags hu]
    · rw [if_neg hu, keysCount_remove_not_mem htags h.keysOK.fstNodup hu]
  refine ⟨⟨?_, ?_⟩, keysOK_remove h.keysOK hj htags, ?_, ?_⟩
  · show ((s.posts.filter (fun e => e.1 ≠ j)).map Prod.fst).Nodup
    have : List.Sublist ((s.posts.filter (fun e => e.1 ≠ j)).map Prod.fst)
        (s.posts.map Prod.fst) := List.Sublist.map Prod.fst (List.filter_sublist _)
    exact this.nodup h.postsOK.fstNodup
  · show ∀ e ∈ s.posts.filter (fun e => e.1 ≠ j), e.2.Nodup
    intro e he
    exact h.postsOK.tagsNodup e (List.mem_of_mem_filter he)
  · rw [habb, hkeys]
    exact abbrevsOK_congr hcong (abbrevsOK_foldRemove htags hpos h.abbrevsOK)
  · rw [htdb, hkeys]
    refine tagDbOK_congr hcong (tagDbOK_foldRemove htags hpos ?_ h.tagDbOK)
    intro t ht
    exact keysCount_remove_mem h.keysOK hj htags ht

theorem keysOK_congr_posts {p1 p2 : List (Nat × List String)} {ks : List (String × List Nat)}
    (hp : ∀ i t, postsHas p1 i t ↔ postsHas p2 i t) (h : KeysOK p1 ks) : KeysOK p2 ks :=
  ⟨h.fstNodup, h.postings, fun t i => (h.memIff t i).trans (hp i t)⟩

theorem postsOK_setPost {posts : List (Nat × List String)} (h : PostsOK posts)
    {j : Nat} {tags : List String} (htags : tags.Nodup) : PostsOK (setPost posts j tags) := by
  refine ⟨by rw [map_fst_setPost]; exact h.fstNodup, ?_⟩
  intro e he
  obtain ⟨e0, he0, heq⟩ := List.mem_map.mp he
  by_cases h0 : e0.1 = j
  · rw [if_pos h0] at heq
    subst heq
    exact htags
  · rw [if_neg h0] at heq
    subst heq
    exact h.tagsNodup e0 he0

theorem inv_update {s : TagIndexState} (h : Inv s) {j : Nat} {oldT newT : List String}
    (hj : find? j s.posts = some oldT) (hnew : newT.Nodup) : Inv (dbUpdateOp s j oldT newT) := by
  have hold : oldT.Nodup := h.postsOK.tagsNodup (j, oldT) (find?_mem hj)
  by_cases hne : oldT = newT
  · subst hne
    have hM : tagIndexUpdateM s j oldT oldT = s := by
      rw [tagIndexUpdateM, if_pos rfl]
    have hPosts : (dbUpdateOp s j oldT oldT).posts = setPost s.posts j oldT := rfl
    have hKeys : (dbUpdateOp s j oldT oldT).keys = s.keys := by
      show (tagIndexUpdateM s j oldT oldT).keys = s.keys
      rw [hM]
    have hAbb : (dbUpdateOp s j oldT oldT).abbrevs = s.abbrevs := by
      show (tagIndexUpdateM s j oldT oldT).abbrevs = s.abbrevs
      rw [hM]
    have hTdb : (dbUpdateOp s j oldT oldT).tagDb = s.tagDb := by
      show (tagIndexUpdateM s j oldT oldT).tagDb = s.tagDb
      rw [hM]
    have hph : ∀ i t, postsHas s.posts i t ↔ postsHas (setPost s.posts j oldT) i t := by
      intro i t
      rw [postsHas_setPost hj]
      by_cases hij : i = j
      · subst hij
        rw [if_pos rfl]
        unfold postsHas
        rw [hj]
        exact Iff.rfl
      · rw [if_neg hij]
    refine ⟨?_, ?_, ?_, ?_⟩
    · rw [hPosts]
      exact postsOK_setPost h.postsOK hold
    · rw [hPosts, hKeys]
      exact keysOK_congr_posts hph h.keysOK
    · rw [hAbb, hKeys]
      exact h.abbrevsOK
    · rw [hTdb, hKeys]
      exact h.tagDbOK
  · have hadd : (newT.filter (· ∉ oldT)).Nodup := hnew.filter _
    have hrem : (oldT.filter (· ∉ newT)).Nodup := hold.filter _
    have hKeys : (dbUpdateOp s j oldT newT).keys = keysUpdate s.keys j oldT newT := by
      show (tagIndexUpdateM s j oldT newT).keys = _
      rw [tagIndexUpdateM, if_neg hne]
    have hAbb : (dbUpdateOp s j oldT newT).abbrevs =
        (oldT.filter (· ∉ newT)).foldl (fun a t => abbrevRemove t a)
          ((newT.filter (· ∉ oldT)).foldl (fun a t => abbrevInsert t a) s.abbrevs) := by
      show (tagIndexUpdateM s j oldT newT).abbrevs = _
      rw [tagIndexUpdateM, if_neg hne]
      show ((oldT.filter (· ∉ newT)).foldl (fun (p : Abbrevs × TagDbM) t =>
          (abbrevRemove t p.1, removeTag (keysUpdate s.keys j oldT newT) t p.2))
        ((newT.filter (· ∉ oldT)).foldl (fun (p : Abbrevs × TagDbM) t =>
          (abbrevInsert t p.1, addTag (keysUpdate s.keys j oldT newT) t p.2))
          (s.abbrevs, s.tagDb))).1 = _
      rw [foldl_pair, foldl_pair]
    have hTdb : (dbUpdateOp s j oldT newT).tagDb =
        (oldT.filter (· ∉ newT)).foldl
          (fun x t => removeTag (keysUpdate s.keys j oldT newT) t x)
          ((newT.filter (· ∉ oldT)).foldl
            (fun x t => addTag (keysUpdate s.keys j oldT newT) t x) s.tagDb) := by
      show (tagIndexUpdateM s j oldT newT).tagDb = _
      rw [tagIndexUpdateM, if_neg hne]
      show ((oldT.filter (· ∉ newT)).foldl (fun (p : Abbrevs × TagDbM) t =>
          (abbrevRemove t p.1, removeTag (keysUpdate s.keys j oldT newT) t p.2))
        ((newT.filter (· ∉ oldT)).foldl (fun (p : Abbrevs × TagDbM) t =>
          (abbrevInsert t p.1, addTag (keysUpdate s.keys j oldT newT) t p.2))
          (s.abbrevs, s.tagDb))).2 = _
      rw [foldl_pair, foldl_pair]
    have hPosts : (dbUpdateOp s j oldT newT).posts = setPost s.posts j newT := rfl
    have hpos1 : ∀ u ∈ oldT.filter (· ∉ newT),
        0 < (if u ∈ newT.filter (· ∉ oldT) then keysCount u s.keys + 1
          else keysCount u s.keys) := by
      intro u hu
      have h1 := mem_filter_not_mem.mp hu
      have hna : u ∉ newT.filter (· ∉ oldT) := by
        intro hx
        exact h1.2 (mem_filter_not_mem.mp hx).1
      rw [if_neg hna]
      exact keysCount_pos_of_mem h.keysOK hj h1.1
    have hcong : ∀ u,
        (if u ∈ oldT.filter (· ∉ newT) then
          (if u ∈ newT.filter (· ∉ oldT) then keysCount u s.keys + 1 else keysCount u s.keys) - 1
        else
          (if u ∈ newT.filter (· ∉ oldT) then keysCount u s.keys + 1 else keysCount u s.keys)) =
        keysCount u (keysUpdate s.keys j oldT newT) := by
      intro u
      by_cases hur : u ∈ oldT.filter (· ∉ newT)
      · have h1 := mem_filter_not_mem.mp hur
        have hna : u ∉ newT.filter (· ∉ oldT) := by
          intro hx
          exact h1.2 (mem_filter_not_mem.mp hx).1
        rw [if_pos hur, if_neg hna, keysCount_update_removed h.keysOK hj hold hnew h1.1 h1.2]
      · by_cases hua : u ∈ newT.filter (· ∉ oldT)
        · have h1 := mem_filter_not_mem.mp hua
          rw [if_neg hur, if_pos hua, keysCount_update_added h.keysOK hj hold hnew h1.1 h1.2]
        · rw [if_neg hur, if_neg hua, keysCount_update_other h.keysOK hold hnew hua hur]
    have hkc1 : ∀ t ∈ newT.filter (· ∉ oldT),
        keysCount t (keysUpdate s.keys j oldT newT) = keysCount t s.keys + 1 := by
      intro t ht
      have h1 := mem_filter_not_mem.mp ht
      exact keysCount_update_added h.keysOK hj hold hnew h1.1 h1.2
    have hkc2 : ∀ t ∈ oldT.filter (· ∉ newT),
        keysCount t (keysUpdate s.keys j oldT newT) =
          (if t ∈ newT.filter (· ∉ oldT) then keysCount t s.keys + 1
            else keysCount t s.keys) - 1 := by
      intro t ht
      have h1 := mem_filter_not_mem.mp ht
      have hna : t ∉ newT.filter (· ∉ oldT) := by
        intro hx
        exact h1.2 (mem_filter_not_mem.mp hx).1
      rw [if_neg hna]
      exact keysCount_update_removed h.keysOK hj hold hnew h1.1 h1.2
    refine ⟨?_, ?_, ?_, ?_⟩
    · rw [hPosts]
      exact postsOK_setPost h.postsOK hnew
    · rw [hPosts, hKeys]
      exact keysOK_update h.keysOK hj hold hnew
    · rw [hAbb, hKeys]
      exact abbrevsOK_congr hcong
        (abbrevsOK_foldRemove hrem hpos1 (abbrevsOK_foldInsert hadd h.abbrevsOK))
    · rw [hTdb, hKeys]
      exact tagDbOK_congr hcong
        (tagDbOK_foldRemove hrem hpos1 hkc2 (tagDbOK_foldAdd hadd hkc1 h.tagDbOK))

theorem tagDbOK_insert {cur : String → Nat} {d : TagDbM} (h : TagDbOK cur d)
    {i : Nat} {nm : String} {c : Nat} (hocc : i ∉ d.occupied) (hcnt0 : cur nm = 0)
    (hc : 0 < c) :
    TagDbOK (fun u => if u = nm then c else cur u) (tagDbInsert i nm c d) := by
  have hni : find? nm d.nameToId = none := by
    rcases hf : find? nm d.nameToId with _ | k
    · rfl
    · have := (h.live nm).mp ⟨k, hf⟩
      omega
  have hinone : find? i d.idToName = none := by
    rcases hfi : find? i d.idToName with _ | t
    · rfl
    · exact absurd ((h.occDom _).mpr ⟨t, hfi⟩) hocc
  have hcnone : find? i d.counts = none := by
    rcases hfc : find? i d.counts with _ | c0
    · rfl
    · obtain ⟨t, ht⟩ := (h.cntDom _).mp ⟨c0, hfc⟩
      rw [hinone] at ht
      cases ht
  have hnoval : ∀ t, find? t d.nameToId ≠ some i := by
    intro t ht
    have := (h.pair t _).mp ht
    rw [hinone] at this
    cases this
  have hnmfresh : nm ∉ d.nameToId.map Prod.fst := find?_eq_none_iff.mp hni
  have hifresh : i ∉ d.idToName.map Prod.fst := find?_eq_none_iff.mp hinone
  have hcfresh : i ∉ d.counts.map Prod.fst := find?_eq_none_iff.mp hcnone
  refine ⟨?_, ?_, ?_, ?_, ?_, ?_, ?_, ?_, ?_⟩
  · show ((setA nm i d.nameToId).map Prod.fst).Nodup
    rw [map_fst_setA, if_neg hnmfresh, List.nodup_append]
    refine ⟨h.niNodup, List.nodup_singleton _, ?_⟩
    intro a ha hat
    rw [List.mem_singleton] at hat
    exact hnmfresh (hat ▸ ha)
  · show ((setA i nm d.idToName).map Prod.fst).Nodup
    rw [map_fst_setA, if_neg hifresh, List.nodup_append]
    refine ⟨h.inNodup, List.nodup_singleton _, ?_⟩
    intro a ha hat
    rw [List.mem_singleton] at hat
    exact hifresh (hat ▸ ha)
  · intro t j
    show find? t (setA nm i d.nameToId) = some j ↔ find? j (setA i nm d.idToName) = some t
    rw [find?_setA, find?_setA]
    by_cases ht : t = nm
    · subst ht
      rw [if_pos rfl]
      by_cases hj : j = i
      · subst hj
        simp
      · rw [if_neg hj]
        constructor
        · intro he
          cases he
          exact absurd rfl hj
        · intro he
          have := (h.pair t j).mpr he
          rw [hni] at this
          cases this
    · rw [if_neg ht]
      by_cases hj : j = i
      · subst hj
        rw [if_pos rfl]
        constructor
        · intro he
          exact absurd he (hnoval t)
        · intro he
          cases he
          exact absurd rfl ht
      · rw [if_neg hj]
        exact h.pair t j
  · intro t
    show (∃ k, find? t (setA nm i d.nameToId) = some k) ↔ _
    by_cases ht : t = nm
    · subst ht
      simp [find?_setA, hc]
    · simp only [find?_setA, if_neg ht]
      exact h.live t
  · intro t j
    show find? t (setA nm i d.nameToId) = some j →
      find? j (rangeInsert i c d.counts) = some _
    rw [find?_setA, rangeInsert, find?_append]
    by_cases ht : t = nm
    · subst ht
      rw [if_pos rfl]
      intro he
      cases he
      rw [hcnone]
      simp [find?]
    · rw [if_neg ht]
      intro he
      rw [h.countVal t j he]
      simp [ht]
  · show ((rangeInsert i c d.counts).map Prod.fst).Nodup
    rw [rangeInsert, List.map_append, List.nodup_append]
    refine ⟨h.cntNodup, by simp, ?_⟩
    intro a ha hb
    simp only [List.map_cons, List.map_nil, List.mem_singleton] at hb
    subst hb
    exact hcfresh ha
  · intro j
    show (∃ c0, find? j (rangeInsert i c d.counts) = some c0) ↔
      ∃ t, find? j (setA i nm d.idToName) = some t
    rw [rangeInsert, find?_append, find?_setA]
    by_cases hj : j = i
    · subst hj
      rw [if_pos rfl, hcnone]
      simp [find?]
    · rw [if_neg hj]
      rcases hf : find? j d.counts with _ | c0
      · simp only [find?, List.mem_singleton]
        rw [if_neg (fun e => hj e.symm)]
        constructor
        · rintro ⟨c1, hc1⟩
          cases hc1
        · intro he
          exact absurd ((h.cntDom j).mpr he) (by rw [hf]; rintro ⟨c1, hc1⟩; cases hc1)
      · constructor
        · intro _
          exact (h.cntDom j).mp ⟨c0, hf⟩
        · intro _
          exact ⟨c0, rfl⟩
  · intro j
    show j ∈ i :: d.occupied ↔ ∃ t, find? j (setA i nm d.idToName) = some t
    rw [List.mem_cons, find?_setA]
    by_cases hj : j = i
    · subst hj
      simp
    · rw [if_neg hj]
      simp only [hj, false_or]
      exact h.occDom j
  · exact List.nodup_cons.mpr ⟨hocc, h.occNodup⟩

theorem abbrevsOK_empty : AbbrevsOK (fun _ => 0) [] := by
  refine ⟨by simp, ?_, ?_⟩
  · intro a b hf
    cases hf
  · intro t ht
    omega

theorem tagDbOK_empty : TagDbOK (fun _ => 0) ⟨[], [], [], [], [], []⟩ := by
  refine ⟨by simp, by simp, ?_, ?_, ?_, by simp, ?_, ?_, by simp⟩
  · intro t i
    constructor
    · intro he
      cases he
    · intro he
      cases he
  · intro t
    constructor
    · rintro ⟨i, hi⟩
      cases hi
    · intro ht
      omega
  · intro t i he
    cases he
  · intro i
    constructor
    · rintro ⟨c, hc⟩
      cases hc
    · rintro ⟨t, ht⟩
      cases ht
  · intro i
    constructor
    · intro hi
      cases hi
    · rintro ⟨t, ht⟩
      cases ht

theorem keysOK_empty : KeysOK [] [] := by
  refine ⟨by simp, ?_, ?_⟩
  · intro t p hf
    cases hf
  · intro t i
    unfold postsHas
    show i ∈ ([] : List Nat) ↔ t ∈ (find? i ([] : List (Nat × List String))).getD []
    show i ∈ ([] : List Nat) ↔ t ∈ ([] : List String)
    simp

theorem mem_enumFrom_snd {α : Type} : ∀ {n : Nat} {l : List α} {e : Nat × α},
    e ∈ List.enumFrom n l → e.2 ∈ l := by
  intro n l
  induction l generalizing n with
  | nil => intro e he; cases he
  | cons x r ih =>
      intro e he
      rcases List.mem_cons.mp he with rfl | hmem
      · exact List.mem_cons_self x r
      · exact List.mem_cons_of_mem x (ih hmem)

theorem mem_enum_snd {α : Type} {l : List α} {e : Nat × α} (h : e ∈ l.enum) : e.2 ∈ l :=
  mem_enumFrom_snd h

theorem keysOK_loadFold :
    ∀ (entries : List (Nat × List String)) (P : List (Nat × List String))
      (ks : List (String × List Nat)),
      KeysOK P ks → (∀ e ∈ entries, e.2.Nodup) →
      (P.map Prod.fst ++ entries.map Prod.fst).Nodup →
      KeysOK (P ++ entries) (entries.foldl (fun a e => keysInsert a e.1 e.2) ks) := by
  intro entries
  induction entries with
  | nil =>
      intro P ks h _ _
      simpa using h
  | cons e rest ih =>
      intro P ks h hnd hfst
      have hfresh : e.1 ∉ P.map Prod.fst := by
        intro hx
        have : e.1 ∈ rest.map Prod.fst → False := by
          intro hy
          have := (List.nodup_append.mp hfst).2.2
          exact this hx (List.mem_cons_self _ _)
        exact (List.nodup_append.mp hfst).2.2 hx (List.mem_cons_self _ _)
      have hjnone : find? e.1 P = none := find?_eq_none_iff.mpr hfresh
      have hstep := keysOK_insert h hjnone (hnd e (List.mem_cons_self e rest))
      have hrec := ih (P ++ [(e.1, e.2)]) (keysInsert ks e.1 e.2)
        (by rw [Prod.mk.eta] at hstep; exact hstep)
        (fun x hx => hnd x (List.mem_cons_of_mem e hx))
        (by
          rw [List.map_append]
          have : (P.map Prod.fst ++ [e.1]) ++ rest.map Prod.fst =
              P.map Prod.fst ++ (e.1 :: rest.map Prod.fst) := by
            rw [List.append_assoc]
            rfl
          rw [show ([(e.1, e.2)].map Prod.fst) = [e.1] from rfl, this]
          simpa using hfst)
      have hshape : P ++ e :: rest = (P ++ [(e.1, e.2)]) ++ rest := by
        rw [List.append_assoc, Prod.mk.eta]
        rfl
      rw [hshape]
      exact hrec

theorem abbrevsOK_loadFold (cnt : String → Nat) :
    ∀ (entries : List (String × List Nat)) (ab : Abbrevs) (cur : String → Nat),
      AbbrevsOK cur ab →
      (entries.map Prod.fst).Nodup →
      (∀ e ∈ entries, cur e.1 = 0) →
      (∀ e ∈ entries, e.2.length = cnt e.1) →
      (∀ e ∈ entries, 0 < cnt e.1) →
      AbbrevsOK (fun u => if u ∈ entries.map Prod.fst then cnt u else cur u)
        (entries.foldl (fun a e => abbrevInsertItem e.1 e.2.length a) ab) := by
  intro entries
  induction entries with
  | nil =>
      intro ab cur h _ _ _ _
      exact abbrevsOK_congr (fun u => by simp) h
  | cons e rest ih =>
      intro ab cur h hnd h0 hval hpos
      have hnd1 : e.1 ∉ rest.map Prod.fst := (List.nodup_cons.mp (by simpa using hnd)).1
      have hndr : (rest.map Prod.fst).Nodup := (List.nodup_cons.mp (by simpa using hnd)).2
      have hstep := abbrevsOK_insertItem e.1 e.2.length h
        (h0 e (List.mem_cons_self e rest))
        (by rw [hval e (List.mem_cons_self e rest)]; exact hpos e (List.mem_cons_self e rest))
      have hstep' : AbbrevsOK (fun u => if u = e.1 then cnt u else cur u)
          (abbrevInsertItem e.1 e.2.length ab) := by
        refine abbrevsOK_congr (fun u => ?_) hstep
        by_cases hu : u = e.1
        · subst hu
          rw [if_pos rfl, if_pos rfl, hval e (List.mem_cons_self e rest)]
        · rw [if_neg hu, if_neg hu]
      have hrec := ih (abbrevInsertItem e.1 e.2.length ab)
        (fun u => if u = e.1 then cnt u else cur u) hstep' hndr
        (fun x hx => by
          have hne : x.1 ≠ e.1 := by
            intro hxe
            exact hnd1 (hxe ▸ List.mem_map_of_mem Prod.fst hx)
          show (if x.1 = e.1 then cnt x.1 else cur x.1) = 0
          rw [if_neg hne]
          exact h0 x (List.mem_cons_of_mem e hx))
        (fun x hx => hval x (List.mem_cons_of_mem e hx))
        (fun x hx => hpos x (List.mem_cons_of_mem e hx))
      refine abbrevsOK_congr (fun u => ?_) hrec
      by_cases hur : u ∈ rest.map Prod.fst
      · simp [hur, List.map_cons, List.mem_cons]
      · by_cases hue : u = e.1
        · subst hue
          simp [hur]
        · simp [hur, hue, List.map_cons, List.mem_cons]

theorem tagDbOK_loadFold (cnt : String → Nat) :
    ∀ (entries : List (Nat × (String × List Nat))) (d : TagDbM) (cur : String → Nat),
      TagDbOK cur d →
      ((entries.map (fun e => e.2.1)).Nodup) →
      (∀ e ∈ entries, e.1 ∉ d.occupied) →
      ((entries.map Prod.fst).Nodup) →
      (∀ e ∈ entries, cur e.2.1 = 0) →
      (∀ e ∈ entries, e.2.2.length = cnt e.2.1) →
      (∀ e ∈ entries, 0 < cnt e.2.1) →
      TagDbOK (fun u => if u ∈ entries.map (fun e => e.2.1) then cnt u else cur u)
        (entries.foldl (fun x e => tagDbInsert e.1 e.2.1 e.2.2.length x) d) := by
  intro entries
  induction entries with
  | nil =>
      intro d cur h _ _ _ _ _ _
      exact tagDbOK_congr (fun u => by simp) h
  | cons e rest ih =>
      intro d cur h hnames hocc hids h0 hval hpos
      have hn1 : e.2.1 ∉ rest.map (fun e => e.2.1) :=
        (List.nodup_cons.mp (by simpa using hnames)).1
      have hnr : (rest.map (fun e => e.2.1)).Nodup :=
        (List.nodup_cons.mp (by simpa using hnames)).2
      have hi1 : e.1 ∉ rest.map Prod.fst := (List.nodup_cons.mp (by simpa using hids)).1
      have hir : (rest.map Prod.fst).Nodup := (List.nodup_cons.mp (by simpa using hids)).2
      have hposlen : 0 < e.2.2.length := by
        rw [hval e (List.mem_cons_self e rest)]
        exact hpos e (List.mem_cons_self e rest)
      have hstep := tagDbOK_insert h (hocc e (List.mem_cons_self e rest))
        (h0 e (List.mem_cons_self e rest)) hposlen
      have hstep' : TagDbOK (fun u => if u = e.2.1 then cnt u else cur u)
          (tagDbInsert e.1 e.2.1 e.2.2.length d) := by
        refine tagDbOK_congr (fun u => ?_) hstep
        by_cases hu : u = e.2.1
        · subst hu
          rw [if_pos rfl, if_pos rfl, hval e (List.mem_cons_self e rest)]
        · rw [if_neg hu, if_neg hu]
      have hrec := ih (tagDbInsert e.1 e.2.1 e.2.2.length d)
        (fun u => if u = e.2.1 then cnt u else cur u) hstep' hnr
        (fun x hx => by
          show x.1 ∉ e.1 :: d.occupied
          rw [List.mem_cons]
          rintro (hxe | hxo)
          · exact hi1 (hxe ▸ List.mem_map_of_mem Prod.fst hx)
          · exact hocc x (List.mem_cons_of_mem e hx) hxo)
        hir
        (fun x hx => by
          have hne : x.2.1 ≠ e.2.1 := by
            intro hxe
            exact hn1 (hxe ▸ List.mem_map_of_mem (fun e => e.2.1) hx)
          show (if x.2.1 = e.2.1 then cnt x.2.1 else cur x.2.1) = 0
          rw [if_neg hne]
          exact h0 x (List.mem_cons_of_mem e hx))
        (fun x hx => hval x (List.mem_cons_of_mem e hx))
        (fun x hx => hpos x (List.mem_cons_of_mem e hx))
      refine tagDbOK_congr (fun u => ?_) hrec
      by_cases hur : u ∈ rest.map (fun e => e.2.1)
      · simp [hur, List.map_cons, List.mem_cons]
      · by_cases hue : u = e.2.1
        · subst hue
          simp [hur]
        · simp [hur, hue, List.map_cons, List.mem_cons]

theorem inv_load {postTags : List (List String)} (hnd : ∀ tl ∈ postTags, tl.Nodup) :
    Inv (loadTagIndex postTags) := by
  have hposts : (loadTagIndex postTags).posts = postTags.enum := rfl
  have hks : (loadTagIndex postTags).keys =
      postTags.enum.foldl (fun a e => keysInsert a e.1 e.2) [] := rfl
  have hkeysOK : KeysOK postTags.enum
      (postTags.enum.foldl (fun a e => keysInsert a e.1 e.2) []) := by
    have := keysOK_loadFold postTags.enum [] [] keysOK_empty
      (fun e he => hnd e.2 (mem_enum_snd he))
      (by
        show (([] : List Nat) ++ postTags.enum.map Prod.fst).Nodup
        rw [List.nil_append, List.enum_map_fst]
        exact List.nodup_range _)
    simpa using this
  set ks0 := postTags.enum.foldl (fun a e => keysInsert a e.1 e.2) [] with hks0
  have hval : ∀ e ∈ ks0, e.2.length = keysCount e.1 ks0 := by
    intro e he
    have hfe : find? e.1 ks0 = some e.2 :=
      find?_of_mem_nodup hkeysOK.fstNodup (by rw [Prod.mk.eta]; exact he)
    rw [keysCount, keysGet, hfe]
    rfl
  have hpos : ∀ e ∈ ks0, 0 < keysCount e.1 ks0 := by
    intro e he
    have hfe : find? e.1 ks0 = some e.2 :=
      find?_of_mem_nodup hkeysOK.fstNodup (by rw [Prod.mk.eta]; exact he)
    rw [keysCount, keysGet, hfe]
    exact List.length_pos.mpr (hkeysOK.postings e.1 e.2 hfe).1
  have hcnt_zero : ∀ u, u ∉ ks0.map Prod.fst → keysCount u ks0 = 0 := by
    intro u hu
    rw [keysCount, keysGet, find?_eq_none_iff.mpr hu]
    rfl
  refine ⟨⟨?_, ?_⟩, hkeysOK, ?_, ?_⟩
  · show (postTags.enum.map Prod.fst).Nodup
    rw [List.enum_map_fst]
    exact List.nodup_range _
  · intro e he
    exact hnd e.2 (mem_enum_snd he)
  · show AbbrevsOK (fun t => keysCount t ks0)
      (ks0.foldl (fun a e => abbrevInsertItem e.1 e.2.length a) [])
    have := abbrevsOK_loadFold (fun t => keysCount t ks0) ks0 [] (fun _ => 0)
      abbrevsOK_empty hkeysOK.fstNodup (fun _ _ => rfl)
      (fun e he => hval e he) (fun e he => hpos e he)
    refine abbrevsOK_congr (fun u => ?_) this
    by_cases hu : u ∈ ks0.map Prod.fst
    · rw [if_pos hu]
    · rw [if_neg hu, hcnt_zero u hu]
  · show TagDbOK (fun t => keysCount t ks0)
      (ks0.enum.foldl (fun x e => tagDbInsert e.1 e.2.1 e.2.2.length x) ⟨[], [], [], [], [], []⟩)
    have hname_eq : ks0.enum.map (fun e => e.2.1) = ks0.map Prod.fst := by
      have h1 : ks0.enum.map (fun e => e.2.1) = (ks0.enum.map Prod.snd).map Prod.fst := by
        rw [List.map_map]
        rfl
      rw [h1, List.enum_map_snd]
    have := tagDbOK_loadFold (fun t => keysCount t ks0) ks0.enum ⟨[], [], [], [], [], []⟩
      (fun _ => 0) tagDbOK_empty
      (by rw [hname_eq]; exact hkeysOK.fstNodup)
      (fun e _ => by show e.1 ∉ ([] : List Nat); simp)
      (by rw [List.enum_map_fst]; exact List.nodup_range _)
      (fun _ _ => rfl)
      (fun e he => hval e.2 (mem_enum_snd he))
      (fun e he => hpos e.2 (mem_enum_snd he))
    refine tagDbOK_congr (fun u => ?_) this
    rw [hname_eq]
    by_cases hu : u ∈ ks0.map Prod.fst
    · rw [if_pos hu]
    · rw [if_neg hu, hcnt_zero u hu]

theorem inv_step {s s' : TagIndexState} (h : Inv s) (hs : Step s s') : Inv s' := by
  cases hs with
  | insert j tags hj htags => exact inv_insert h hj htags
  | remove j tags hj => exact inv_remove h hj
  | update j oldT newT hj hnew => exact inv_update h hj hnew

/-- Every reachable tag-index state satisfies the full invariant. -/
theorem inv_reachable {s : TagIndexState} (h : Reachable s) : Inv s := by
  induction h with
  | loaded postTags hnd => exact inv_load hnd
  | step _ hs ih => exact inv_step ih hs

/-! ### Query AST and string predicates -/

/-- Modelled from the spec: a posting handle (§4.2) — a borrowed bitset
posting, a materialized owned id list, or a lazy range slice. -/
inductive Queryable where
  | borrowed (ids : List Nat)
  | idsOwned (ids : List Nat)
  | rangeSlice (lo hi : Nat)

/-- Modelled from the spec: the query AST (§4.7).  An `Item` is a single
posting or an and/or chain of sub-queries; a query is an item with an
`inverse` flag, kept here as an `Item × Bool` pair. -/
inductive Item where
  | single (q : Queryable)
  | andChain (qs : List (Item × Bool))
  | orChain (qs : List (Item × Bool))

/-- `p` is a prefix of `s` (Rust `str::starts_with` on the char level; UTF-8
is self-synchronizing, so byte-level and char-level prefixes agree). -/
def preB : List Char → List Char → Bool
  | [], _ => true
  | _ :: _, [] => false
  | a :: p, b :: s => a == b && preB p s

/-- `p` occurs inside `s` (Rust `str::contains` for a string pattern). -/
def subB (p : List Char) : List Char → Bool
  | [] => preB p []
  | c :: s => preB p (c :: s) || subB p s

/-- `p` is a suffix of `s` (Rust `str::ends_with`). -/
def sufB (p s : List Char) : Bool :=
  preB p.reverse s.reverse

/-- The first character of the string (Rust `str::starts_with(char)`). -/
def strStartsChar (s : String) (c : Char) : Bool :=
  s.data.head? == some c

/-- The last character of the string (Rust `str::ends_with(char)`). -/
def strEndsChar (s : String) (c : Char) : Bool :=
  s.data.getLast? == some c

/-- The string with its first character removed (the payload of Rust's
`str::strip_prefix(char)` when it hits). -/
def strDrop1 (s : String) : String := String.mk s.data.tail

/-- Whether the string holds the character (Rust `str::contains(char)`). -/
def strContainsChar (s : String) (c : Char) : Bool := s.data.contains c

/-- Rust `str::split(',')` on the char level: the comma-separated pieces,
empty pieces included (an empty string yields one empty piece). -/
def splitCommaCh : List Char → List (List Char)
  | [] => [[]]
  | c :: r =>
      if c = ',' then [] :: splitCommaCh r
      else
        match splitCommaCh r with
        | [] => [[c]]
        | p :: ps => (c :: p) :: ps

/-- Rust `str::split(',')` collected into strings. -/
def splitComma (s : String) : List String := (splitCommaCh s.data).map String.mk

/-- The UTF-8 byte width of one scalar value (what Rust's `str::len` sums). -/
def charBytes (c : Char) : Nat :=
  if c.toNat < 128 then 1
  else if c.toNat < 2048 then 2
  else if c.toNat < 65536 then 3
  else 4

/-- Rust `str::len`: the UTF-8 byte length of the string. -/
def byteLen (s : String) : Nat := (s.data.map charBytes).sum

/-- Modelled from the spec: the three text-query shapes of §4.6
(`starts_with`, `contains`, `ends_with`). -/
inductive TextQuery where
  | startsWith (t : String)
  | contains (t : String)
  | endsWith (t : String)

/-- The inner text of a parsed text query (booru_db `TextQuery::text`). -/
def TextQuery.text : TextQuery → String
  | .startsWith t => t
  | .contains t => t
  | .endsWith t => t

/-- Modelled from the spec: the `TextQuery` surface of §4.6 — `*x` → EndsWith,
`x*` → StartsWith, `*x*` → Contains, and the remaining forms are queried as
Contains. -/
def textQueryParse (s : String) : TextQuery :=
  let cs := s.data
  if strStartsChar s '*' && strEndsChar s '*' && decide (2 ≤ cs.length) then
    .contains (String.mk (cs.drop 1).dropLast)
  else if strEndsChar s '*' then .startsWith (String.mk cs.dropLast)
  else if strStartsChar s '*' then .endsWith (String.mk (cs.drop 1))
  else .contains s

/-- The full predicate of a text query against a stored string (the
`starts_with` / `contains` / `ends_with` filter of `TagDbNameIndex::query`). -/
def textMatch (q : TextQuery) (nm : String) : Bool :=
  match q with
  | .startsWith t => preB t.data nm.data
  | .contains t => subB t.data nm.data
  | .endsWith t => sufB t.data nm.data

/-- Modelled from the spec: the gram-posting lookup of `NgramIndex::query`
(§4.6) under the shortest-posting heuristic — look up every gram of the query
text and keep the shortest posting; `none` when the text has no gram or some
gram has no posting (then no stored string can contain the text). -/
def ngramPick (tbl : List (String × List (String × Nat))) :
    List String → Option (List (String × Nat))
  | [] => none
  | [g] => find? g tbl
  | g :: g' :: gs =>
      (find? g tbl).bind (fun p =>
        (ngramPick tbl (g' :: gs)).map (fun q => if p.length ≤ q.length then p else q))

/-- Modelled from the spec: `NgramIndex::query` over the `n`-grams of the
query text (§4.6). -/
def ngramQuery (n : Nat) (t : String) (tbl : List (String × List (String × Nat))) :
    Option (List (String × Nat)) :=
  ngramPick tbl (windowsStr n t)

/-- `TagDbNameIndex::query` (src/index/tag.rs): route on the byte length of
the query text (`0` → no posting, `1` → the 1-gram index, else the 2-gram
index); a missing posting yields an empty owned id list, otherwise the chosen
gram's posting is filtered by the full text predicate and the surviving ids
are returned in scan order. -/
def tagDbNameIndexQuery (q : TextQuery) (inverse : Bool) (d : TagDbM) :
    Option (Item × Bool) :=
  let t := TextQuery.text q
  let smallest :=
    match byteLen t with
    | 0 => none
    | 1 => ngramQuery 1 t d.ngram1
    | _ + 2 => ngramQuery 2 t d.ngram2
  match smallest with
  | none => some (Item.single (Queryable.idsOwned []), inverse)
  | some pl =>
      some (Item.single (Queryable.idsOwned
        ((pl.filter (fun e => textMatch q e.1)).map Prod.snd)), inverse)

/-- Reading a bitset built from the ids of an owned list: ascending dense-ID
order, duplicates collapsed (§4.1, §4.2 `to_bitset`). -/
def toBitsetIds (l : List Nat) : List Nat := l.foldl (fun a i => addId i a) []

/-- Modelled from the spec: the `tag_db.query(..) → EvalResult → get(0,
matched, false)` pipeline of `TagIndex::query` on a non-inverted `Single` text
atom (§4.7, §4.11): the default (name) index answers the parsed text query,
the resulting posting is materialized as a bitset, and all matched ids are
read in ascending order. -/
def tagDbQueryIds (text : String) (d : TagDbM) : Option (List Nat) :=
  match tagDbNameIndexQuery (textQueryParse text) false d with
  | some (Item.single (Queryable.idsOwned ids), _) => some (toBitsetIds ids)
  | _ => none

/-- `TagIndex::query` (src/index/tag.rs): a text that starts or ends with `*`
is answered through the tag-db — every matching tag id is mapped to its name
and that name's keys-index posting, collected into an `OrChain` of
non-inverted singles; `/a` is answered through the abbreviation table; any
other text is an exact keys-index lookup.  The source unwraps the id→name and
keys lookups of the wildcard branch; the model reads them with defaults,
which the tag-db invariant shows are never taken. -/
def tagIndexQuery (s : TagIndexState) (text : String) (inverse : Bool) :
    Option (Item × Bool) :=
  if strStartsChar text '*' || strEndsChar text '*' then
    (tagDbQueryIds text s.tagDb).map (fun tids =>
      (Item.orChain (tids.map (fun i =>
        (Item.single (Queryable.borrowed
          ((keysGet ((find? i s.tagDb.idToName).getD "") s.keys).getD [])), false))),
       inverse))
  else
    match (if strStartsChar text '/' then
            (abbrevGet (strDrop1 text) s.abbrevs).bind (fun tg => keysGet tg s.keys)
          else keysGet text s.keys) with
    | some p => some (Item.single (Queryable.borrowed p), inverse)
    | none => none

/-! ### Key, range and id index query paths -/

/-- The `query` method generated by `key_index!` (src/index/mod.rs), generic
over the key type's `FromStr` (`parse`) and the key index contents: a text
with a comma becomes an `OrChain` of non-inverted singles, one per value that
parses and has a posting (`None` when no value qualifies); a plain text is
parsed and looked up, `None` on a parse failure or a missing posting. -/
def keyIndexQuery {K : Type} [DecidableEq K] (parse : String → Option K)
    (items : List (K × List Nat)) (text : String) (inverse : Bool) :
    Option (Item × Bool) :=
  if strContainsChar text ',' then
    let orChain := (splitComma text).filterMap (fun v =>
      (parse v).bind (fun k => (find? k items).map (fun p =>
        (Item.single (Queryable.borrowed p), false))))
    if orChain.isEmpty then none
    else some (Item.orChain orChain, inverse)
  else
    match parse text with
    | some k =>
        match find? k items with
        | some p => some (Item.single (Queryable.borrowed p), inverse)
        | none => none
    | none => none

/-- Modelled from the spec: a parsed `RangeQuery<V>` (§4.4) — exact value,
one-sided bounds, or an inclusive two-sided range. -/
inductive RangeQueryM (V : Type) where
  | ex (v : V)
  | lt (v : V)
  | gt (v : V)
  | lowB (v : V)
  | upTo (w : V)
  | both (v w : V)

/-- The first occurrence of `..` splits the char list in two. -/
def splitDots : List Char → Option (List Char × List Char)
  | '.' :: '.' :: r => some ([], r)
  | c :: r => (splitDots r).map (fun pr => (c :: pr.1, pr.2))
  | [] => none

/-- Modelled from the spec: the `RangeQuery` grammar of §4.4 — `v..w`,
`v..=w`, `v..`, `..w`, `<v`, `>v`, `=v`, bare `v` — generic over the value
type's partial parse `pv`; any piece that `pv` rejects fails the whole
parse. -/
def rangeQueryParse {V : Type} (pv : String → Option V) (s : String) :
    Option (RangeQueryM V) :=
  match s.data with
  | '<' :: r => (pv (String.mk r)).map RangeQueryM.lt
  | '>' :: r => (pv (String.mk r)).map RangeQueryM.gt
  | '=' :: r => (pv (String.mk r)).map RangeQueryM.ex
  | cs =>
      match splitDots cs with
      | none => (pv (String.mk cs)).map RangeQueryM.ex
      | some (a, b) =>
          let b' := match b with
            | '=' :: r => r
            | _ => b
          if a.isEmpty then (pv (String.mk b')).map RangeQueryM.upTo
          else if b.isEmpty then (pv (String.mk a)).map RangeQueryM.lowB
          else (pv (String.mk a)).bind (fun va =>
            (pv (String.mk b')).map (RangeQueryM.both va))

/-- The `query` method generated by `range_index!` (src/index/mod.rs): parse
the text as a range query and hand it to the range index's `get` (kept
abstract here), carrying the `inverse` flag; a parse failure returns `None`. -/
def rangeIndexQuery {V : Type} (pv : String → Option V) (get : RangeQueryM V → Item)
    (text : String) (inverse : Bool) : Option (Item × Bool) :=
  (rangeQueryParse pv text).map (fun rq => (get rq, inverse))

/-- The numeric value of a digit string, most significant first. -/
def digitsVal (cs : List Char) : Nat := cs.foldl (fun a c => a * 10 + (c.toNat - 48)) 0

/-- Rust `u32::from_str`: an optional leading `+`, then one or more ASCII
digits whose value fits in 32 bits. -/
def parseU32 (s : String) : Option Nat :=
  let cs := match s.data with
    | '+' :: r => r
    | cs => cs
  if cs ≠ [] ∧ (∀ c ∈ cs, c.isDigit) ∧ digitsVal cs < 4294967296 then some (digitsVal cs)
  else none

/-- `ParentId::from_str` (src/index/mod.rs): the literal `none` is the
sentinel, a decimal u32 is the `Some` variant, anything else fails. -/
def parentIdFromStr (s : String) : Option (Option Nat) :=
  if s = "none" then some none else (parseU32 s).map some

/-- `PixivId::from_str` (src/index/mod.rs). -/
def pixivIdFromStr (s : String) : Option (Option Nat) :=
  if s = "none" then some none else (parseU32 s).map some

/-- `ApproverId::from_str` (src/index/mod.rs). -/
def approverIdFromStr (s : String) : Option (Option Nat) :=
  if s = "none" then some none else (parseU32 s).map some

/-- The derived `Ord` of `PixivId(Option<u32>)` (src/index/mod.rs): `None`
below every `Some`, `Some` by value. -/
def pixivIdLt : Option Nat → Option Nat → Bool
  | none, none => false
  | none, some _ => true
  | some _, none => false
  | some a, some b => a < b

/-- `IdIndex` (src/index/id.rs): the post-id → dense-id map and the range
index over post ids, kept as its id→value map. -/
structure IdIndexM where
  postIdToId : List (Nat × Nat)
  rangeVals : List (Nat × Nat)

/-- `IdIndex::insert` (src/index/id.rs). -/
def idIndexInsertOp (m : IdIndexM) (j pid : Nat) : IdIndexM :=
  ⟨setA pid j m.postIdToId, rangeInsert j pid m.rangeVals⟩

/-- `IdIndex::remove` (src/index/id.rs). -/
def idIndexRemoveOp (m : IdIndexM) (j pid : Nat) : IdIndexM :=
  ⟨removeA pid m.postIdToId, rangeRemove j pid m.rangeVals⟩

/-- `IdIndex::update` (src/index/id.rs): no-op when the post id is unchanged,
else remove then insert. -/
def idIndexUpdateOp (m : IdIndexM) (j oldPid newPid : Nat) : IdIndexM :=
  if oldPid = newPid then m
  else idIndexInsertOp (idIndexRemoveOp m j oldPid) j newPid

/-- `IdIndexLoader` (src/index/id.rs) over a corpus of post ids in dense-ID
order: each post id maps to its dense id. -/
def idIndexLoad (postIds : List Nat) : List (Nat × Nat) :=
  postIds.enum.foldl (fun m e => setA e.2 e.1 m) []

/-- `IdIndex::query` (src/index/id.rs): a comma text keeps, in text order,
the dense id of every piece that parses as a u32 and is a live post id
(`None` when none survives); a plain text is a range query, `None` on a parse
failure. -/
def idIndexQuery (postIdToId : List (Nat × Nat)) (get : RangeQueryM Nat → Item)
    (text : String) (inverse : Bool) : Option (Item × Bool) :=
  if strContainsChar text ',' then
    let ids := (splitComma text).filterMap (fun v =>
      (parseU32 v).bind (fun p => find? p postIdToId))
    if ids = [] then none
    else some (Item.single (Queryable.idsOwned ids), inverse)
  else
    (rangeQueryParse parseU32 text).map (fun rq => (get rq, inverse))

/-! ### Post materialization (status flags) -/

/-- `Status` (src/post.rs). -/
inductive Status where
  | active
  | banned
  | deleted
  | flagged
  | pending
  deriving DecidableEq

/-- ASCII lowercasing of a string (adequate for the enum literals the parsers
compare against; Rust's `to_lowercase` agrees on them). -/
def toLowerStr (s : String) : String := String.mk (s.data.map Char.toLower)

/-- `Status::from_str` (src/post.rs): lowercase, then match the five enum
names. -/
def statusFromStr (s : String) : Option Status :=
  if toLowerStr s = "active" then some .active
  else if toLowerStr s = "banned" then some .banned
  else if toLowerStr s = "deleted" then some .deleted
  else if toLowerStr s = "flagged" then some .flagged
  else if toLowerStr s = "pending" then some .pending
  else none

/-- The status if-chain of `BooruPost::from_row` (src/post.rs). -/
def statusOfFlags (isBanned isDeleted isFlagged isPending : Bool) : Status :=
  if isBanned then .banned
  else if isDeleted then .deleted
  else if isFlagged then .flagged
  else if isPending then .pending
  else .active

/-- Well-formedness of one gram table against the tag-db's id→name map: every
posted `(name, id)` pair is live with that name and carries the gram, and
every gram of a live name posts that name's pair.  Both parts quantify over
the stored entries, so the predicate is decidable on concrete states. -/
def ngramTableWF (n : Nat) (tbl : List (String × List (String × Nat)))
    (inm : List (Nat × String)) : Prop :=
  (∀ e ∈ tbl, ∀ pr ∈ e.2, find? pr.2 inm = some pr.1 ∧ e.1 ∈ windowsStr n pr.1)
  ∧ (∀ e ∈ inm, ∀ g ∈ windowsStr n e.2, (e.2, e.1) ∈ (find? g tbl).getD [])

/-! ### String predicate and window lemmas -/

theorem preB_iff {p s : List Char} : preB p s = true ↔ ∃ v, s = p ++ v := by
  induction p generalizing s with
  | nil => simp [preB]
  | cons a p ih =>
      cases s with
      | nil =>
          simp only [preB]
          constructor
          · intro h
            exact absurd h (by simp)
          · rintro ⟨v, hv⟩
            exact absurd hv (by simp)
      | cons b s =>
          simp only [preB, Bool.and_eq_true, beq_iff_eq, ih]
          constructor
          · rintro ⟨rfl, v, rfl⟩
            exact ⟨v, rfl⟩
          · rintro ⟨v, hv⟩
            rw [List.cons_append] at hv
            injection hv with h1 h2
            exact ⟨h1.symm, v, h2⟩

theorem subB_iff {p s : List Char} : subB p s = true ↔ ∃ u v, s = u ++ p ++ v := by
  induction s with
  | nil =>
      simp only [subB, preB_iff]
      constructor
      · rintro ⟨v, hv⟩
        exact ⟨[], v, hv⟩
      · rintro ⟨u, v, hv⟩
        refine ⟨v, ?_⟩
        have hu : u = [] := by
          cases u with
          | nil => rfl
          | cons x xs => exact absurd hv (by simp)
        rw [hu] at hv
        simpa using hv
  | cons c s ih =>
      simp only [subB, Bool.or_eq_true, preB_iff, ih]
      constructor
      · rintro (⟨v, hv⟩ | ⟨u, v, hv⟩)
        · exact ⟨[], v, by simpa using hv⟩
        · exact ⟨c :: u, v, by simp [hv]⟩
      · rintro ⟨u, v, hv⟩
        cases u with
        | nil =>
            left
            exact ⟨v, by simpa using hv⟩
        | cons x xs =>
            right
            rw [List.cons_append, List.cons_append] at hv
            injection hv with h1 h2
            exact ⟨xs, v, by rw [h2]⟩

theorem sufB_iff {p s : List Char} : sufB p s = true ↔ ∃ u, s = u ++ p := by
  rw [sufB, preB_iff]
  constructor
  · rintro ⟨v, hv⟩
    refine ⟨v.reverse, ?_⟩
    have := congrArg List.reverse hv
    simpa using this
  · rintro ⟨u, rfl⟩
    exact ⟨u.reverse, by simp⟩

theorem pre_sub {t nm g : List Char} (h1 : preB t nm = true) (h2 : subB g t = true) :
    subB g nm = true := by
  rw [preB_iff] at h1
  rw [subB_iff] at h2 ⊢
  obtain ⟨v, rfl⟩ := h1
  obtain ⟨u, w, rfl⟩ := h2
  exact ⟨u, w ++ v, by simp⟩

theorem suf_sub {t nm g : List Char} (h1 : sufB t nm = true) (h2 : subB g t = true) :
    subB g nm = true := by
  rw [sufB_iff] at h1
  rw [subB_iff] at h2 ⊢
  obtain ⟨v, rfl⟩ := h1
  obtain ⟨u, w, rfl⟩ := h2
  exact ⟨v ++ u, w, by simp⟩

theorem sub_sub {t nm g : List Char} (h1 : subB t nm = true) (h2 : subB g t = true) :
    subB g nm = true := by
  rw [subB_iff] at h1 h2 ⊢
  obtain ⟨a, b, rfl⟩ := h1
  obtain ⟨u, w, rfl⟩ := h2
  exact ⟨a ++ u, w ++ b, by simp⟩

theorem mem_windows {n : Nat} {l g : List Char} :
    g ∈ windows n l ↔ g.length = n ∧ subB g l = true := by
  rw [windows]
  constructor
  · intro hg
    obtain ⟨i, hi, rfl⟩ := List.mem_map.mp hg
    rw [List.mem_range] at hi
    have hin : i + n ≤ l.length := by omega
    constructor
    · rw [List.length_take, List.length_drop]
      omega
    · rw [subB_iff]
      refine ⟨l.take i, l.drop (i + n), ?_⟩
      have h2 : l.drop (i + n) = (l.drop i).drop n := by
        rw [List.drop_drop, Nat.add_comm]
      have h1 : (l.drop i).take n ++ l.drop (i + n) = l.drop i := by
        rw [h2, List.take_append_drop]
      rw [List.append_assoc, h1, List.take_append_drop]
  · rintro ⟨hlen, hsub⟩
    rw [subB_iff] at hsub
    obtain ⟨u, v, rfl⟩ := hsub
    refine List.mem_map.mpr ⟨u.length, ?_, ?_⟩
    · rw [List.mem_range, List.length_append, List.length_append, hlen]
      omega
    · rw [List.append_assoc, List.drop_left, ← hlen, List.take_left]

theorem mem_windowsStr {n : Nat} {s : String} {g : String} :
    g ∈ windowsStr n s ↔ g.data.length = n ∧ subB g.data s.data = true := by
  rw [windowsStr]
  constructor
  · intro hg
    obtain ⟨gl, hgl, rfl⟩ := List.mem_map.mp hg
    exact mem_windows.mp hgl
  · rintro ⟨hlen, hsub⟩
    refine List.mem_map.mpr ⟨g.data, mem_windows.mpr ⟨hlen, hsub⟩, rfl⟩

theorem ngramPick_some {tbl : List (String × List (String × Nat))}
    {gs : List String} {pl : List (String × Nat)}
    (h : ngramPick tbl gs = some pl) : ∃ g ∈ gs, find? g tbl = some pl := by
  induction gs generalizing pl with
  | nil => exact absurd h (by simp [ngramPick])
  | cons g rest ih =>
      cases rest with
      | nil =>
          refine ⟨g, List.mem_singleton.mpr rfl, ?_⟩
          simpa [ngramPick] using h
      | cons g' gs' =>
          rw [ngramPick] at h
          rcases hf : find? g tbl with _ | p
          · rw [hf] at h
            exact absurd h (by simp)
          · rw [hf] at h
            rcases hp : ngramPick tbl (g' :: gs') with _ | q
            · rw [hp] at h
              exact absurd h (by simp)
            · rw [hp] at h
              obtain ⟨g0, hg0, hfg0⟩ := ih hp
              have h2 : some (if p.length ≤ q.length then p else q) = some pl := h
              have h3 := Option.some.inj h2
              by_cases hle : p.length ≤ q.length
              · rw [if_pos hle] at h3
                exact ⟨g, List.mem_cons_self g _, by rw [hf, h3]⟩
              · rw [if_neg hle] at h3
                exact ⟨g0, List.mem_cons_of_mem g hg0, by rw [hfg0, h3]⟩

theorem ngramPick_isSome {tbl : List (String × List (String × Nat))}
    {gs : List String} (hne : gs ≠ [])
    (hall : ∀ g ∈ gs, (find? g tbl).isSome = true) :
    (ngramPick tbl gs).isSome = true := by
  induction gs with
  | nil => exact absurd rfl hne
  | cons g rest ih =>
      cases rest with
      | nil =>
          rw [ngramPick]
          exact hall g (List.mem_singleton.mpr rfl)
      | cons g' gs' =>
          rw [ngramPick]
          rcases hf : find? g tbl with _ | p
          · exact absurd (hf ▸ hall g (List.mem_cons_self g _)) (by simp)
          · have := ih (by simp) (fun x hx => hall x (List.mem_cons_of_mem g hx))
            rcases hp : ngramPick tbl (g' :: gs') with _ | q
            · rw [hp] at this
              exact absurd this (by simp)
            · simp

theorem charBytes_pos (c : Char) : 0 < charBytes c := by
  rw [charBytes]
  by_cases h1 : c.toNat < 128
  · rw [if_pos h1]
    omega
  · rw [if_neg h1]
    by_cases h2 : c.toNat < 2048
    · rw [if_pos h2]
      omega
    · rw [if_neg h2]
      by_cases h3 : c.toNat < 65536
      · rw [if_pos h3]
        omega
      · rw [if_neg h3]
        omega

theorem byteLen_eq_zero {s : String} (h : byteLen s = 0) : s.data = [] := by
  rcases hd : s.data with _ | ⟨c, r⟩
  · rfl
  · exfalso
    rw [byteLen, hd] at h
    simp only [List.map_cons, List.sum_cons] at h
    have := charBytes_pos c
    omega

theorem byteLen_one_length {s : String} (h : byteLen s = 1) : s.data.length = 1 := by
  rcases hd : s.data with _ | ⟨c, r⟩
  · exfalso
    rw [byteLen, hd] at h
    simp at h
  · rcases hr : r with _ | ⟨c2, r2⟩
    · simp
    · exfalso
      rw [byteLen, hd, hr] at h
      simp only [List.map_cons, List.sum_cons] at h
      have h1 := charBytes_pos c
      have h2 := charBytes_pos c2
      omega

theorem mem_toBitsetIds_fold {l : List Nat} {acc : List Nat} {i : Nat} :
    i ∈ l.foldl (fun a j => addId j a) acc ↔ i ∈ acc ∨ i ∈ l := by
  induction l generalizing acc with
  | nil => simp
  | cons x r ih =>
      rw [List.foldl_cons, ih]
      rw [mem_addId]
      constructor
      · rintro ((rfl | h) | h)
        · exact Or.inr (List.mem_cons.mpr (Or.inl rfl))
        · exact Or.inl h
        · exact Or.inr (List.mem_cons_of_mem x h)
      · rintro (h | h)
        · exact Or.inl (Or.inr h)
        · rcases List.mem_cons.mp h with rfl | h
          · exact Or.inl (Or.inl rfl)
          · exact Or.inr h

theorem mem_toBitsetIds {l : List Nat} {i : Nat} : i ∈ toBitsetIds l ↔ i ∈ l := by
  rw [toBitsetIds, mem_toBitsetIds_fold]
  simp

theorem addId_eq_of_mem {j : Nat} {p : List Nat} (hs : p.Sorted (· < ·)) (hj : j ∈ p) :
    addId j p = p := by
  induction p with
  | nil => exact absurd hj (by simp)
  | cons x r ih =>
      rw [addId]
      rcases List.mem_cons.mp hj with rfl | hjr
      · rw [if_neg (by omega), if_pos rfl]
      · have hx : x < j := (List.sorted_cons.mp hs).1 j hjr
        rw [if_neg (by omega), if_neg (by omega), ih (List.sorted_cons.mp hs).2 hjr]

theorem sorted_addId_any {j : Nat} {p : List Nat} (hs : p.Sorted (· < ·)) :
    (addId j p).Sorted (· < ·) := by
  by_cases hj : j ∈ p
  · rw [addId_eq_of_mem hs hj]
    exact hs
  · exact sorted_addId hs hj

theorem sorted_toBitsetIds (l : List Nat) : (toBitsetIds l).Sorted (· < ·) := by
  rw [toBitsetIds]
  have : ∀ acc : List Nat, acc.Sorted (· < ·) →
      (l.foldl (fun a j => addId j a) acc).Sorted (· < ·) := by
    induction l with
    | nil => exact fun acc h => h
    | cons x r ih =>
        intro acc hacc
        rw [List.foldl_cons]
        exact ih _ (sorted_addId_any hacc)
  exact this [] (by simp)

theorem length_windowsStr (n : Nat) (t : String) :
    (windowsStr n t).length = t.data.length + 1 - n := by
  simp [windowsStr, windows]

theorem ngramCore {n : Nat} {t : String} {tbl : List (String × List (String × Nat))}
    {inm : List (Nat × String)}
    (hwf : ngramTableWF n tbl inm) (hlen : n ≤ t.data.length)
    (pred : String → Bool)
    (hpred : ∀ nm, pred nm = true → subB t.data nm.data = true) :
    (∀ pl, ngramQuery n t tbl = some pl → ∀ e ∈ pl, find? e.2 inm = some e.1)
    ∧ (∀ i nm, find? i inm = some nm → pred nm = true →
        ∃ pl, ngramQuery n t tbl = some pl ∧ (nm, i) ∈ pl) := by
  constructor
  · intro pl hpl e he
    obtain ⟨g, hg, hfg⟩ := ngramPick_some hpl
    have hmem : (g, pl) ∈ tbl := find?_mem hfg
    exact (hwf.1 (g, pl) hmem e he).1
  · intro i nm hm hp
    have hsub : subB t.data nm.data = true := hpred nm hp
    have hgrams : ∀ g ∈ windowsStr n t, g ∈ windowsStr n nm := by
      intro g hg
      obtain ⟨hglen, hgsub⟩ := mem_windowsStr.mp hg
      exact mem_windowsStr.mpr ⟨hglen, sub_sub hsub hgsub⟩
    have he : (i, nm) ∈ inm := find?_mem hm
    have hpost : ∀ g ∈ windowsStr n t, (nm, i) ∈ (find? g tbl).getD [] := by
      intro g hg
      exact hwf.2 (i, nm) he g (hgrams g hg)
    have hall : ∀ g ∈ windowsStr n t, (find? g tbl).isSome = true := by
      intro g hg
      have := hpost g hg
      rcases hfg : find? g tbl with _ | pl
      · rw [hfg] at this
        exact absurd this (by simp)
      · simp
    have hne : windowsStr n t ≠ [] := by
      have h1 := length_windowsStr n t
      intro hc
      rw [hc] at h1
      simp only [List.length_nil] at h1
      omega
    have hs := ngramPick_isSome hne hall
    rcases hq : ngramPick tbl (windowsStr n t) with _ | pl
    · rw [hq] at hs
      exact absurd hs (by simp)
    · refine ⟨pl, hq, ?_⟩
      obtain ⟨g, hg, hfg⟩ := ngramPick_some hq
      have := hpost g hg
      rw [hfg] at this
      exact this

theorem textMatch_sub {q : TextQuery} {nm : String} (h : textMatch q nm = true) :
    subB (TextQuery.text q).data nm.data = true := by
  cases q with
  | startsWith t =>
      rw [textMatch] at h
      rw [subB_iff]
      obtain ⟨v, hv⟩ := preB_iff.mp h
      exact ⟨[], v, by simpa using hv⟩
  | contains t => exact h
  | endsWith t =>
      rw [textMatch] at h
      rw [subB_iff]
      obtain ⟨u, hu⟩ := sufB_iff.mp h
      exact ⟨u, [], by simpa using hu⟩

theorem nameQuerySpec (q : TextQuery) (inverse : Bool) (d : TagDbM)
    (hwf1 : ngramTableWF 1 d.ngram1 d.idToName)
    (hwf2 : ngramTableWF 2 d.ngram2 d.idToName)
    (hlen : 2 ≤ byteLen (TextQuery.text q) → 2 ≤ (TextQuery.text q).data.length) :
    ∃ ids, tagDbNameIndexQuery q inverse d
        = some (Item.single (Queryable.idsOwned ids), inverse)
      ∧ (∀ i ∈ ids, ∃ nm, find? i d.idToName = some nm ∧ textMatch q nm = true)
      ∧ ((TextQuery.text q).data ≠ [] →
          ∀ i nm, find? i d.idToName = some nm → textMatch q nm = true → i ∈ ids) := by
  rcases hb : byteLen (TextQuery.text q) with _ | _ | k
  · refine ⟨[], ?_, ?_, ?_⟩
    · simp only [tagDbNameIndexQuery, hb]
    · intro i hi
      exact absurd hi (by simp)
    · intro hne
      exact absurd (byteLen_eq_zero hb) hne
  · have hcore := ngramCore (t := TextQuery.text q) hwf1
      (by rw [byteLen_one_length hb]) (textMatch q ·) (fun nm h => textMatch_sub h)
    rcases hq : ngramQuery 1 (TextQuery.text q) d.ngram1 with _ | pl
    · refine ⟨[], ?_, ?_, ?_⟩
      · simp only [tagDbNameIndexQuery, hb, hq]
      · intro i hi
        exact absurd hi (by simp)
      · intro _ i nm hm hp
        obtain ⟨pl, hpl, _⟩ := hcore.2 i nm hm hp
        rw [hq] at hpl
        exact absurd hpl (by simp)
    · refine ⟨(pl.filter (fun e => textMatch q e.1)).map Prod.snd, ?_, ?_, ?_⟩
      · simp only [tagDbNameIndexQuery, hb, hq]
      · intro i hi
        obtain ⟨e, hef, rfl⟩ := List.mem_map.mp hi
        have hememb := List.mem_filter.mp hef
        exact ⟨e.1, hcore.1 pl hq e hememb.1, hememb.2⟩
      · intro _ i nm hm hp
        obtain ⟨pl', hpl', hin⟩ := hcore.2 i nm hm hp
        rw [hq] at hpl'
        have hpe := Option.some.inj hpl'
        rw [← hpe] at hin
        refine List.mem_map.mpr ⟨(nm, i), List.mem_filter.mpr ⟨hin, hp⟩, rfl⟩
  · have hcore := ngramCore (t := TextQuery.text q) hwf2
      (hlen (by omega)) (textMatch q ·) (fun nm h => textMatch_sub h)
    rcases hq : ngramQuery 2 (TextQuery.text q) d.ngram2 with _ | pl
    · refine ⟨[], ?_, ?_, ?_⟩
      · simp only [tagDbNameIndexQuery, hb, hq]
      · intro i hi
        exact absurd hi (by simp)
      · intro _ i nm hm hp
        obtain ⟨pl, hpl, _⟩ := hcore.2 i nm hm hp
        rw [hq] at hpl
        exact absurd hpl (by simp)
    · refine ⟨(pl.filter (fun e => textMatch q e.1)).map Prod.snd, ?_, ?_, ?_⟩
      · simp only [tagDbNameIndexQuery, hb, hq]
      · intro i hi
        obtain ⟨e, hef, rfl⟩ := List.mem_map.mp hi
        have hememb := List.mem_filter.mp hef
        exact ⟨e.1, hcore.1 pl hq e hememb.1, hememb.2⟩
      · intro _ i nm hm hp
        obtain ⟨pl', hpl', hin⟩ := hcore.2 i nm hm hp
        rw [hq] at hpl'
        have hpe := Option.some.inj hpl'
        rw [← hpe] at hin
        refine List.mem_map.mpr ⟨(nm, i), List.mem_filter.mpr ⟨hin, hp⟩, rfl⟩

instance ngramTableWFDec (n : Nat) (tbl : List (String × List (String × Nat)))
    (inm : List (Nat × String)) : Decidable (ngramTableWF n tbl inm) := by
  unfold ngramTableWF
  exact inferInstance

theorem strEndsChar_slash {a : String} (ha : strEndsChar a '*' = false) :
    strEndsChar (String.mk ('/' :: a.data)) '*' = false := by
  unfold strEndsChar at ha ⊢
  rcases hd : a.data with _ | ⟨c, r⟩
  · rfl
  · rw [hd] at ha
    show (('/' :: c :: r).getLast? == some '*') = false
    rw [List.getLast?_cons_cons]
    exact ha

/-- **C1** (corrected).  For every reachable tag-index state and abbreviation
string `a` (not ending in `*`, so the query is not routed as a wildcard), a
`/a` query returns `None` exactly when no live tag abbreviates to `a`, and a
`Some` result is the keys-index posting of *some* live tag whose abbreviation
is `a` — the head of the abbreviation bucket, which (see the counterexample)
need not be the tag with the highest count, because
`TagAbbreviations::insert` increments a bucket item's count in place without
re-sorting the bucket. -/
theorem C1_abbrev_query (s : TagIndexState) (hr : Reachable s) (a : String)
    (inverse : Bool) (ha : strEndsChar a '*' = false) :
    (tagIndexQuery s (String.mk ('/' :: a.data)) inverse = none
        ↔ ∀ t, abbreviate t = a → keysCount t s.keys = 0)
    ∧ (∀ it inv, tagIndexQuery s (String.mk ('/' :: a.data)) inverse = some (it, inv) →
        inv = inverse ∧ ∃ t p, abbreviate t = a ∧ 0 < keysCount t s.keys
          ∧ keysGet t s.keys = some p ∧ it = Item.single (Queryable.borrowed p)) := by
  have hinv := inv_reachable hr
  have hstart : strStartsChar (String.mk ('/' :: a.data)) '*' = false := rfl
  have hslash : strStartsChar (String.mk ('/' :: a.data)) '/' = true := rfl
  have hend := strEndsChar_slash ha
  have hcond : (strStartsChar (String.mk ('/' :: a.data)) '*'
      || strEndsChar (String.mk ('/' :: a.data)) '*') = false := by
    rw [hstart, hend]
    rfl
  have hform : tagIndexQuery s (String.mk ('/' :: a.data)) inverse
      = match (abbrevGet a s.abbrevs).bind (fun tg => keysGet tg s.keys) with
        | some p => some (Item.single (Queryable.borrowed p), inverse)
        | none => none := by
    simp only [tagIndexQuery]
    rw [if_neg (by simp [hcond]), if_pos hslash]
    rfl
  rcases habb : find? a s.abbrevs with _ | b
  · have hget : abbrevGet a s.abbrevs = none := by
      rw [abbrevGet, habb]
      rfl
    have hres : tagIndexQuery s (String.mk ('/' :: a.data)) inverse = none := by
      rw [hform, hget]
      rfl
    constructor
    · rw [hres]
      constructor
      · intro _ t hab
        by_contra hc
        have hpos : 0 < keysCount t s.keys := Nat.pos_of_ne_zero hc
        obtain ⟨bb, hfb, _⟩ := hinv.abbrevsOK.complete t hpos
        rw [hab, habb] at hfb
        exact Option.noConfusion hfb
      · intro _
        rfl
    · intro it inv heq
      rw [hres] at heq
      exact Option.noConfusion heq
  · obtain ⟨hbne, hbnd, hprops⟩ := hinv.abbrevsOK.buckets a b habb
    rcases hbs : b with _ | ⟨x, r⟩
    · exact absurd hbs hbne
    · have hx : x ∈ b := by
        rw [hbs]
        exact List.mem_cons_self x r
      obtain ⟨hxa, hxc, hxpos⟩ := hprops x hx
      have hpos : 0 < keysCount x.2 s.keys := by
        rw [← hxc]
        exact hxpos
      rcases hkg : keysGet x.2 s.keys with _ | p
      · exfalso
        rw [keysCount, hkg] at hpos
        simp at hpos
      · have hget : abbrevGet a s.abbrevs = some x.2 := by
          rw [abbrevGet, habb, hbs]
          rfl
        have hres : tagIndexQuery s (String.mk ('/' :: a.data)) inverse
            = some (Item.single (Queryable.borrowed p), inverse) := by
          rw [hform, hget]
          show (match keysGet x.2 s.keys with
            | some p => some (Item.single (Queryable.borrowed p), inverse)
            | none => none) = _
          rw [hkg]
        constructor
        · rw [hres]
          constructor
          · intro heq
            exact Option.noConfusion heq
          · intro hall
            exfalso
            have := hall x.2 hxa
            omega
        · intro it inv heq
          rw [hres] at heq
          injection heq with h1
          injection h1 with h2 h3
          exact ⟨h3.symm, x.2, p, hxa, hpos, hkg, h2.symm⟩

/-- **C1 counterexample.**  In the reachable state built by loading four posts
(two tagged `ab`, two tagged `ac`) and then inserting a fifth post tagged
`ab`, both tags abbreviate to `a`, tag `ab` has count 3 and tag `ac` count 2,
yet the query `/a` returns the posting of `ac` — the in-place count increment
of `TagAbbreviations::insert` left the stale bucket order `[ac, ab]`, so the
spec's "tag with the highest count" is not returned. -/
theorem C1_cex_stale_order :
    Reachable (tagIndexInsertOp (loadTagIndex [["ab"], ["ab"], ["ac"], ["ac"]]) 4 ["ab"])
    ∧ tagIndexQuery (tagIndexInsertOp (loadTagIndex [["ab"], ["ab"], ["ac"], ["ac"]]) 4 ["ab"])
        (String.mk ['/', 'a']) false
      = some (Item.single (Queryable.borrowed [2, 3]), false)
    ∧ abbreviate "ab" = "a" ∧ abbreviate "ac" = "a"
    ∧ keysCount "ab" (tagIndexInsertOp (loadTagIndex [["ab"], ["ab"], ["ac"], ["ac"]]) 4 ["ab"]).keys = 3
    ∧ keysCount "ac" (tagIndexInsertOp (loadTagIndex [["ab"], ["ab"], ["ac"], ["ac"]]) 4 ["ab"]).keys = 2
    ∧ keysGet "ab" (tagIndexInsertOp (loadTagIndex [["ab"], ["ab"], ["ac"], ["ac"]]) 4 ["ab"]).keys
        = some [0, 1, 4] :=
  ⟨Reachable.step (Reachable.loaded [["ab"], ["ab"], ["ac"], ["ac"]] (by decide))
      (Step.insert (loadTagIndex [["ab"], ["ab"], ["ac"], ["ac"]]) 4 ["ab"] rfl (by decide)),
    rfl, rfl, rfl, rfl, rfl, rfl⟩

/-- **C1 witness.**  The amended `/a` characterization applied to the loaded
single-post corpus `[["ab"]]` with abbreviation `a`. -/
theorem C1_abbrev_query_witness :
    (tagIndexQuery (loadTagIndex [["ab"]]) (String.mk ('/' :: "a".data)) false = none
        ↔ ∀ t, abbreviate t = "a" → keysCount t (loadTagIndex [["ab"]]).keys = 0)
    ∧ (∀ it inv, tagIndexQuery (loadTagIndex [["ab"]]) (String.mk ('/' :: "a".data)) false
          = some (it, inv) →
        inv = false ∧ ∃ t p, abbreviate t = "a" ∧ 0 < keysCount t (loadTagIndex [["ab"]]).keys
          ∧ keysGet t (loadTagIndex [["ab"]]).keys = some p
          ∧ it = Item.single (Queryable.borrowed p)) :=
  C1_abbrev_query (loadTagIndex [["ab"]]) (Reachable.loaded [["ab"]] (by decide)) "a" false
    (by decide)

/-- **C2.**  After any sequence of insert/remove/update operations from a
loaded state: a tag name has a tag-db record exactly when some live post
carries it; a record's stored count is the keys-index popcount of the tag;
the tag's posting holds exactly the live posts carrying it and is strictly
sorted (so its length is that number of posts).  The record-removal clause is
the right-to-left direction of the first conjunct at the successor state. -/
theorem C2_tagdb_record_iff_live (s : TagIndexState) (hr : Reachable s) (n : String) :
    ((∃ i, find? n s.tagDb.nameToId = some i) ↔ ∃ j, postsHas s.posts j n)
    ∧ (∀ i, find? n s.tagDb.nameToId = some i →
        find? i s.tagDb.counts = some (keysCount n s.keys))
    ∧ (∀ j, j ∈ (keysGet n s.keys).getD [] ↔ postsHas s.posts j n)
    ∧ (∀ p, keysGet n s.keys = some p → p ≠ [] ∧ p.Sorted (· < ·)) := by
  have hinv := inv_reachable hr
  refine ⟨?_, ?_, ?_, ?_⟩
  · rw [hinv.tagDbOK.live n]
    constructor
    · intro hpos
      rcases hkg : find? n s.keys with _ | p
      · exfalso
        simp only [keysCount, keysGet, hkg] at hpos
        simp at hpos
      · have hne : p ≠ [] := (hinv.keysOK.postings n p hkg).1
        rcases hps : p with _ | ⟨j, r⟩
        · exact absurd hps hne
        · refine ⟨j, (hinv.keysOK.memIff n j).mp ?_⟩
          rw [hkg, hps]
          exact List.mem_cons_self j r
    · rintro ⟨j, hj⟩
      have hmem := (hinv.keysOK.memIff n j).mpr hj
      simp only [keysCount, keysGet]
      rcases hkg : find? n s.keys with _ | p
      · rw [hkg] at hmem
        exact absurd hmem (by simp)
      · rw [hkg] at hmem
        simp only [Option.getD_some] at hmem ⊢
        exact List.length_pos.mpr (List.ne_nil_of_mem hmem)
  · intro i hi
    exact hinv.tagDbOK.countVal n i hi
  · intro j
    exact hinv.keysOK.memIff n j
  · intro p hp
    exact hinv.keysOK.postings n p hp

/-- **C2 witness.**  The tag-db/keys-index agreement applied to the loaded
single-post corpus `[["ab"]]` at tag `ab`. -/
theorem C2_tagdb_record_iff_live_witness :
    ((∃ i, find? "ab" (loadTagIndex [["ab"]]).tagDb.nameToId = some i)
        ↔ ∃ j, postsHas (loadTagIndex [["ab"]]).posts j "ab")
    ∧ (∀ i, find? "ab" (loadTagIndex [["ab"]]).tagDb.nameToId = some i →
        find? i (loadTagIndex [["ab"]]).tagDb.counts
          = some (keysCount "ab" (loadTagIndex [["ab"]]).keys))
    ∧ (∀ j, j ∈ (keysGet "ab" (loadTagIndex [["ab"]]).keys).getD []
        ↔ postsHas (loadTagIndex [["ab"]]).posts j "ab")
    ∧ (∀ p, keysGet "ab" (loadTagIndex [["ab"]]).keys = some p
        → p ≠ [] ∧ p.Sorted (· < ·)) :=
  C2_tagdb_record_iff_live (loadTagIndex [["ab"]]) (Reachable.loaded [["ab"]] (by decide)) "ab"

/-- **C3** (corrected).  For a reachable state with well-formed gram tables, a
wildcard tag query returns an `OrChain` of non-inverted `Single` postings, one
per tag-db id of a matching tag name, in *ascending tag-db id order* (the
order the evaluated bitset iterates in) — not sorted by count descending (see
the counterexample).  The ids are exactly those of the stored names matching
the wildcard predicate, each entry being the keys-index posting of a live
matching tag. -/
theorem C3_wildcard_orchain (s : TagIndexState) (hr : Reachable s) (text : String)
    (inverse : Bool)
    (hw : strStartsChar text '*' = true ∨ strEndsChar text '*' = true)
    (hwf1 : ngramTableWF 1 s.tagDb.ngram1 s.tagDb.idToName)
    (hwf2 : ngramTableWF 2 s.tagDb.ngram2 s.tagDb.idToName)
    (hlen : 2 ≤ byteLen (TextQuery.text (textQueryParse text)) →
        2 ≤ (TextQuery.text (textQueryParse text)).data.length) :
    ∃ tids : List Nat, tagIndexQuery s text inverse
        = some (Item.orChain (tids.map (fun i =>
            (Item.single (Queryable.borrowed
              ((keysGet ((find? i s.tagDb.idToName).getD "") s.keys).getD [])), false))),
          inverse)
      ∧ tids.Sorted (· < ·)
      ∧ (∀ i ∈ tids, ∃ nm p, find? i s.tagDb.idToName = some nm
          ∧ textMatch (textQueryParse text) nm = true ∧ keysGet nm s.keys = some p)
      ∧ ((TextQuery.text (textQueryParse text)).data ≠ [] →
          ∀ i nm, find? i s.tagDb.idToName = some nm →
            textMatch (textQueryParse text) nm = true → i ∈ tids) := by
  obtain ⟨ids, hq, hsound, hcomp⟩ :=
    nameQuerySpec (textQueryParse text) false s.tagDb hwf1 hwf2 hlen
  have hinv := inv_reachable hr
  have hbr : (strStartsChar text '*' || strEndsChar text '*') = true := by
    rcases hw with h | h
    · rw [h]
      rfl
    · rw [h, Bool.or_true]
  have hd : tagDbQueryIds text s.tagDb = some (toBitsetIds ids) := by
    rw [tagDbQueryIds, hq]
  refine ⟨toBitsetIds ids, ?_, sorted_toBitsetIds ids, ?_, ?_⟩
  · simp only [tagIndexQuery]
    rw [if_pos hbr, hd]
    rfl
  · intro i hi
    obtain ⟨nm, hnm, hmt⟩ := hsound i (mem_toBitsetIds.mp hi)
    have hni : find? nm s.tagDb.nameToId = some i := (hinv.tagDbOK.pair nm i).mpr hnm
    have hpos : 0 < keysCount nm s.keys := (hinv.tagDbOK.live nm).mp ⟨i, hni⟩
    rcases hkg : keysGet nm s.keys with _ | p
    · exfalso
      rw [keysCount, hkg] at hpos
      simp at hpos
    · exact ⟨nm, p, hnm, hmt, hkg⟩
  · intro hne i nm hnm hmt
    exact mem_toBitsetIds.mpr (hcomp hne i nm hnm hmt)

/-- **C3 counterexample.**  Loading posts tagged `[ab]`, `[ax]`, `[ax]` gives
tag `ab` (tag-db id 0) count 1 and tag `ax` (tag-db id 1) count 2; the
wildcard query `a*` returns the OrChain `[posting of ab, posting of ax]` —
counts 1 then 2, ascending, refuting the claimed count-descending order. -/
theorem C3_cex_count_order :
    tagIndexQuery (loadTagIndex [["ab"], ["ax"], ["ax"]]) "a*" false
      = some (Item.orChain
          [(Item.single (Queryable.borrowed [0]), false),
           (Item.single (Queryable.borrowed [1, 2]), false)], false)
    ∧ find? 0 (loadTagIndex [["ab"], ["ax"], ["ax"]]).tagDb.idToName = some "ab"
    ∧ find? 1 (loadTagIndex [["ab"], ["ax"], ["ax"]]).tagDb.idToName = some "ax"
    ∧ keysGet "ab" (loadTagIndex [["ab"], ["ax"], ["ax"]]).keys = some [0]
    ∧ keysGet "ax" (loadTagIndex [["ab"], ["ax"], ["ax"]]).keys = some [1, 2]
    ∧ keysCount "ab" (loadTagIndex [["ab"], ["ax"], ["ax"]]).keys = 1
    ∧ keysCount "ax" (loadTagIndex [["ab"], ["ax"], ["ax"]]).keys = 2 :=
  ⟨rfl, rfl, rfl, rfl, rfl, rfl, rfl⟩

/-- **C3 witness.**  The wildcard characterization applied to the loaded
corpus `[["ab"]]` and the query `a*`. -/
theorem C3_wildcard_orchain_witness :
    ∃ tids : List Nat, tagIndexQuery (loadTagIndex [["ab"]]) "a*" false
        = some (Item.orChain (tids.map (fun i =>
            (Item.single (Queryable.borrowed
              ((keysGet ((find? i (loadTagIndex [["ab"]]).tagDb.idToName).getD "")
                  (loadTagIndex [["ab"]]).keys).getD [])), false))),
          false)
      ∧ tids.Sorted (· < ·)
      ∧ (∀ i ∈ tids, ∃ nm p, find? i (loadTagIndex [["ab"]]).tagDb.idToName = some nm
          ∧ textMatch (textQueryParse "a*") nm = true
          ∧ keysGet nm (loadTagIndex [["ab"]]).keys = some p)
      ∧ ((TextQuery.text (textQueryParse "a*")).data ≠ [] →
          ∀ i nm, find? i (loadTagIndex [["ab"]]).tagDb.idToName = some nm →
            textMatch (textQueryParse "a*") nm = true → i ∈ tids) :=
  C3_wildcard_orchain (loadTagIndex [["ab"]]) (Reachable.loaded [["ab"]] (by decide)) "a*"
    false (Or.inr (by decide)) (by decide) (by decide) (by decide)

/-- **C4** (corrected).  A query against the tag-db name index always returns
an owned id list (an empty text yields the empty posting, never `None`); with
well-formed gram tables the list holds exactly the ids of the stored names
satisfying the text predicate — but in the scan order of the chosen gram's
posting, which is neither deduplicated nor ascending (see the
counterexample). -/
theorem C4_name_query_ids (q : TextQuery) (inverse : Bool) (d : TagDbM)
    (hwf1 : ngramTableWF 1 d.ngram1 d.idToName)
    (hwf2 : ngramTableWF 2 d.ngram2 d.idToName)
    (hlen : 2 ≤ byteLen (TextQuery.text q) → 2 ≤ (TextQuery.text q).data.length) :
    ((TextQuery.text q).data = [] →
        tagDbNameIndexQuery q inverse d
          = some (Item.single (Queryable.idsOwned []), inverse))
    ∧ ∃ ids : List Nat, tagDbNameIndexQuery q inverse d
          = some (Item.single (Queryable.idsOwned ids), inverse)
        ∧ (∀ i ∈ ids, ∃ nm, find? i d.idToName = some nm ∧ textMatch q nm = true)
        ∧ ((TextQuery.text q).data ≠ [] →
            ∀ i nm, find? i d.idToName = some nm → textMatch q nm = true → i ∈ ids) := by
  constructor
  · intro he
    have hb : byteLen (TextQuery.text q) = 0 := by
      simp only [byteLen, he, List.map_nil, List.sum_nil]
    simp only [tagDbNameIndexQuery, hb]
  · exact nameQuerySpec q inverse d hwf1 hwf2 hlen

/-- **C4 counterexample.**  With the single stored tag `aaa` (tag-db id 0),
the 2-gram `aa` posts `(aaa, 0)` twice; the query `*aa*` scans that posting
and returns the owned id list `[0, 0]` — not deduplicated (and so not
strictly ascending). -/
theorem C4_cex_duplicate_ids :
    tagDbNameIndexQuery (textQueryParse "*aa*") false (loadTagIndex [["aaa"]]).tagDb
      = some (Item.single (Queryable.idsOwned [0, 0]), false)
    ∧ ¬ ([0, 0] : List Nat).Nodup :=
  ⟨rfl, by decide⟩

/-- **C4 witness.**  The name-index characterization applied to the tag-db of
the loaded corpus `[["ab"]]` and the query text `ab` (as a Contains query). -/
theorem C4_name_query_ids_witness :
    ((TextQuery.text (TextQuery.contains "ab")).data = [] →
        tagDbNameIndexQuery (TextQuery.contains "ab") false (loadTagIndex [["ab"]]).tagDb
          = some (Item.single (Queryable.idsOwned []), false))
    ∧ ∃ ids : List Nat,
        tagDbNameIndexQuery (TextQuery.contains "ab") false (loadTagIndex [["ab"]]).tagDb
          = some (Item.single (Queryable.idsOwned ids), false)
        ∧ (∀ i ∈ ids, ∃ nm, find? i (loadTagIndex [["ab"]]).tagDb.idToName = some nm
            ∧ textMatch (TextQuery.contains "ab") nm = true)
        ∧ ((TextQuery.text (TextQuery.contains "ab")).data ≠ [] →
            ∀ i nm, find? i (loadTagIndex [["ab"]]).tagDb.idToName = some nm →
              textMatch (TextQuery.contains "ab") nm = true → i ∈ ids) :=
  C4_name_query_ids (TextQuery.contains "ab") false (loadTagIndex [["ab"]]).tagDb
    (by decide) (by decide) (by decide)

/-- **C5** (corrected).  A comma-separated id query returns `None` when no
piece qualifies, and otherwise an owned list holding the dense id of every
piece that parses as a u32 and is a live post id — in *text order*, which is
not sorted ascending in general (see the counterexample). -/
theorem C5_id_comma_text_order (postIdToId : List (Nat × Nat))
    (get : RangeQueryM Nat → Item) (text : String) (inverse : Bool)
    (hc : strContainsChar text ',' = true) :
    (idIndexQuery postIdToId get text inverse = none
      ↔ (splitComma text).filterMap (fun v =>
          (parseU32 v).bind (fun p => find? p postIdToId)) = [])
    ∧ (∀ it inv, idIndexQuery postIdToId get text inverse = some (it, inv) →
        inv = inverse ∧ it = Item.single (Queryable.idsOwned
          ((splitComma text).filterMap (fun v =>
            (parseU32 v).bind (fun p => find? p postIdToId))))) := by
  simp only [idIndexQuery, if_pos hc]
  rcases hq : (splitComma text).filterMap (fun v =>
      (parseU32 v).bind (fun p => find? p postIdToId)) with _ | ⟨x, xs⟩
  · rw [if_pos rfl]
    refine ⟨by simp, ?_⟩
    intro it inv heq
    exact Option.noConfusion heq
  · rw [if_neg (by simp)]
    constructor
    · constructor
      · intro heq
        exact Option.noConfusion heq
      · intro heq
        exact absurd heq (by simp)
    · intro it inv heq
      injection heq with h1
      injection h1 with h2 h3
      exact ⟨h3.symm, h2.symm⟩

/-- **C5 counterexample.**  With live posts whose post ids are 10 (dense 0)
and 20 (dense 1), the query `20,10` returns the owned dense-id list `[1, 0]`,
which is not sorted ascending. -/
theorem C5_cex_unsorted :
    idIndexQuery (idIndexLoad [10, 20]) (fun _ => Item.single (Queryable.idsOwned []))
        "20,10" false
      = some (Item.single (Queryable.idsOwned [1, 0]), false)
    ∧ ¬ ([1, 0] : List Nat).Sorted (· ≤ ·) :=
  ⟨rfl, by decide⟩

/-- **C5 witness.**  The text-order characterization applied to the id index
loaded from post ids `[10, 20]` and the query `20,10`. -/
theorem C5_id_comma_text_order_witness :
    (idIndexQuery (idIndexLoad [10, 20]) (fun _ => Item.single (Queryable.idsOwned []))
          "20,10" false = none
      ↔ (splitComma "20,10").filterMap (fun v =>
          (parseU32 v).bind (fun p => find? p (idIndexLoad [10, 20]))) = [])
    ∧ (∀ it inv, idIndexQuery (idIndexLoad [10, 20])
          (fun _ => Item.single (Queryable.idsOwned [])) "20,10" false = some (it, inv) →
        inv = false ∧ it = Item.single (Queryable.idsOwned
          ((splitComma "20,10").filterMap (fun v =>
            (parseU32 v).bind (fun p => find? p (idIndexLoad [10, 20])))))) :=
  C5_id_comma_text_order (idIndexLoad [10, 20])
    (fun _ => Item.single (Queryable.idsOwned [])) "20,10" false (by decide)

/-- **C6.**  For a key-style index and a comma-carrying text, the query is the
`OrChain` of one non-inverted `Single` posting per comma-separated value that
both parses as the key type and has a posting, and `None` when no value
qualifies. -/
theorem C6_key_comma_orchain {K : Type} [DecidableEq K] (parse : String → Option K)
    (items : List (K × List Nat)) (text : String) (inverse : Bool)
    (hc : strContainsChar text ',' = true) :
    keyIndexQuery parse items text inverse
      = (if ((splitComma text).filterMap (fun v =>
            (parse v).bind (fun k => find? k items))) = [] then none
         else some (Item.orChain
            (((splitComma text).filterMap (fun v =>
              (parse v).bind (fun k => find? k items))).map (fun p =>
                (Item.single (Queryable.borrowed p), false))), inverse)) := by
  simp only [keyIndexQuery, if_pos hc]
  have hrw : (splitComma text).filterMap (fun v =>
      (parse v).bind (fun k => (find? k items).map (fun p =>
        (Item.single (Queryable.borrowed p), false))))
      = ((splitComma text).filterMap (fun v =>
          (parse v).bind (fun k => find? k items))).map
            (fun p => (Item.single (Queryable.borrowed p), false)) := by
    rw [List.map_filterMap]
    congr 1
    funext v
    rcases parse v with _ | k
    · rfl
    · rfl
  rw [hrw]
  rcases hq : (splitComma text).filterMap (fun v =>
      (parse v).bind (fun k => find? k items)) with _ | ⟨x, xs⟩
  · rw [if_pos rfl]
    rfl
  · rw [if_neg (by simp)]
    rfl

/-- **C6 witness.**  The comma characterization applied to the status key
index `[(active, [0]), (deleted, [1])]` and the text `active,banned,deleted`
(where `banned` parses but has no posting). -/
theorem C6_key_comma_orchain_witness :
    keyIndexQuery statusFromStr [(Status.active, [0]), (Status.deleted, [1])]
        "active,banned,deleted" false
      = (if ((splitComma "active,banned,deleted").filterMap (fun v =>
            (statusFromStr v).bind (fun k =>
              find? k [(Status.active, [0]), (Status.deleted, [1])]))) = [] then none
         else some (Item.orChain
            (((splitComma "active,banned,deleted").filterMap (fun v =>
              (statusFromStr v).bind (fun k =>
                find? k [(Status.active, [0]), (Status.deleted, [1])]))).map (fun p =>
                  (Item.single (Queryable.borrowed p), false))), false)) :=
  C6_key_comma_orchain statusFromStr [(Status.active, [0]), (Status.deleted, [1])]
    "active,banned,deleted" false (by decide)

/-- **C7.**  For ParentId, PixivId and ApproverId: the literal `none` parses
to the sentinel `None` variant, a decimal u32 parses to the `Some` variant,
any other text fails to parse; and in the derived order used by the PixivId
range index, `None` is strictly below every `Some`. -/
theorem C7_option_parse_and_order :
    (parentIdFromStr "none" = some none ∧ pixivIdFromStr "none" = some none
      ∧ approverIdFromStr "none" = some none)
    ∧ (∀ s n, parseU32 s = some n →
        parentIdFromStr s = some (some n) ∧ pixivIdFromStr s = some (some n)
          ∧ approverIdFromStr s = some (some n))
    ∧ (∀ s, s ≠ "none" → parseU32 s = none →
        parentIdFromStr s = none ∧ pixivIdFromStr s = none ∧ approverIdFromStr s = none)
    ∧ (∀ n, pixivIdLt none (some n) = true)
    ∧ (∀ v, pixivIdLt v none = false) := by
  refine ⟨⟨rfl, rfl, rfl⟩, ?_, ?_, fun n => rfl, ?_⟩
  · intro s n h
    have hs : s ≠ "none" := by
      intro hc
      rw [hc] at h
      rw [show parseU32 "none" = none from rfl] at h
      exact Option.noConfusion h
    refine ⟨?_, ?_, ?_⟩
    · rw [parentIdFromStr, if_neg hs, h]
      rfl
    · rw [pixivIdFromStr, if_neg hs, h]
      rfl
    · rw [approverIdFromStr, if_neg hs, h]
      rfl
  · intro s hs h
    refine ⟨?_, ?_, ?_⟩
    · rw [parentIdFromStr, if_neg hs, h]
      rfl
    · rw [pixivIdFromStr, if_neg hs, h]
      rfl
    · rw [approverIdFromStr, if_neg hs, h]
      rfl
  · intro v
    rcases v with _ | n
    · rfl
    · rfl

/-- **C8.**  A query atom whose text is not a legal literal for the field is
silently dropped: a range-index query returns `None` on a range-parse
failure, a key-index query returns `None` when a comma-free text fails the
key parse and when every comma-separated piece fails it, and the id index
returns `None` when a comma-free text fails the range parse. -/
theorem C8_illegal_literal_drops_atom :
    (∀ (V : Type) (pv : String → Option V) (get : RangeQueryM V → Item) (text : String)
        (inverse : Bool), rangeQueryParse pv text = none →
          rangeIndexQuery pv get text inverse = none)
    ∧ (∀ (K : Type) (inst : DecidableEq K) (parse : String → Option K)
        (items : List (K × List Nat)) (text : String) (inverse : Bool),
        strContainsChar text ',' = false → parse text = none →
          @keyIndexQuery K inst parse items text inverse = none)
    ∧ (∀ (K : Type) (inst : DecidableEq K) (parse : String → Option K)
        (items : List (K × List Nat)) (text : String) (inverse : Bool),
        strContainsChar text ',' = true → (∀ v ∈ splitComma text, parse v = none) →
          @keyIndexQuery K inst parse items text inverse = none)
    ∧ (∀ (postIdToId : List (Nat × Nat)) (get : RangeQueryM Nat → Item) (text : String)
        (inverse : Bool), strContainsChar text ',' = false →
          rangeQueryParse parseU32 text = none →
            idIndexQuery postIdToId get text inverse = none) := by
  refine ⟨?_, ?_, ?_, ?_⟩
  · intro V pv get text inverse h
    rw [rangeIndexQuery, h]
    rfl
  · intro K inst parse items text inverse hc hp
    have hcf : ¬ (strContainsChar text ',' = true) := by simp [hc]
    simp only [keyIndexQuery, if_neg hcf]
    rw [hp]
  · intro K inst parse items text inverse hc hp
    simp only [keyIndexQuery, if_pos hc]
    have hnil : (splitComma text).filterMap (fun v =>
        (parse v).bind (fun k => (find? k items).map (fun p =>
          (Item.single (Queryable.borrowed p), false)))) = [] := by
      rw [List.filterMap_eq_nil_iff]
      intro v hv
      rw [hp v hv]
      rfl
    rw [hnil]
    rfl
  · intro postIdToId get text inverse hc h
    have hcf : ¬ (strContainsChar text ',' = true) := by simp [hc]
    simp only [idIndexQuery, if_neg hcf]
    rw [h]
    rfl

/-- **C9.**  An update whose old and new records project identically is a
no-op for the whole index state: equal tag lists for `TagIndex::update`,
equal post ids for `IdIndex::update`, equal names for
`TagDbIdIndex::update`. -/
theorem C9_equal_projection_noop :
    (∀ (s : TagIndexState) (j : Nat) (tags : List String), tagIndexUpdateM s j tags tags = s)
    ∧ (∀ (m : IdIndexM) (j pid : Nat), idIndexUpdateOp m j pid pid = m)
    ∧ (∀ (i : Nat) (nm : String) (ni : List (String × Nat)) (inm : List (Nat × String)),
        tagDbIdIndexUpdate i nm nm ni inm = (ni, inm)) := by
  refine ⟨?_, ?_, ?_⟩
  · intro s j tags
    rw [tagIndexUpdateM, if_pos rfl]
  · intro m j pid
    rw [idIndexUpdateOp, if_pos rfl]
  · intro i nm ni inm
    rw [tagDbIdIndexUpdate, if_pos rfl]

/-- **C10.**  The status of a materialized row follows the fixed flag
priority banned > deleted > flagged > pending > active: each status is
reached exactly when its flag is the first set one (active when none is
set). -/
theorem C10_status_flag_priority : ∀ b d f p : Bool,
    (statusOfFlags b d f p = Status.banned ↔ b = true)
    ∧ (statusOfFlags b d f p = Status.deleted ↔ (b = false ∧ d = true))
    ∧ (statusOfFlags b d f p = Status.flagged ↔ (b = false ∧ d = false ∧ f = true))
    ∧ (statusOfFlags b d f p = Status.pending
        ↔ (b = false ∧ d = false ∧ f = false ∧ p = true))
    ∧ (statusOfFlags b d f p = Status.active
        ↔ (b = false ∧ d = false ∧ f = false ∧ p = false)) := by
  decide

end BooruDanbooru
